import Mathlib

/-!
# BVH motion-capture parser and forward-kinematics evaluator

A shallow embedding of `src/external/bvh-parser.cpp`: the recursive-descent parser
`Bvh_parser::parse` with `parseHierarchy`, `parseJoint`, `parseMotion` and
`parseChannelOrder`, and the evaluator `Bvh::recalculateJoints`.

* The `std::ifstream` is a character buffer with the two state bits the code can
  observe (`eofbit`, `failbit`); `operator>>` skips whitespace through a sentry, leaves
  its target untouched when the sentry fails, and raises `eofbit` when a token runs
  into the end of the input.
* The lexical rules with which the standard library reads an `int`, a `float` or a
  `double` are not part of the repository: they are a parameter (`NumGet`), a one-pass
  scanner that never accepts whitespace. `refNumGet` is an executable instance.
* `Joint` objects live in a heap addressed by allocation index; a
  `std::shared_ptr<Joint>` is such an index. The classes `Joint` and `Bvh` are declared
  in `bvh-parser.h`, which is not among the sources; their fields and setters are
  modelled from the spec.
* A local variable read before it was assigned has the value given by `Indet`.
* The recursion of `parseJoint` and of `recalculateJoints` runs on a budget; `parse`
  hands down a budget that is always enough (`parse_isSome`).
* Scalars of the evaluator live in a semiring: the rounding of `float` is not
  modelled.
-/

namespace bvh

/-! ## The input stream -/

/-- Whitespace of the classic C locale: space, and the controls 9 to 13. -/
def isspace (c : Char) : Bool :=
  c.toNat == 32 || (9 ≤ c.toNat && c.toNat ≤ 13)

/-- State of a `std::ifstream` that was opened successfully. -/
structure IStream where
  buf : List Char
  eofbit : Bool
  failbit : Bool
  deriving DecidableEq

/-- The stream right after a successful open. -/
def IStream.ofContent (content : List Char) : IStream := ⟨content, false, false⟩

/-- Member `good()`: no state bit is set. -/
def IStream.good (s : IStream) : Bool := !s.eofbit && !s.failbit

/-- The sentry of a formatted input function with `skipws`: on a stream that is not
good it sets `failbit`; otherwise it skips whitespace and, when that reaches the end of
the input, sets `eofbit` and `failbit`. -/
def sentry (s : IStream) : IStream × Bool :=
  if s.good then
    match s.buf.dropWhile isspace with
    | [] => (⟨[], true, true⟩, false)
    | c :: cs => (⟨c :: cs, false, false⟩, true)
  else (⟨s.buf, s.eofbit, true⟩, false)

/-- Extraction `file >> str` for a `std::string`: the string is replaced by the
maximal run of non-whitespace characters, and is left as it was when the sentry fails. -/
def getString (s : IStream) (old : List Char) : IStream × List Char :=
  match sentry s with
  | (s1, false) => (s1, old)
  | (s1, true) =>
    (⟨s1.buf.dropWhile (fun c => !isspace c),
      (s1.buf.dropWhile (fun c => !isspace c)).isEmpty, false⟩,
     s1.buf.takeWhile (fun c => !isspace c))

/-- One-pass scanner for a number: `step` accepts or rejects the next character from
the current state, `finish` gives the stored value and whether the conversion
succeeded. -/
structure Scanner (α : Type) where
  σ : Type
  init : σ
  step : σ → Char → Option σ
  finish : σ → α × Bool

/-- Run a scanner: characters are consumed while they are accepted; whitespace and a
rejected character stay in the buffer. -/
def Scanner.run {α : Type} (sc : Scanner α) : sc.σ → List Char → sc.σ × List Char
  | st, [] => (st, [])
  | st, c :: cs =>
    if isspace c then (st, c :: cs)
    else
      match sc.step st c with
      | some st1 => sc.run st1 cs
      | none => (st, c :: cs)

/-- Extraction `file >> x` for an arithmetic `x`: `x` is left as it was when the sentry
fails; otherwise it receives the scanner's value, `failbit` is set when the conversion
failed and `eofbit` when the scan ran into the end of the input. -/
def extract {α : Type} (sc : Scanner α) (s : IStream) (old : α) : IStream × α :=
  match sentry s with
  | (s1, false) => (s1, old)
  | (s1, true) =>
    (⟨(sc.run sc.init s1.buf).2, (sc.run sc.init s1.buf).2.isEmpty,
      !(sc.finish (sc.run sc.init s1.buf).1).2⟩,
     (sc.finish (sc.run sc.init s1.buf).1).1)

/-- The standard library's number scanners for `int`, `float` and `double`. -/
structure NumGet (F D : Type) where
  int : Scanner Int
  float : Scanner F
  double : Scanner D

/-! ## Data model -/

/-- Type `Joint::Offset`. -/
structure Offset (F : Type) where
  x : F
  y : F
  z : F
  deriving DecidableEq

/-- Type `Joint::Channel`. -/
inductive Channel where
  | XPOSITION | YPOSITION | ZPOSITION | XROTATION | YROTATION | ZROTATION
  deriving DecidableEq

/-- Type `vec3`. -/
structure Vec3 (F : Type) where
  x : F
  y : F
  z : F
  deriving DecidableEq

/-- Type `vec4`. -/
structure Vec4 (F : Type) where
  x : F
  y : F
  z : F
  w : F
  deriving DecidableEq

/-- Type `mat4`, four columns. -/
structure Mat4 (F : Type) where
  right : Vec4 F
  up : Vec4 F
  forward : Vec4 F
  position : Vec4 F
  deriving DecidableEq

/-- Modelled from the spec: class `Joint` of `bvh-parser.h`, which is not among the
sources: name, parent reference, static offset, channel schema, children, per-frame
samples, and the per-frame transforms and positions written by the evaluator. -/
structure Joint (F : Type) where
  name : List Char
  parent : Option Nat
  offset : Offset F
  channels_order : List Channel
  children : List Nat
  channel_data : List (List F)
  ltm : List (Mat4 F)
  pos : List (Vec3 F)
  deriving DecidableEq

/-- Modelled from the spec: `Joint::num_channels`, the length of the channel schema. -/
def Joint.num_channels {F : Type} (j : Joint F) : Nat := j.channels_order.length

/-- Modelled from the spec: class `Bvh` of `bvh-parser.h`: the flat registration list,
the root, the frame count and the frame time. -/
structure Bvh (D : Type) where
  joints : List Nat
  root_joint : Option Nat
  num_frames : Int
  frame_time : D
  deriving DecidableEq

/-- Values of the variables that the code may read before assigning them. -/
structure Indet (F D : Type) where
  member_offset : Nat → Offset F
  local_offset : Nat → Offset F
  num : Nat → Int
  frames_num : Int
  frame_time : D
  number : F

/-- All `Joint` objects allocated so far; index = identity. -/
abbrev Heap (F : Type) := List (Joint F)

/-- Update through a `shared_ptr`. -/
def Heap.upd {F : Type} (h : Heap F) (id : Nat) (f : Joint F → Joint F) : Heap F :=
  match h[id]? with
  | some j => h.set id (f j)
  | none => h

/-- A default-constructed joint, `std::make_shared<Joint>()`. -/
def Joint.fresh {F D : Type} (u : Indet F D) (id : Nat) : Joint F :=
  { name := [], parent := none, offset := u.member_offset id, channels_order := [],
    children := [], channel_data := [], ltm := [], pos := [] }

/-- Modelled from the spec: setter `Joint::set_parent`. -/
def Joint.set_parent {F : Type} (parent : Option Nat) (j : Joint F) : Joint F :=
  { j with parent := parent }

/-- Modelled from the spec: setter `Joint::set_name`. -/
def Joint.set_name {F : Type} (name : List Char) (j : Joint F) : Joint F :=
  { j with name := name }

/-- Modelled from the spec: setter `Joint::set_offset`. -/
def Joint.set_offset {F : Type} (offset : Offset F) (j : Joint F) : Joint F :=
  { j with offset := offset }

/-- Modelled from the spec: setter `Joint::set_channels_order`. -/
def Joint.set_channels_order {F : Type} (channels : List Channel) (j : Joint F) : Joint F :=
  { j with channels_order := channels }

/-- Modelled from the spec: setter `Joint::set_children`. -/
def Joint.set_children {F : Type} (children : List Nat) (j : Joint F) : Joint F :=
  { j with children := children }

/-- Modelled from the spec: `Joint::add_frame_motion_data`, which appends one sample row
to the per-frame motion data. -/
def Joint.add_frame_motion_data {F : Type} (data : List F) (j : Joint F) : Joint F :=
  { j with channel_data := j.channel_data ++ [data] }

/-- Parser state: the file, the heap and the skeleton `bvh_`. -/
structure PState (F D : Type) where
  file : IStream
  heap : Heap F
  bvh : Bvh D

/-! ## Keywords -/

def kChannels : List Char := "CHANNELS".toList
def kEnd : List Char := "End".toList
def kEndSite : List Char := "End Site".toList
def kFrame : List Char := "Frame".toList
def kFrames : List Char := "Frames:".toList
def kHierarchy : List Char := "HIERARCHY".toList
def kJoint : List Char := "JOINT".toList
def kMotion : List Char := "MOTION".toList
def kOffset : List Char := "OFFSET".toList
def kRoot : List Char := "ROOT".toList
def kXpos : List Char := "Xposition".toList
def kYpos : List Char := "Yposition".toList
def kZpos : List Char := "Zposition".toList
def kXrot : List Char := "Xrotation".toList
def kYrot : List Char := "Yrotation".toList
def kZrot : List Char := "Zrotation".toList
/-- The literal closing brace compared against in `parseJoint`. -/
def kClose : List Char := "\x7d".toList

/-! ## The parser -/

/-- The chain of comparisons in `parseChannelOrder`. -/
def channelOfToken (token : List Char) : Option Channel :=
  if token = kXpos then some Channel.XPOSITION
  else if token = kYpos then some Channel.YPOSITION
  else if token = kZpos then some Channel.ZPOSITION
  else if token = kXrot then some Channel.XROTATION
  else if token = kYrot then some Channel.YROTATION
  else if token = kZrot then some Channel.ZROTATION
  else none

/-- The `for` loop of `parseChannelOrder`; `none` is the `return -1`. -/
def channelLoop : Nat → IStream → List Char → List Channel → IStream × Option (List Channel)
  | 0, file, _, channels => (file, some channels)
  | n + 1, file, token, channels =>
    match channelOfToken (getString file token).2 with
    | some c => channelLoop n (getString file token).1 (getString file token).2 (channels ++ [c])
    | none => ((getString file token).1, none)

/-- Function `Bvh_parser::parseChannelOrder`. -/
def parseChannelOrder {F D : Type} (ng : NumGet F D) (u : Indet F D) (file : IStream)
    (heap : Heap F) (joint : Nat) : Int × IStream × Heap F :=
  match channelLoop (extract ng.int file (u.num joint)).2.toNat
      (extract ng.int file (u.num joint)).1 [] [] with
  | (file1, some channels) =>
    (0, file1, heap.upd joint (Joint.set_channels_order channels))
  | (file1, none) => (-1, file1, heap)

/-- The statement `file >> offset.x >> offset.y >> offset.z` on a local `offset`. -/
def readOffset {F D : Type} (ng : NumGet F D) (file : IStream) (o : Offset F) :
    IStream × Offset F :=
  let rx := extract ng.float file o.x
  let ry := extract ng.float rx.1 o.y
  let rz := extract ng.float ry.1 o.z
  (rz.1, ⟨rx.2, ry.2, rz.2⟩)

/-- Modelled from the spec: `Bvh::addJoint`, which appends to the flat registration
list. -/
def Bvh.addJoint {D : Type} (b : Bvh D) (joint : Nat) : Bvh D :=
  { b with joints := b.joints ++ [joint] }

/-- Modelled from the spec: setter `Bvh::setRootJoint`. -/
def Bvh.setRootJoint {D : Type} (b : Bvh D) (root : Option Nat) : Bvh D :=
  { b with root_joint := root }

/-- Modelled from the spec: setter `Bvh::setNumFrames`. -/
def Bvh.setNumFrames {D : Type} (b : Bvh D) (n : Int) : Bvh D :=
  { b with num_frames := n }

/-- Modelled from the spec: setter `Bvh::setFrameTime`. -/
def Bvh.setFrameTime {D : Type} (b : Bvh D) (t : D) : Bvh D :=
  { b with frame_time := t }

/-- The part of `parseJoint` before its loop: allocation of the joint, name, opening
brace, `OFFSET`, `CHANNELS`, the look-ahead token and the registration with `addJoint`.
An early `return` is `Except.error`; otherwise the look-ahead token and the state with
which the loop is entered. -/
def parseJointHead {F D : Type} (ng : NumGet F D) (u : Indet F D) (parent : Option Nat)
    (st : PState F D) : Except (Int × PState F D) (List Char × PState F D) :=
  let joint := st.heap.length
  let heap0 := st.heap ++ [(Joint.fresh u joint).set_parent parent]
  let rname := getString st.file []
  let heap1 := heap0.upd joint (Joint.set_name rname.2)
  let rt1 := getString rname.1 []
  let rt2 := getString rt1.1 rt1.2
  if rt2.2 = kOffset then
    let ro := readOffset ng rt2.1 (u.local_offset joint)
    let heap2 := heap1.upd joint (Joint.set_offset ro.2)
    let rt3 := getString ro.1 rt2.2
    if rt3.2 = kChannels then
      match parseChannelOrder ng u rt3.1 heap2 joint with
      | (ret, file4, heap4) =>
        if ret ≠ 0 then Except.error (ret, ⟨file4, heap4, st.bvh⟩)
        else
          let rt5 := getString file4 rt3.2
          Except.ok (rt5.2, ⟨rt5.1, heap4, st.bvh.addJoint joint⟩)
    else Except.error (-1, ⟨rt3.1, heap2, st.bvh⟩)
  else Except.error (-1, ⟨rt2.1, heap1, st.bvh⟩)

/-- The `End` branch of the loop of `parseJoint`: the tokens `Site` and the opening
brace, allocation of the leaf with index `st.heap.length`, `OFFSET`, the closing brace
and the registration with `addJoint`. -/
def parseEndSite {F D : Type} (ng : NumGet F D) (u : Indet F D) (joint : Nat)
    (token : List Char) (st : PState F D) :
    Except (Int × PState F D) (List Char × PState F D) :=
  let rs1 := getString st.file token
  let rs2 := getString rs1.1 rs1.2
  let tmp := st.heap.length
  let heap0 := st.heap ++ [((Joint.fresh u tmp).set_parent (some joint)).set_name kEndSite]
  let rt3 := getString rs2.1 rs2.2
  if rt3.2 = kOffset then
    let ro := readOffset ng rt3.1 (u.local_offset tmp)
    let heap1 := heap0.upd tmp (Joint.set_offset ro.2)
    let rt4 := getString ro.1 rt3.2
    Except.ok (rt4.2, ⟨rt4.1, heap1, st.bvh.addJoint tmp⟩)
  else Except.error (-1, ⟨rt3.1, heap0, st.bvh⟩)

mutual
/-- Function `Bvh_parser::parseJoint`; the result is the return code, the reference
`parsed` and the new state, or `none` when the recursion budget is used up. -/
def parseJoint {F D : Type} (ng : NumGet F D) (u : Indet F D) :
    Nat → Option Nat → PState F D → Option (Int × Option Nat × PState F D)
  | 0, _, _ => none
  | fuel + 1, parent, st =>
    match parseJointHead ng u parent st with
    | Except.error (ret, st1) => some (ret, none, st1)
    | Except.ok (token, st1) => childrenLoop ng u fuel st.heap.length token [] st1
/-- The `while (file.good())` loop of `parseJoint`, entered with the look-ahead `token`
and the `children` collected so far. -/
def childrenLoop {F D : Type} (ng : NumGet F D) (u : Indet F D) :
    Nat → Nat → List Char → List Nat → PState F D → Option (Int × Option Nat × PState F D)
  | fuel, joint, token, children, st =>
    if st.file.good then
      match fuel with
      | 0 => none
      | fuel + 1 =>
        if token = kJoint then
          match parseJoint ng u fuel (some joint) st with
          | none => none
          | some (ret, child, st1) =>
            if ret ≠ 0 then some (ret, none, st1)
            else
              childrenLoop ng u fuel joint (getString st1.file token).2
                (children ++ child.toList) ⟨(getString st1.file token).1, st1.heap, st1.bvh⟩
        else if token = kEnd then
          match parseEndSite ng u joint token st with
          | Except.error (ret, st1) => some (ret, none, st1)
          | Except.ok (token1, st1) =>
            childrenLoop ng u fuel joint (getString st1.file token1).2
              (children ++ [st.heap.length])
              ⟨(getString st1.file token1).1, st1.heap, st1.bvh⟩
        else if token = kClose then
          some (0, some joint,
            ⟨st.file, st.heap.upd joint (Joint.set_children children), st.bvh⟩)
        else
          childrenLoop ng u fuel joint (getString st.file token).2 children
            ⟨(getString st.file token).1, st.heap, st.bvh⟩
    else some (-1, none, st)
end

/-- The innermost loop of `parseMotion`: `n` extractions into `number`, each pushed
onto `data`. -/
def readRow {F D : Type} (ng : NumGet F D) :
    Nat → IStream → F → List F → IStream × F × List F
  | 0, file, number, data => (file, number, data)
  | n + 1, file, number, data =>
    readRow ng n (extract ng.float file number).1 (extract ng.float file number).2
      (data ++ [(extract ng.float file number).2])

/-- The loop `for (auto joint : bvh_->joints())` of `parseMotion`. -/
def jointLoop {F D : Type} (ng : NumGet F D) :
    List Nat → IStream → F → Heap F → IStream × F × Heap F
  | [], file, number, heap => (file, number, heap)
  | joint :: rest, file, number, heap =>
    let n := match heap[joint]? with
      | some j => j.num_channels
      | none => 0
    let r := readRow ng n file number []
    jointLoop ng rest r.1 r.2.1
      (heap.upd joint (Joint.add_frame_motion_data r.2.2))

/-- The loop over the frames of `parseMotion`. -/
def frameLoop {F D : Type} (ng : NumGet F D) (joints : List Nat) :
    Nat → IStream → F → Heap F → IStream × F × Heap F
  | 0, file, number, heap => (file, number, heap)
  | n + 1, file, number, heap =>
    let r := jointLoop ng joints file number heap
    frameLoop ng joints n r.1 r.2.1 r.2.2

/-- Function `Bvh_parser::parseMotion`. -/
def parseMotion {F D : Type} (ng : NumGet F D) (u : Indet F D) (st : PState F D) :
    Int × PState F D :=
  let rt1 := getString st.file []
  if rt1.2 = kFrames then
    let rf := extract ng.int rt1.1 u.frames_num
    let bvh1 := st.bvh.setNumFrames rf.2
    let rt2 := getString rf.1 rt1.2
    if rt2.2 = kFrame then
      let rt3 := getString rt2.1 rt2.2
      let rd := extract ng.double rt3.1 u.frame_time
      let bvh2 := bvh1.setFrameTime rd.2
      let r := frameLoop ng bvh2.joints rf.2.toNat rd.1 u.number st.heap
      (0, ⟨r.1, r.2.2, bvh2⟩)
    else (-1, ⟨rt2.1, st.heap, bvh1⟩)
  else (-1, ⟨rt1.1, st.heap, st.bvh⟩)

/-- The second half of `parseHierarchy`: the motion section. -/
def parseHierarchyMotion {F D : Type} (ng : NumGet F D) (u : Indet F D) (token : List Char)
    (st : PState F D) : Int × PState F D :=
  if st.file.good then
    let rt := getString st.file token
    if rt.2 = kMotion then
      let r := parseMotion ng u ⟨rt.1, st.heap, st.bvh⟩
      if r.1 ≠ 0 then r else (0, r.2)
    else (-1, ⟨rt.1, st.heap, st.bvh⟩)
  else (0, st)

/-- Function `Bvh_parser::parseHierarchy`. -/
def parseHierarchy {F D : Type} (ng : NumGet F D) (u : Indet F D) (fuel : Nat)
    (st : PState F D) : Option (Int × PState F D) :=
  if st.file.good then
    let rt := getString st.file []
    if rt.2 = kRoot then
      match parseJoint ng u fuel none ⟨rt.1, st.heap, st.bvh⟩ with
      | none => none
      | some (ret, rootJoint, st1) =>
        if ret ≠ 0 then some (ret, st1)
        else
          some (parseHierarchyMotion ng u rt.2
            ⟨st1.file, st1.heap, st1.bvh.setRootJoint rootJoint⟩)
    else some (-1, ⟨rt.1, st.heap, st.bvh⟩)
  else some (parseHierarchyMotion ng u [] st)

/-- Function `Bvh_parser::parse`; `content` is `none` when the file cannot be opened.
The recursion budget handed to `parseJoint` is twice the length of the input plus two,
which `parse_isSome` shows is always enough. -/
def parse {F D : Type} (ng : NumGet F D) (u : Indet F D) (content : Option (List Char))
    (heap : Heap F) (bvh : Bvh D) : Option (Int × Heap F × Bvh D) :=
  match content with
  | some cs =>
    let rt := getString (IStream.ofContent cs) []
    if rt.2 = kHierarchy then
      match parseHierarchy ng u (2 * cs.length + 2) ⟨rt.1, heap, bvh⟩ with
      | none => none
      | some (ret, st1) =>
        if ret ≠ 0 then some (ret, st1.heap, st1.bvh) else some (0, st1.heap, st1.bvh)
    else some (-1, heap, bvh)
  | none => some (-1, heap, bvh)

/-! ## A reference number scanner

Decimal literals: an optional sign, digits, for floating point an optional fraction and
an optional exponent. It makes the model executable; the theorems hold for every
`NumGet`. -/

/-- Value of a decimal digit. -/
def digitVal (c : Char) : Option Nat :=
  if 48 ≤ c.toNat ∧ c.toNat ≤ 57 then some (c.toNat - 48) else none

/-- States of the integer scanner. -/
inductive IntSt where
  | start
  | signed (neg : Bool)
  | digits (neg : Bool) (n : Nat)

/-- Reference scanner for `int`: sign and digits, clamped to 32 bits on overflow. -/
def refInt : Scanner Int where
  σ := IntSt
  init := IntSt.start
  step := fun st c =>
    match st, digitVal c with
    | IntSt.start, some d => some (IntSt.digits false d)
    | IntSt.signed neg, some d => some (IntSt.digits neg d)
    | IntSt.digits neg n, some d => some (IntSt.digits neg (10 * n + d))
    | IntSt.start, none =>
      if c.toNat = 43 then some (IntSt.signed false)
      else if c.toNat = 45 then some (IntSt.signed true) else none
    | _, none => none
  finish := fun st =>
    match st with
    | IntSt.digits false n => if n ≤ 2147483647 then ((n : Int), true) else (2147483647, false)
    | IntSt.digits true n => if n ≤ 2147483648 then (-(n : Int), true) else (-2147483648, false)
    | _ => (0, false)

/-- A decimal literal read so far: sign, digits of the mantissa, number of digits after
the point, and the exponent part. -/
structure DecSt where
  neg : Bool
  mant : Nat
  hasDigit : Bool
  point : Bool
  frac : Nat
  sci : Bool
  eneg : Bool
  esign : Bool
  exp : Nat
  hasExp : Bool
  started : Bool

/-- Reference scanner for floating point, into any type with a conversion `conv` from
mantissa and decimal exponent. -/
def refDec {F : Type} (conv : Int → Int → F) : Scanner F where
  σ := DecSt
  init := ⟨false, 0, false, false, 0, false, false, false, 0, false, false⟩
  step := fun st c =>
    match digitVal c with
    | some d =>
      if st.sci then some { st with exp := 10 * st.exp + d, hasExp := true, started := true }
      else if st.point then
        some { st with mant := 10 * st.mant + d, frac := st.frac + 1, hasDigit := true,
                       started := true }
      else some { st with mant := 10 * st.mant + d, hasDigit := true, started := true }
    | none =>
      if c.toNat = 43 ∨ c.toNat = 45 then
        if !st.started then some { st with neg := c.toNat = 45, started := true }
        else if st.sci && !st.hasExp && !st.esign then
          some { st with eneg := c.toNat = 45, esign := true }
        else none
      else if c.toNat = 46 then
        if !st.point && !st.sci then some { st with point := true, started := true } else none
      else if c.toNat = 101 ∨ c.toNat = 69 then
        if st.hasDigit && !st.sci then some { st with sci := true } else none
      else none
  finish := fun st =>
    if st.hasDigit && (!st.sci || st.hasExp) then
      (conv (if st.neg then -(st.mant : Int) else st.mant)
        ((if st.eneg then -(st.exp : Int) else st.exp) - st.frac), true)
    else (conv 0 0, false)

/-- Exact decimal value: mantissa and power of ten. -/
structure Dec where
  mant : Int
  exp : Int
  deriving DecidableEq

/-- Reference scanners, floating-point values kept as exact decimals. -/
def refNumGet : NumGet Dec Dec := ⟨refInt, refDec Dec.mk, refDec Dec.mk⟩

/-! ## Tree structure of the heap -/

/-- The evaluator has not written to the joint and it has no samples yet. -/
def Joint.Blank {F : Type} (j : Joint F) : Prop :=
  j.channel_data = [] ∧ j.ltm = [] ∧ j.pos = []

/-- Pre-order traversal of a forest in the heap: `Forest h p roots order` holds when the
joints `roots` all have parent reference `p` and `order` lists, for each root in turn,
the root followed by the traversal of its children. -/
inductive Forest {F : Type} (h : Heap F) : Option Nat → List Nat → List Nat → Prop
  | nil (p : Option Nat) : Forest h p [] []
  | cons (p : Option Nat) (id : Nat) (j : Joint F) (ids sub rest : List Nat) :
      h[id]? = some j → j.parent = p → Forest h (some id) j.children sub →
      Forest h p ids rest → Forest h p (id :: ids) (id :: (sub ++ rest))

/-- Depth-first pre-order traversal, parent references ignored: each joint, then the
traversals of its children in the order of its children list. -/
inductive PreOrder {F : Type} (h : Heap F) : List Nat → List Nat → Prop
  | nil : PreOrder h [] []
  | cons (id : Nat) (j : Joint F) (ids sub rest : List Nat) :
      h[id]? = some j → PreOrder h j.children sub → PreOrder h ids rest →
      PreOrder h (id :: ids) (id :: (sub ++ rest))

/-- What a successful run of the loop of `parseJoint` for `joint`, entered with heap `h`,
skeleton `b` and children `cs`, has done when it returns with state `st1`. -/
structure LoopPost {F D : Type} (joint : Nat) (cs : List Nat) (h : Heap F) (b : Bvh D)
    (st1 : PState F D) : Prop where
  good : st1.file.good = true
  len : h.length ≤ st1.heap.length
  joints : st1.bvh.joints = b.joints ++ List.range' h.length (st1.heap.length - h.length)
  root : st1.bvh.root_joint = b.root_joint
  frames : st1.bvh.num_frames = b.num_frames
  time : st1.bvh.frame_time = b.frame_time
  old : ∀ i, i < h.length → i ≠ joint → st1.heap[i]? = h[i]?
  self : ∃ kids, st1.heap[joint]? = (h[joint]?).map (Joint.set_children (cs ++ kids)) ∧
    Forest st1.heap (some joint) kids (List.range' h.length (st1.heap.length - h.length))
  blank : ∀ i j, h.length ≤ i → st1.heap[i]? = some j → j.Blank

/-- What a successful `parseJoint`, entered with heap `h` and skeleton `b`, has done
when it returns with state `st1`: the joints it allocated are exactly the joints it
registered, in the same order, and they form the subtree of the first of them. -/
structure JointPost {F D : Type} (parent : Option Nat) (h : Heap F) (b : Bvh D)
    (st1 : PState F D) : Prop where
  good : st1.file.good = true
  len : h.length < st1.heap.length
  joints : st1.bvh.joints = b.joints ++ List.range' h.length (st1.heap.length - h.length)
  root : st1.bvh.root_joint = b.root_joint
  frames : st1.bvh.num_frames = b.num_frames
  time : st1.bvh.frame_time = b.frame_time
  old : ∀ i, i < h.length → st1.heap[i]? = h[i]?
  tree : Forest st1.heap parent [h.length]
    (List.range' h.length (st1.heap.length - h.length))
  blank : ∀ i j, h.length ≤ i → st1.heap[i]? = some j → j.Blank

/-! ## The numbers read by `parseMotion` -/

/-- The values that `n` successive extractions `file >> number` store in `number`. -/
def readSeq {F D : Type} (ng : NumGet F D) : Nat → IStream → F → List F
  | 0, _, _ => []
  | n + 1, file, number =>
    (extract ng.float file number).2 ::
      readSeq ng n (extract ng.float file number).1 (extract ng.float file number).2

/-- The stream and the variable `number` after `n` successive extractions. -/
def readEnd {F D : Type} (ng : NumGet F D) : Nat → IStream → F → IStream × F
  | 0, file, number => (file, number)
  | n + 1, file, number =>
    readEnd ng n (extract ng.float file number).1 (extract ng.float file number).2

/-- Channel count of the joint with index `id`, as the loop of `parseMotion` reads it. -/
def chanCount {F : Type} (h : Heap F) (id : Nat) : Nat :=
  match h[id]? with
  | some j => j.num_channels
  | none => 0

/-- Sum of the channel counts of the joints `l`. -/
def chanSum {F : Type} (h : Heap F) (l : List Nat) : Nat := (l.map (chanCount h)).sum

/-- Adds the rows `rows` to the samples of a joint. -/
def Joint.addRows {F : Type} (rows : List (List F)) (j : Joint F) : Joint F :=
  { j with channel_data := j.channel_data ++ rows }

/-! ## Well-formed input -/

/-- `Lexes buf toks rest`: the characters `buf` are the tokens `toks`, each a non-empty
run of non-whitespace characters after optional whitespace and ended by whitespace or by
the end of the input, followed by the characters `rest`. -/
inductive Lexes : List Char → List (List Char) → List Char → Prop
  | nil (rest : List Char) : Lexes rest [] rest
  | cons (ws t r : List Char) (toks : List (List Char)) (rest : List Char) :
      (∀ c ∈ ws, isspace c = true) → t ≠ [] → (∀ c ∈ t, isspace c = false) →
      (r = [] ∨ ∃ c r1, r = c :: r1 ∧ isspace c = true) →
      Lexes r toks rest → Lexes (ws ++ (t ++ r)) (t :: toks) rest

/-- The stream has not failed, its unread characters are the tokens `toks` followed by
`rest`, and `eofbit` is set exactly when nothing is left to read. -/
structure At (s : IStream) (toks : List (List Char)) (rest : List Char) : Prop where
  fail : s.failbit = false
  eof : s.eofbit = s.buf.isEmpty
  lex : Lexes s.buf toks rest

/-- The scanner consumes the whole token `t` and converts it to `v` without failure. -/
def Scanner.Reads {α : Type} (sc : Scanner α) (t : List Char) (v : α) : Prop :=
  (sc.run sc.init t).2 = [] ∧ sc.finish (sc.run sc.init t).1 = (v, true)

instance Scanner.decidableReads {α : Type} [DecidableEq α] (sc : Scanner α) (t : List Char)
    (v : α) : Decidable (sc.Reads t v) := by
  unfold Scanner.Reads
  exact inferInstance

/-- The token `Site`. -/
def kSite : List Char := "Site".toList
/-- The opening brace. -/
def kOpen : List Char := "\x7b".toList
/-- The token `Time:`. -/
def kTime : List Char := "Time:".toList

/-- Name of a channel in the input. -/
def chanToken : Channel → List Char
  | Channel.XPOSITION => kXpos
  | Channel.YPOSITION => kYpos
  | Channel.ZPOSITION => kZpos
  | Channel.XROTATION => kXrot
  | Channel.YROTATION => kYrot
  | Channel.ZROTATION => kZrot

/-- What the text says about one node: its name, its offset and its channels. -/
structure NodeInfo (F : Type) where
  name : List Char
  offset : Offset F
  channels : List Channel

/-- Tokens of a joint from its name to the last channel name:
`Name { OFFSET x y z CHANNELS n c_1 ... c_n`, the count `n` being the number of channel
names. -/
def headTokens (name x y z n : List Char) (chans : List Channel) : List (List Char) :=
  name :: kOpen :: kOffset :: x :: y :: z :: kChannels :: n :: chans.map chanToken

/-- The three offset tokens convert to the offset `o`. -/
def ReadsOffset {F D : Type} (ng : NumGet F D) (x y z : List Char) (o : Offset F) : Prop :=
  ng.float.Reads x o.x ∧ ng.float.Reads y o.y ∧ ng.float.Reads z o.z

instance ReadsOffset.decidable {F D : Type} [DecidableEq F] (ng : NumGet F D)
    (x y z : List Char) (o : Offset F) : Decidable (ReadsOffset ng x y z o) := by
  unfold ReadsOffset
  exact inferInstance

/-- Grammar `(ChildJoint | EndSite)* "}"`: the tokens of the children of a joint up to
and including its closing brace, with the nodes they declare in textual order. -/
inductive Children {F D : Type} (ng : NumGet F D) :
    List (List Char) → List (NodeInfo F) → Prop
  | close : Children ng [kClose] []
  | endSite (x y z : List Char) (o : Offset F) (rest : List (List Char))
      (infos : List (NodeInfo F)) :
      ReadsOffset ng x y z o → Children ng rest infos →
      Children ng (kEnd :: kSite :: kOpen :: kOffset :: x :: y :: z :: kClose :: rest)
        (⟨kEndSite, o, []⟩ :: infos)
  | joint (name x y z n : List Char) (o : Offset F) (chans : List Channel)
      (inner rest : List (List Char)) (ii ir : List (NodeInfo F)) :
      ReadsOffset ng x y z o → ng.int.Reads n chans.length →
      Children ng inner ii → Children ng rest ir →
      Children ng (kJoint :: (headTokens name x y z n chans ++ (inner ++ rest)))
        (⟨name, o, chans⟩ :: (ii ++ ir))

/-- Grammar `ROOT Joint`: the tokens of the hierarchy after `HIERARCHY`, with the nodes
they declare in textual order, the root first. -/
inductive Hierarchy {F D : Type} (ng : NumGet F D) :
    List (List Char) → List (NodeInfo F) → Prop
  | root (name x y z n : List Char) (o : Offset F) (chans : List Channel)
      (inner : List (List Char)) (ii : List (NodeInfo F)) :
      ReadsOffset ng x y z o → ng.int.Reads n chans.length → Children ng inner ii →
      Hierarchy ng (kRoot :: (headTokens name x y z n chans ++ inner)) (⟨name, o, chans⟩ :: ii)

/-- The joint with index `id` has the name, the offset and the channels of `info`. -/
def InfoAt {F : Type} (h : Heap F) (id : Nat) (info : NodeInfo F) : Prop :=
  ∃ j, h[id]? = some j ∧ j.name = info.name ∧ j.offset = info.offset ∧
    j.channels_order = info.channels

/-- The joints with indices `n0`, `n0 + 1`, ... are the nodes `infos`, in this order. -/
def Matches {F : Type} (h : Heap F) (n0 : Nat) (infos : List (NodeInfo F)) : Prop :=
  ∀ k info, infos[k]? = some info → InfoAt h (n0 + k) info

/-- The joint record that `parseJoint` has built when it enters its loop. -/
def headJoint {F D : Type} (u : Indet F D) (id : Nat) (parent : Option Nat)
    (info : NodeInfo F) : Joint F :=
  (((((Joint.fresh u id).set_parent parent).set_name info.name).set_offset
    info.offset).set_channels_order info.channels)

/-- The leaf that the `End` branch has built. -/
def endJoint {F D : Type} (u : Indet F D) (id : Nat) (joint : Nat) (o : Offset F) :
    Joint F :=
  (((Joint.fresh u id).set_parent (some joint)).set_name kEndSite).set_offset o

/-- Sum of the channel counts of the declared nodes. -/
def infoSum {F : Type} (infos : List (NodeInfo F)) : Nat :=
  (infos.map (fun i => i.channels.length)).sum

/-- Grammar `MOTION Frames: int Frame Time: float`, with the values read. -/
def MotionHeader {F D : Type} (ng : NumGet F D) (toks : List (List Char)) (frames : Int)
    (time : D) : Prop :=
  ∃ f t, toks = [kMotion, kFrames, f, kFrame, kTime, t] ∧ ng.int.Reads f frames ∧
    ng.double.Reads t time

/-- The tokens `nums` are numbers with the values `vals`. -/
def ReadsAll {F D : Type} (ng : NumGet F D) (nums : List (List Char)) (vals : List F) :
    Prop :=
  List.Forall₂ (fun t v => ng.float.Reads t v) nums vals

/-- A well-formed input: whitespace-separated tokens
`HIERARCHY ROOT Joint MOTION Frames: int Frame Time: float FrameRow*`, every channel
count equal to the number of channel names after it, the motion block made of exactly
frame count times (sum of all channel counts) numbers, and nothing but whitespace after
it. -/
def WellFormed {F D : Type} (ng : NumGet F D) (input : List Char)
    (infos : List (NodeInfo F)) (frames : Int) (time : D) (vals : List F) : Prop :=
  ∃ hier header nums rest,
    Lexes input (kHierarchy :: (hier ++ (header ++ nums))) rest ∧
    (∀ c ∈ rest, isspace c = true) ∧
    Hierarchy ng hier infos ∧ MotionHeader ng header frames time ∧
    ReadsAll ng nums vals ∧ vals.length = frames.toNat * infoSum infos

/-- The first whitespace-delimited token of the input, empty when there is none. -/
def firstToken (cs : List Char) : List Char :=
  (cs.dropWhile isspace).takeWhile (fun c => !isspace c)

/-- The tokens separated by single spaces. -/
def unwords : List (List Char) → List Char
  | [] => []
  | [t] => t
  | t :: t2 :: ts => t ++ (Char.ofNat 32 :: unwords (t2 :: ts))

/-! ## Forward kinematics

Scalars are taken in a commutative semiring: the rounding of `float` is not modelled.
The rotation matrix `quatToMat4(angleAxis(angle, axis))` of the math library is the
parameter `rot`. -/

/-- Modelled from the spec: the default-constructed `mat4` of the math library, the
identity matrix. -/
def Mat4.identity {F : Type} [Zero F] [One F] : Mat4 F :=
  ⟨⟨1, 0, 0, 0⟩, ⟨0, 1, 0, 0⟩, ⟨0, 0, 1, 0⟩, ⟨0, 0, 0, 1⟩⟩

/-- Modelled from the spec: matrix times column vector, the combination of the four
columns with the coordinates of the vector. -/
def Mat4.mulVec {F : Type} [Add F] [Mul F] (m : Mat4 F) (v : Vec4 F) : Vec4 F :=
  ⟨m.right.x * v.x + m.up.x * v.y + m.forward.x * v.z + m.position.x * v.w,
   m.right.y * v.x + m.up.y * v.y + m.forward.y * v.z + m.position.y * v.w,
   m.right.z * v.x + m.up.z * v.y + m.forward.z * v.z + m.position.z * v.w,
   m.right.w * v.x + m.up.w * v.y + m.forward.w * v.z + m.position.w * v.w⟩

/-- Modelled from the spec: `operator*` of `mat4`, the matrix product, column by
column. -/
def Mat4.mul {F : Type} [Add F] [Mul F] (a b : Mat4 F) : Mat4 F :=
  ⟨a.mulVec b.right, a.mulVec b.up, a.mulVec b.forward, a.mulVec b.position⟩

/-- Modelled from the spec: `Joint::set_pos`, which stores the world position of the
next frame; the setter takes no frame index, the positions are kept in frame order. -/
def Joint.set_pos {F : Type} (p : Vec3 F) (j : Joint F) : Joint F :=
  { j with pos := j.pos ++ [p] }

/-- Modelled from the spec: `Joint::set_ltm`, which stores the transform of frame
`frame`: an existing entry is replaced, otherwise the matrix is appended. -/
def Joint.set_ltm {F : Type} (m : Mat4 F) (frame : Nat) (j : Joint F) : Joint F :=
  { j with ltm := if frame < j.ltm.length then j.ltm.set frame m else j.ltm ++ [m] }

/-- One branch of the chain of comparisons in the channel loop of `recalculateJoints`,
on the pair `(tmat, rmat)`. -/
def applyChannel {F : Type} [Zero F] [One F] [Add F] [Mul F] (rot : F → Vec3 F → Mat4 F)
    (tr : Mat4 F × Mat4 F) (c : Channel) (v : F) : Mat4 F × Mat4 F :=
  match c with
  | Channel.XPOSITION =>
    ({ tr.1 with position := { tr.1.position with x := tr.1.position.x + v } }, tr.2)
  | Channel.YPOSITION =>
    ({ tr.1 with position := { tr.1.position with y := tr.1.position.y + v } }, tr.2)
  | Channel.ZPOSITION =>
    ({ tr.1 with position := { tr.1.position with z := tr.1.position.z + v } }, tr.2)
  | Channel.XROTATION => (tr.1, tr.2.mul (rot v ⟨1, 0, 0⟩))
  | Channel.YROTATION => (tr.1, tr.2.mul (rot v ⟨0, 1, 0⟩))
  | Channel.ZROTATION => (tr.1, tr.2.mul (rot v ⟨0, 0, 1⟩))

/-- The loop over the channels `j`, `j + 1`, ... of frame `i`; `none` when `data[i][j]`
is read outside the vectors. -/
def channelsLoop {F : Type} [Zero F] [One F] [Add F] [Mul F] (rot : F → Vec3 F → Mat4 F)
    (data : List (List F)) (i : Nat) :
    List Channel → Nat → Mat4 F × Mat4 F → Option (Mat4 F × Mat4 F)
  | [], _, tr => some tr
  | c :: cs, j, tr =>
    match data[i]? with
    | none => none
    | some row =>
      match row[j]? with
      | none => none
      | some v => channelsLoop rot data i cs (j + 1) (applyChannel rot tr c v)

/-- The matrix `ltm` before the rotation is applied: `parent()->ltm(i) * offmat` for a
joint with a parent, `tmat * offmat` for one without; `none` when the parent has no
transform for frame `i`. -/
def localBase {F : Type} [Add F] [Mul F] (heap : Heap F) (parent : Option Nat) (i : Nat)
    (tmat offmat : Mat4 F) : Option (Mat4 F) :=
  match parent with
  | some p =>
    match heap[p]? with
    | some pj =>
      match pj.ltm[i]? with
      | some pl => some (pl.mul offmat)
      | none => none
    | none => none
  | none => some (tmat.mul offmat)

/-- The body of the loop over the frames of `recalculateJoints`, for frame `i`. -/
def frameStep {F : Type} [Zero F] [One F] [Add F] [Mul F] (rot : F → Vec3 F → Mat4 F)
    (start : Nat) (offmat : Mat4 F) (data : List (List F)) (heap : Heap F) (i : Nat) :
    Option (Heap F) :=
  match heap[start]? with
  | none => none
  | some sj =>
    match channelsLoop rot data i sj.channels_order 0 (Mat4.identity, Mat4.identity) with
    | none => none
    | some tr =>
      match localBase heap sj.parent i tr.1 offmat with
      | none => none
      | some ltm =>
        some ((heap.upd start
          (Joint.set_pos ⟨ltm.position.x, ltm.position.y, ltm.position.z⟩)).upd start
          (Joint.set_ltm (ltm.mul tr.2) i))

/-- The loop over the frames `i`, `i + 1`, ..., `n` of them. -/
def framesLoop {F : Type} [Zero F] [One F] [Add F] [Mul F] (rot : F → Vec3 F → Mat4 F)
    (start : Nat) (offmat : Mat4 F) (data : List (List F)) :
    Nat → Nat → Heap F → Option (Heap F)
  | 0, _, heap => some heap
  | n + 1, i, heap =>
    match frameStep rot start offmat data heap i with
    | none => none
    | some heap1 => framesLoop rot start offmat data n (i + 1) heap1

/-- Result of the evaluator: the new heap, a read outside a vector, or a used-up
recursion budget. -/
inductive Outcome (α : Type) where
  | ok (a : α)
  | fault
  | exhausted
  deriving DecidableEq

/-- The loop `for (auto& child : start_joint->children())` with the recursive call
`call`. -/
def forChildren {F : Type} (call : Heap F → Nat → Outcome (Heap F)) :
    List Nat → Heap F → Outcome (Heap F)
  | [], heap => Outcome.ok heap
  | c :: cs, heap =>
    match call heap c with
    | Outcome.ok heap1 => forChildren call cs heap1
    | Outcome.fault => Outcome.fault
    | Outcome.exhausted => Outcome.exhausted

/-- The matrix `offmat_backup`: the identity with the offset of the joint as its
position column. -/
def offsetMatrix {F : Type} [Zero F] [One F] (o : Offset F) : Mat4 F :=
  { (Mat4.identity : Mat4 F) with position := ⟨o.x, o.y, o.z, 1⟩ }

/-- Function `Bvh::recalculateJoints` for a start joint that is not null. -/
def recalculateFrom {F : Type} [Zero F] [One F] [Add F] [Mul F]
    (rot : F → Vec3 F → Mat4 F) (num_frames : Int) : Nat → Heap F → Nat → Outcome (Heap F)
  | 0, _, _ => Outcome.exhausted
  | fuel + 1, heap, start =>
    match heap[start]? with
    | none => Outcome.fault
    | some sj =>
      match framesLoop rot start (offsetMatrix sj.offset) sj.channel_data num_frames.toNat 0
          heap with
      | none => Outcome.fault
      | some heap1 =>
        forChildren (recalculateFrom rot num_frames fuel) sj.children heap1

/-- Function `Bvh::recalculateJoints`: with a null start joint it returns at once when
there is no root and starts at the root otherwise. -/
def Bvh.recalculateJoints {F D : Type} [Zero F] [One F] [Add F] [Mul F]
    (rot : F → Vec3 F → Mat4 F) (fuel : Nat) (b : Bvh D) (heap : Heap F)
    (start_joint : Option Nat) : Outcome (Heap F) :=
  match start_joint with
  | none =>
    match b.root_joint with
    | none => Outcome.ok heap
    | some root => recalculateFrom rot b.num_frames fuel heap root
  | some start => recalculateFrom rot b.num_frames fuel heap start

/-- The channel is one of `Xposition`, `Yposition`, `Zposition`. -/
def Channel.isPosition : Channel → Bool
  | Channel.XPOSITION => true
  | Channel.YPOSITION => true
  | Channel.ZPOSITION => true
  | _ => false

/-- The sample of channel `c` in the row `row`, whose entry `j` belongs to the first
channel of `chs`; zero when `c` is not among the channels. -/
def sampleFrom {F : Type} [Zero F] (c : Channel) : List Channel → Nat → List F → F
  | [], _, _ => 0
  | d :: ds, j, row => if d = c then row.getD j 0 else sampleFrom c ds (j + 1) row

/-- The sample of channel `c` of joint `j` in frame `f`; zero when the joint has no such
channel. -/
def Joint.sample {F : Type} [Zero F] (j : Joint F) (c : Channel) (f : Nat) : F :=
  sampleFrom c j.channels_order 0 (j.channel_data.getD f [])

/-- The heap `h1` has the joints of `h` with the same static data and samples: only the
transforms and positions written by the evaluator may differ. -/
def Skel {F : Type} (h h1 : Heap F) : Prop :=
  ∀ (x : Nat) (j : Joint F), h[x]? = some j → ∃ j1, h1[x]? = some j1 ∧ j1.parent = j.parent ∧
    j1.children = j.children ∧ j1.channel_data = j.channel_data ∧
    j1.channels_order = j.channels_order ∧ j1.offset = j.offset ∧ j1.name = j.name

/-- Every joint of `l` has, for each of the first `n` frames, a sample row with at least
as many entries as it has channels. -/
def Evaluable {F : Type} (n : Nat) (h : Heap F) (l : List Nat) : Prop :=
  ∀ x ∈ l, ∀ j : Joint F, h[x]? = some j → ∀ i, i < n →
    ∃ row, j.channel_data[i]? = some row ∧ j.channels_order.length ≤ row.length

/-- What the body of the frame loop computes for frame `k` before it writes: the matrix
`ltm` before the rotation is applied, and the rotation matrix `rmat`. -/
def frameBase {F : Type} [Zero F] [One F] [Add F] [Mul F] (rot : F → Vec3 F → Mat4 F)
    (heap : Heap F) (sj : Joint F) (offmat : Mat4 F) (data : List (List F)) (k : Nat) :
    Option (Mat4 F × Mat4 F) :=
  match channelsLoop rot data k sj.channels_order 0 (Mat4.identity, Mat4.identity) with
  | none => none
  | some tr =>
    match localBase heap sj.parent k tr.1 offmat with
    | none => none
    | some ltm => some (ltm, tr.2)

/-- The translation part of a matrix, as `set_pos` receives it. -/
def Mat4.translation {F : Type} (m : Mat4 F) : Vec3 F :=
  ⟨m.position.x, m.position.y, m.position.z⟩

/-! ## Sample inputs -/

/-- Values for the variables read before assignment, all zero. -/
def demoIndet : Indet Dec Dec :=
  ⟨fun _ => ⟨⟨0, 0⟩, ⟨0, 0⟩, ⟨0, 0⟩⟩, fun _ => ⟨⟨0, 0⟩, ⟨0, 0⟩, ⟨0, 0⟩⟩, fun _ => 0, 0,
    ⟨0, 0⟩, ⟨0, 0⟩⟩

/-- A fresh skeleton. -/
def demoBvh0 : Bvh Dec := ⟨[], none, 0, ⟨0, 0⟩⟩

/-- The body of the joint `leg`: an End Site and the closing brace. -/
def demoLegInner : List (List Char) :=
  kEnd :: kSite :: kOpen :: kOffset :: "0".toList :: "1.5".toList :: "0".toList :: kClose ::
    [kClose]

/-- The body of the root `hip`: the joint `leg` and the closing brace. -/
def demoInner : List (List Char) :=
  kJoint :: (headTokens "leg".toList "0".toList "1".toList "0".toList "1".toList
    [Channel.XROTATION] ++ (demoLegInner ++ [kClose]))

/-- The hierarchy section after `HIERARCHY`. -/
def demoHier : List (List Char) :=
  kRoot :: (headTokens "hip".toList "0".toList "0".toList "0".toList "3".toList
    [Channel.XPOSITION, Channel.YPOSITION, Channel.ZPOSITION] ++ demoInner)

/-- The motion header: two frames, frame time 0.1. -/
def demoHeader : List (List Char) :=
  [kMotion, kFrames, "2".toList, kFrame, kTime, "0.1".toList]

/-- The motion block: two rows of four numbers. -/
def demoNums : List (List Char) :=
  ["1".toList, "2".toList, "3".toList, "4".toList, "5".toList, "6".toList, "7".toList,
    "8".toList]

/-- The values of the motion block. -/
def demoVals : List Dec := [⟨1, 0⟩, ⟨2, 0⟩, ⟨3, 0⟩, ⟨4, 0⟩, ⟨5, 0⟩, ⟨6, 0⟩, ⟨7, 0⟩, ⟨8, 0⟩]

/-- All tokens of the sample file. -/
def demoToks : List (List Char) := kHierarchy :: (demoHier ++ (demoHeader ++ demoNums))

/-- The sample file: a root with three position channels, a joint with one rotation
channel and an End Site; two frames. -/
def demoInput : List Char := unwords demoToks

/-- The nodes the sample file declares. -/
def demoInfos : List (NodeInfo Dec) :=
  [⟨"hip".toList, ⟨⟨0, 0⟩, ⟨0, 0⟩, ⟨0, 0⟩⟩,
      [Channel.XPOSITION, Channel.YPOSITION, Channel.ZPOSITION]⟩,
   ⟨"leg".toList, ⟨⟨0, 0⟩, ⟨1, 0⟩, ⟨0, 0⟩⟩, [Channel.XROTATION]⟩,
   ⟨kEndSite, ⟨⟨0, 0⟩, ⟨15, -1⟩, ⟨0, 0⟩⟩, []⟩]

/-- The heap after parsing the sample file. -/
def demoHeap : Heap Dec :=
  [ { name := "hip".toList, parent := none, offset := ⟨⟨0, 0⟩, ⟨0, 0⟩, ⟨0, 0⟩⟩,
      channels_order := [Channel.XPOSITION, Channel.YPOSITION, Channel.ZPOSITION],
      children := [1],
      channel_data := [[⟨1, 0⟩, ⟨2, 0⟩, ⟨3, 0⟩], [⟨5, 0⟩, ⟨6, 0⟩, ⟨7, 0⟩]],
      ltm := [], pos := [] },
    { name := "leg".toList, parent := some 0, offset := ⟨⟨0, 0⟩, ⟨1, 0⟩, ⟨0, 0⟩⟩,
      channels_order := [Channel.XROTATION], children := [2],
      channel_data := [[⟨4, 0⟩], [⟨8, 0⟩]], ltm := [], pos := [] },
    { name := kEndSite, parent := some 1, offset := ⟨⟨0, 0⟩, ⟨15, -1⟩, ⟨0, 0⟩⟩,
      channels_order := [], children := [], channel_data := [[], []], ltm := [],
      pos := [] } ]

/-- The skeleton after parsing the sample file. -/
def demoBvh : Bvh Dec := ⟨[0, 1, 2], some 0, 2, ⟨1, -1⟩⟩

/-- A hierarchy of a single root without channels. -/
def bareHier : List (List Char) :=
  kRoot :: (headTokens "r".toList "0".toList "0".toList "0".toList "0".toList [] ++ [kClose])

/-- A hierarchy of a single root with one channel. -/
def oneHier : List (List Char) :=
  kRoot :: (headTokens "r".toList "0".toList "0".toList "0".toList "1".toList
    [Channel.XPOSITION] ++ [kClose])

/-- A file whose motion block announces two frames of one number and holds one. -/
def shortInput : List Char :=
  unwords (kHierarchy :: (oneHier ++ (demoHeader ++ ["5".toList])))

/-- The heap after parsing `shortInput`: the number read is stored in both rows. -/
def shortHeap : Heap Dec :=
  [ { name := "r".toList, parent := none, offset := ⟨⟨0, 0⟩, ⟨0, 0⟩, ⟨0, 0⟩⟩,
      channels_order := [Channel.XPOSITION], children := [],
      channel_data := [[⟨5, 0⟩], [⟨5, 0⟩]], ltm := [], pos := [] } ]

/-- The skeleton after parsing `shortInput`. -/
def shortBvh : Bvh Dec := ⟨[0], some 0, 2, ⟨1, -1⟩⟩

/-- A file with the stray token `FOO` in the body of the root, where a child or the
closing brace is expected. -/
def strayInput : List Char :=
  ("HIERARCHY ROOT r \x7b OFFSET 0 0 0 CHANNELS 0 FOO \x7d " ++
    "MOTION Frames: 0 Frame Time: 0.1").toList

/-- The heap after parsing `strayInput`. -/
def strayHeap : Heap Dec :=
  [ { name := "r".toList, parent := none, offset := ⟨⟨0, 0⟩, ⟨0, 0⟩, ⟨0, 0⟩⟩,
      channels_order := [], children := [], channel_data := [], ltm := [], pos := [] } ]

/-- The skeleton after parsing `strayInput`. -/
def strayBvh : Bvh Dec := ⟨[0], some 0, 0, ⟨1, -1⟩⟩

/-- The node declared by `bareHier`. -/
def bareInfos : List (NodeInfo Dec) := [⟨"r".toList, ⟨⟨0, 0⟩, ⟨0, 0⟩, ⟨0, 0⟩⟩, []⟩]

/-- The node declared by `oneHier`. -/
def oneInfos : List (NodeInfo Dec) :=
  [⟨"r".toList, ⟨⟨0, 0⟩, ⟨0, 0⟩, ⟨0, 0⟩⟩, [Channel.XPOSITION]⟩]

/-- A file that ends with the closing brace of its root: no motion section. -/
def bareInput : List Char := unwords (kHierarchy :: (bareHier ++ []))

/-- A root with the channels `Xposition Yposition Zposition`, zero offset and the samples
(1,0,0), (0,1,0), (0,0,1). -/
def soloRoot : Joint Int :=
  { name := "root".toList, parent := none, offset := ⟨0, 0, 0⟩,
    channels_order := [Channel.XPOSITION, Channel.YPOSITION, Channel.ZPOSITION],
    children := [], channel_data := [[1, 0, 0], [0, 1, 0], [0, 0, 1]], ltm := [],
    pos := [] }

/-- The heap of a skeleton with the single joint `soloRoot`. -/
def soloHeap : Heap Int := [soloRoot]

/-- The skeleton of `soloHeap`: three frames, frame time 0.0083. -/
def soloBvh : Bvh Dec := ⟨[0], some 0, 3, ⟨83, -4⟩⟩

/-- A stand-in for the rotation matrices of the math library. -/
def soloRot : Int → Vec3 Int → Mat4 Int := fun _ _ => Mat4.identity

/-! ## What a failed parse leaves behind -/

/-- The skeleton `b1` is the skeleton `b` with further joints registered: root joint,
frame count and frame time are those of `b`, the flat list of `b` is a prefix of the
flat list of `b1`. -/
def Bvh.Extends {D : Type} (b b1 : Bvh D) : Prop :=
  b1.root_joint = b.root_joint ∧ b1.num_frames = b.num_frames ∧
    b1.frame_time = b.frame_time ∧ ∃ l, b1.joints = b.joints ++ l

/-! ## Inputs that are well-formed up to a broken joint -/

/-- Tokens of a joint from its name on whose `CHANNELS` declaration has the count `k`
and, after fewer than `k` channel names, the token `bad` that is none of the six channel
names; anything may follow. -/
inductive BadChannels {F D : Type} (ng : NumGet F D) : List (List Char) → Prop
  | intro (name x y z n : List Char) (o : Offset F) (k : Int) (good : List Channel)
      (bad : List Char) (tail : List (List Char)) :
      ReadsOffset ng x y z o → ng.int.Reads n k → (good.length : Int) < k →
      channelOfToken bad = none →
      BadChannels ng (name :: kOpen :: kOffset :: x :: y :: z :: kChannels :: n ::
        (good.map chanToken ++ bad :: tail))

/-- Tokens of a joint from its name on in which the token after the opening brace is
not `OFFSET`, or the token after the three offset numbers is not `CHANNELS`; anything
may follow. -/
inductive BadSection {F D : Type} (ng : NumGet F D) : List (List Char) → Prop
  | noOffset (name t : List Char) (tail : List (List Char)) :
      t ≠ kOffset → BadSection ng (name :: kOpen :: t :: tail)
  | noChannels (name x y z : List Char) (o : Offset F) (t : List Char)
      (tail : List (List Char)) :
      ReadsOffset ng x y z o → t ≠ kChannels →
      BadSection ng (name :: kOpen :: kOffset :: x :: y :: z :: t :: tail)

/-- The tokens of a children sequence that is well-formed up to a `JOINT` whose tokens,
from its name on, satisfy `P`: that joint may come after complete End Sites and joints,
and at any depth below a joint of the sequence. -/
inductive ChildrenUpTo {F D : Type} (ng : NumGet F D) (P : List (List Char) → Prop) :
    List (List Char) → Prop
  | here (toks : List (List Char)) : P toks → ChildrenUpTo ng P (kJoint :: toks)
  | inside (name x y z n : List Char) (o : Offset F) (chans : List Channel)
      (inner : List (List Char)) :
      ReadsOffset ng x y z o → ng.int.Reads n chans.length → ChildrenUpTo ng P inner →
      ChildrenUpTo ng P (kJoint :: (headTokens name x y z n chans ++ inner))
  | afterEnd (x y z : List Char) (o : Offset F) (rest : List (List Char)) :
      ReadsOffset ng x y z o → ChildrenUpTo ng P rest →
      ChildrenUpTo ng P (kEnd :: kSite :: kOpen :: kOffset :: x :: y :: z :: kClose :: rest)
  | afterJoint (name x y z n : List Char) (o : Offset F) (chans : List Channel)
      (inner rest : List (List Char)) (ii : List (NodeInfo F)) :
      ReadsOffset ng x y z o → ng.int.Reads n chans.length → Children ng inner ii →
      ChildrenUpTo ng P rest →
      ChildrenUpTo ng P (kJoint :: (headTokens name x y z n chans ++ (inner ++ rest)))

/-- The tokens after `HIERARCHY` of an input that is well-formed up to a joint, the
root or one at any depth below it, whose tokens from its name on satisfy `P`. -/
inductive HierarchyUpTo {F D : Type} (ng : NumGet F D) (P : List (List Char) → Prop) :
    List (List Char) → Prop
  | here (toks : List (List Char)) : P toks → HierarchyUpTo ng P (kRoot :: toks)
  | inside (name x y z n : List Char) (o : Offset F) (chans : List Channel)
      (inner : List (List Char)) :
      ReadsOffset ng x y z o → ng.int.Reads n chans.length → ChildrenUpTo ng P inner →
      HierarchyUpTo ng P (kRoot :: (headTokens name x y z n chans ++ inner))

/-! ## End Sites and the joints that enclose them -/

/-- An End Site block of the text: its position and the position of the joint whose
body holds it, both counted in the textual order of the node declarations with the root
at 0, and its offset. -/
structure Site (F : Type) where
  pos : Nat
  encl : Nat
  offset : Offset F

/-- The grammar `Children` with positions: the children sequence of the joint declared
at position `encl`, the first node of the sequence being declared at position `next`;
`sites` lists the End Site blocks of the sequence, nested ones included. -/
inductive ChildrenAt {F D : Type} (ng : NumGet F D) :
    Nat → Nat → List (List Char) → List (NodeInfo F) → List (Site F) → Prop
  | close (encl next : Nat) : ChildrenAt ng encl next [kClose] [] []
  | endSite (encl next : Nat) (x y z : List Char) (o : Offset F) (rest : List (List Char))
      (infos : List (NodeInfo F)) (sites : List (Site F)) :
      ReadsOffset ng x y z o → ChildrenAt ng encl (next + 1) rest infos sites →
      ChildrenAt ng encl next
        (kEnd :: kSite :: kOpen :: kOffset :: x :: y :: z :: kClose :: rest)
        (⟨kEndSite, o, []⟩ :: infos) (⟨next, encl, o⟩ :: sites)
  | joint (encl next : Nat) (name x y z n : List Char) (o : Offset F)
      (chans : List Channel) (inner rest : List (List Char)) (ii ir : List (NodeInfo F))
      (si sr : List (Site F)) :
      ReadsOffset ng x y z o → ng.int.Reads n chans.length →
      ChildrenAt ng next (next + 1) inner ii si →
      ChildrenAt ng encl (next + 1 + ii.length) rest ir sr →
      ChildrenAt ng encl next (kJoint :: (headTokens name x y z n chans ++ (inner ++ rest)))
        (⟨name, o, chans⟩ :: (ii ++ ir)) (si ++ sr)

/-- The grammar `Hierarchy` with the End Site blocks of the text. -/
inductive HierarchyAt {F D : Type} (ng : NumGet F D) :
    List (List Char) → List (NodeInfo F) → List (Site F) → Prop
  | root (name x y z n : List Char) (o : Offset F) (chans : List Channel)
      (inner : List (List Char)) (ii : List (NodeInfo F)) (sites : List (Site F)) :
      ReadsOffset ng x y z o → ng.int.Reads n chans.length →
      ChildrenAt ng 0 1 inner ii sites →
      HierarchyAt ng (kRoot :: (headTokens name x y z n chans ++ inner))
        (⟨name, o, chans⟩ :: ii) sites

/-- A well-formed input, as `WellFormed`, with the End Site blocks of its hierarchy. -/
def WellFormedAt {F D : Type} (ng : NumGet F D) (input : List Char)
    (infos : List (NodeInfo F)) (sites : List (Site F)) (frames : Int) (time : D)
    (vals : List F) : Prop :=
  ∃ hier header nums rest,
    Lexes input (kHierarchy :: (hier ++ (header ++ nums))) rest ∧
    (∀ c ∈ rest, isspace c = true) ∧
    HierarchyAt ng hier infos sites ∧ MotionHeader ng header frames time ∧
    ReadsAll ng nums vals ∧ vals.length = frames.toNat * infoSum infos

/-- Every End Site of `sites` is in the heap, counted from index `n0`, as a leaf without
channels named `End Site` that has the offset of the text, whose parent reference is the
joint enclosing it in the text and which is in the children list of that joint. -/
def SitesAt {F : Type} (h : Heap F) (n0 : Nat) (sites : List (Site F)) : Prop :=
  ∀ s ∈ sites, ∃ (j pj : Joint F), h[n0 + s.pos]? = some j ∧ j.name = kEndSite ∧
    j.parent = some (n0 + s.encl) ∧ j.offset = s.offset ∧ j.channels_order = [] ∧
    j.children = [] ∧ h[n0 + s.encl]? = some pj ∧ (n0 + s.pos) ∈ pj.children

/-! ## What the evaluator has stored -/

/-- The joint `j1` is the joint `j0` after the loop over `n` frames, in the heap `h1`:
for every frame `k` the transform stored at index `k` is `ltm * rmat` and the position
appended for it is the translation of `ltm`, with `(ltm, rmat)` as the body of the loop
computes them from the samples of the joint and the transform of its parent in `h1`;
transforms with index `n` and above are those of `j0`. -/
def Evaluated {F : Type} [Zero F] [One F] [Add F] [Mul F] (rot : F → Vec3 F → Mat4 F)
    (n : Nat) (h1 : Heap F) (j0 j1 : Joint F) : Prop :=
  ∃ ps : List (Vec3 F), j1.pos = j0.pos ++ ps ∧ ps.length = n ∧
    j1.ltm.length = max j0.ltm.length n ∧
    (∀ m, n ≤ m → j1.ltm[m]? = j0.ltm[m]?) ∧
    ∀ k, k < n → ∃ b, frameBase rot h1 j0 (offsetMatrix j0.offset) j0.channel_data k = some b ∧
      j1.ltm[k]? = some (b.1.mul b.2) ∧ ps[k]? = some b.1.translation

/-- The joint `jb` is the joint `ja` but for sample values of the channels `Xposition`,
`Yposition`, `Zposition` when the joint has a parent: same parent, children, offset and
channels, as many sample rows of the same lengths, and the same value wherever the
entry does not belong to a positional channel of a joint with a parent. Transforms and
positions, which the evaluator writes, are not compared. -/
def SameButPosition {F : Type} (ja jb : Joint F) : Prop :=
  jb.parent = ja.parent ∧ jb.children = ja.children ∧ jb.offset = ja.offset ∧
  jb.channels_order = ja.channels_order ∧
  jb.channel_data.length = ja.channel_data.length ∧
  ∀ (f : Nat) (rowa rowb : List F), ja.channel_data[f]? = some rowa →
    jb.channel_data[f]? = some rowb →
    rowb.length = rowa.length ∧
    ∀ i : Nat, (∀ c : Channel, ja.channels_order[i]? = some c → ja.parent ≠ none →
        c.isPosition = false) →
      rowb[i]? = rowa[i]?

/-- The value `acc` plus the samples in `row` of the channels equal to `c` among `chs`,
added from left to right; entry `j` of the row belongs to the first channel of `chs`. -/
def axisSum {F : Type} [Zero F] [Add F] (c : Channel) : List Channel → Nat → List F → F → F
  | [], _, _, acc => acc
  | d :: ds, j, row, acc =>
    axisSum c ds (j + 1) row (if d = c then acc + row.getD j 0 else acc)

/-- The rotation matrices of the rotational channels among `chs`, in the order of `chs`:
about the axis of the channel, by the sample of the channel in `row`. -/
def rotations {F : Type} [Zero F] [One F] (rot : F → Vec3 F → Mat4 F) :
    List Channel → Nat → List F → List (Mat4 F)
  | [], _, _ => []
  | Channel.XROTATION :: ds, j, row =>
    rot (row.getD j 0) ⟨1, 0, 0⟩ :: rotations rot ds (j + 1) row
  | Channel.YROTATION :: ds, j, row =>
    rot (row.getD j 0) ⟨0, 1, 0⟩ :: rotations rot ds (j + 1) row
  | Channel.ZROTATION :: ds, j, row =>
    rot (row.getD j 0) ⟨0, 0, 1⟩ :: rotations rot ds (j + 1) row
  | _ :: ds, j, row => rotations rot ds (j + 1) row

/-- Sum of the samples of the channels `c` of joint `j` in frame `f`. -/
def Joint.axisTotal {F : Type} [Zero F] [Add F] (j : Joint F) (c : Channel) (f : Nat) : F :=
  axisSum c j.channels_order 0 (j.channel_data.getD f []) 0

/-- The rotation matrices of joint `j` for frame `f`, in the order of its channels. -/
def Joint.rotationsAt {F : Type} [Zero F] [One F] (rot : F → Vec3 F → Mat4 F) (j : Joint F)
    (f : Nat) : List (Mat4 F) :=
  rotations rot j.channels_order 0 (j.channel_data.getD f [])

/-! ## Further sample inputs -/

/-- Exact decimals have a zero. -/
instance Dec.instZero : Zero Dec := ⟨⟨0, 0⟩⟩

/-- Exact decimals have a one. -/
instance Dec.instOne : One Dec := ⟨⟨1, 0⟩⟩

/-- Sum of two exact decimals, on the smaller of the two exponents. -/
def Dec.add (a b : Dec) : Dec :=
  ⟨a.mant * 10 ^ (a.exp - min a.exp b.exp).toNat +
    b.mant * 10 ^ (b.exp - min a.exp b.exp).toNat, min a.exp b.exp⟩

/-- Product of two exact decimals. -/
def Dec.mul (a b : Dec) : Dec := ⟨a.mant * b.mant, a.exp + b.exp⟩

/-- Exact decimals are added with `Dec.add`. -/
instance Dec.instAdd : Add Dec := ⟨Dec.add⟩

/-- Exact decimals are multiplied with `Dec.mul`. -/
instance Dec.instMul : Mul Dec := ⟨Dec.mul⟩

/-- A stand-in for the rotation matrices of the math library, on exact decimals. -/
def decRot : Dec → Vec3 Dec → Mat4 Dec := fun _ _ => Mat4.identity

/-- The tokens after `HIERARCHY` of a file in which the joint `leg`, a child of the
root, declares two channels and names `Xrotation` and `Wrotation`. -/
def badHier : List (List Char) :=
  kRoot :: (headTokens "hip".toList "0".toList "0".toList "0".toList "0".toList [] ++
    (kJoint :: "leg".toList :: kOpen :: kOffset :: "0".toList :: "1".toList :: "0".toList ::
      kChannels :: "2".toList ::
      ([Channel.XROTATION].map chanToken ++ "Wrotation".toList :: [kClose, kClose])))

/-- The file with the tokens `HIERARCHY` and `badHier`. -/
def badInput : List Char := unwords (kHierarchy :: badHier)

/-- A file in which the body of the root holds a second `OFFSET` section after the
`CHANNELS` declaration. -/
def twiceInput : List Char :=
  ("HIERARCHY ROOT r \x7b OFFSET 0 0 0 CHANNELS 0 OFFSET 1 2 3 \x7d " ++
    "MOTION Frames: 0 Frame Time: 0.1").toList

/-- The heap after parsing `twiceInput`: the root keeps its first offset. -/
def twiceHeap : Heap Dec :=
  [ { name := "r".toList, parent := none, offset := ⟨⟨0, 0⟩, ⟨0, 0⟩, ⟨0, 0⟩⟩,
      channels_order := [], children := [], channel_data := [], ltm := [], pos := [] } ]

/-- The skeleton after parsing `twiceInput`. -/
def twiceBvh : Bvh Dec := ⟨[0], some 0, 0, ⟨1, -1⟩⟩

/-- A file whose hierarchy and frame count are read and whose motion header then has
`Foo` in the place of `Frame`. -/
def halfInput : List Char :=
  unwords (kHierarchy :: (bareHier ++ [kMotion, kFrames, "5".toList, "Foo".toList]))

/-- The heap after the failed parse of `halfInput`. -/
def halfHeap : Heap Dec :=
  [ { name := "r".toList, parent := none, offset := ⟨⟨0, 0⟩, ⟨0, 0⟩, ⟨0, 0⟩⟩,
      channels_order := [], children := [], channel_data := [], ltm := [], pos := [] } ]

/-- The skeleton after the failed parse of `halfInput`: the root is registered and
set, the frame count is 5. -/
def halfBvh : Bvh Dec := ⟨[0], some 0, 5, ⟨0, 0⟩⟩

/-- The End Site block of the sample file: third node of the text, in the body of the
second. -/
def demoSites : List (Site Dec) := [⟨2, 1, ⟨⟨0, 0⟩, ⟨15, -1⟩, ⟨0, 0⟩⟩⟩]

/-- The translation by `(x, y, z)` as a matrix of integers. -/
def shift (x y z : Int) : Mat4 Int :=
  ⟨⟨1, 0, 0, 0⟩, ⟨0, 1, 0, 0⟩, ⟨0, 0, 1, 0⟩, ⟨x, y, z, 1⟩⟩

/-- The heap `soloHeap` after one run of the evaluator. -/
def soloOnce : Heap Int :=
  [ { soloRoot with
      ltm := [shift 1 0 0, shift 0 1 0, shift 0 0 1],
      pos := [⟨1, 0, 0⟩, ⟨0, 1, 0⟩, ⟨0, 0, 1⟩] } ]

/-- The heap `soloHeap` after two runs of the evaluator. -/
def soloTwice : Heap Int :=
  [ { soloRoot with
      ltm := [shift 1 0 0, shift 0 1 0, shift 0 0 1],
      pos := [⟨1, 0, 0⟩, ⟨0, 1, 0⟩, ⟨0, 0, 1⟩, ⟨1, 0, 0⟩, ⟨0, 1, 0⟩, ⟨0, 0, 1⟩] } ]

/-- A stand-in for the rotation matrices of the math library that depends on the angle
and on the axis; the matrices of different axes do not commute. -/
def spinRot : Int → Vec3 Int → Mat4 Int := fun v a =>
  ⟨⟨1, v * a.z, 0, 0⟩, ⟨0, 1, v * a.x, 0⟩, ⟨v * a.y, 0, 1, 0⟩, ⟨0, 0, 0, 1⟩⟩

/-- A root with a positional and three rotational channels, two frames. -/
def spinRoot : Joint Int :=
  { name := "root".toList, parent := none, offset := ⟨1, 0, 2⟩,
    channels_order := [Channel.XPOSITION, Channel.ZROTATION, Channel.XROTATION,
      Channel.YROTATION],
    children := [1], channel_data := [[2, 3, 5, 7], [4, 1, 2, 3]], ltm := [], pos := [] }

/-- A child of `spinRoot` with two rotational channels. -/
def spinArm : Joint Int :=
  { name := "arm".toList, parent := some 0, offset := ⟨0, 1, 0⟩,
    channels_order := [Channel.YROTATION, Channel.ZROTATION], children := [],
    channel_data := [[1, 2], [3, 4]], ltm := [], pos := [] }

/-- A skeleton of two joints with rotations. -/
def spinHeap : Heap Int := [spinRoot, spinArm]

/-- The skeleton record of `spinHeap`: two frames. -/
def spinBvh : Bvh Dec := ⟨[0, 1], some 0, 2, ⟨1, -1⟩⟩

/-- A root with one positional channel and one frame. -/
def pairRoot : Joint Int :=
  { name := "root".toList, parent := none, offset := ⟨0, 0, 0⟩,
    channels_order := [Channel.XPOSITION], children := [1], channel_data := [[2]],
    ltm := [], pos := [] }

/-- A child of `pairRoot` with a positional and a rotational channel. -/
def pairArm : Joint Int :=
  { name := "arm".toList, parent := some 0, offset := ⟨0, 1, 0⟩,
    channels_order := [Channel.XPOSITION, Channel.ZROTATION], children := [],
    channel_data := [[5, 3]], ltm := [], pos := [] }

/-- The joint `pairArm` with another sample of its positional channel. -/
def pairArmMoved : Joint Int := { pairArm with channel_data := [[7, 3]] }

/-- A skeleton of two joints. -/
def pairHeap : Heap Int := [pairRoot, pairArm]

/-- The skeleton `pairHeap` with another positional sample of the child. -/
def pairHeapMoved : Heap Int := [pairRoot, pairArmMoved]

/-- The skeleton record of `pairHeap`: one frame. -/
def pairBvh : Bvh Dec := ⟨[0, 1], some 0, 1, ⟨1, -1⟩⟩

/-! ## Unfolding of the recursive parser -/

theorem parseJoint_succ {F D : Type} (ng : NumGet F D) (u : Indet F D) (fuel : Nat)
    (parent : Option Nat) (st : PState F D) :
    parseJoint ng u (fuel + 1) parent st =
      match parseJointHead ng u parent st with
      | Except.error (ret, st1) => some (ret, none, st1)
      | Except.ok (token, st1) => childrenLoop ng u fuel st.heap.length token [] st1 := rfl

theorem childrenLoop_not_good {F D : Type} (ng : NumGet F D) (u : Indet F D) (fuel : Nat)
    (joint : Nat) (token : List Char) (children : List Nat) (st : PState F D)
    (h : st.file.good = false) :
    childrenLoop ng u fuel joint token children st = some (-1, none, st) := by
  cases fuel <;> simp [childrenLoop, h]

theorem childrenLoop_joint {F D : Type} (ng : NumGet F D) (u : Indet F D) (fuel : Nat)
    (joint : Nat) (token : List Char) (children : List Nat) (st : PState F D)
    (h : st.file.good = true) (ht : token = kJoint) :
    childrenLoop ng u (fuel + 1) joint token children st =
      match parseJoint ng u fuel (some joint) st with
      | none => none
      | some (ret, child, st1) =>
        if ret ≠ 0 then some (ret, none, st1)
        else
          childrenLoop ng u fuel joint (getString st1.file token).2
            (children ++ child.toList) ⟨(getString st1.file token).1, st1.heap, st1.bvh⟩ := by
  rw [childrenLoop]
  simp only [h, ht, if_true]

theorem childrenLoop_end {F D : Type} (ng : NumGet F D) (u : Indet F D) (fuel : Nat)
    (joint : Nat) (token : List Char) (children : List Nat) (st : PState F D)
    (h : st.file.good = true) (ht : token = kEnd) :
    childrenLoop ng u (fuel + 1) joint token children st =
      match parseEndSite ng u joint token st with
      | Except.error (ret, st1) => some (ret, none, st1)
      | Except.ok (token1, st1) =>
        childrenLoop ng u fuel joint (getString st1.file token1).2
          (children ++ [st.heap.length])
          ⟨(getString st1.file token1).1, st1.heap, st1.bvh⟩ := by
  rw [childrenLoop]
  have : ¬ kEnd = kJoint := by decide
  simp only [h, ht, if_true, this, if_false]

theorem childrenLoop_close {F D : Type} (ng : NumGet F D) (u : Indet F D) (fuel : Nat)
    (joint : Nat) (token : List Char) (children : List Nat) (st : PState F D)
    (h : st.file.good = true) (ht : token = kClose) :
    childrenLoop ng u (fuel + 1) joint token children st =
      some (0, some joint,
        ⟨st.file, st.heap.upd joint (Joint.set_children children), st.bvh⟩) := by
  rw [childrenLoop]
  have h1 : ¬ kClose = kJoint := by decide
  have h2 : ¬ kClose = kEnd := by decide
  simp only [h, ht, if_true, h1, h2, if_false]

theorem childrenLoop_skip {F D : Type} (ng : NumGet F D) (u : Indet F D) (fuel : Nat)
    (joint : Nat) (token : List Char) (children : List Nat) (st : PState F D)
    (h : st.file.good = true) (h1 : token ≠ kJoint) (h2 : token ≠ kEnd)
    (h3 : token ≠ kClose) :
    childrenLoop ng u (fuel + 1) joint token children st =
      childrenLoop ng u fuel joint (getString st.file token).2 children
        ⟨(getString st.file token).1, st.heap, st.bvh⟩ := by
  rw [childrenLoop]
  simp only [h, h1, h2, h3, if_true, if_false]

theorem childrenLoop_zero_good {F D : Type} (ng : NumGet F D) (u : Indet F D)
    (joint : Nat) (token : List Char) (children : List Nat) (st : PState F D)
    (h : st.file.good = true) :
    childrenLoop ng u 0 joint token children st = none := by
  rw [childrenLoop]
  simp only [h, if_true]

/-! ## Basic facts about the stream -/

theorem dropWhile_head_false {α : Type} (p : α → Bool) :
    ∀ (l : List α) (c : α) (cs : List α), l.dropWhile p = c :: cs → p c = false
  | [], _, _, h => by simp at h
  | a :: l, c, cs, h => by
    by_cases ha : p a = true
    · rw [List.dropWhile_cons_of_pos ha] at h
      exact dropWhile_head_false p l c cs h
    · rw [List.dropWhile_cons_of_neg ha] at h
      cases h
      simpa using ha

theorem sentry_length_le (s : IStream) : (sentry s).1.buf.length ≤ s.buf.length := by
  unfold sentry
  split
  · split
    · simp
    · rename_i c cs h
      have := (List.dropWhile_suffix (l := s.buf) isspace).length_le
      rw [h] at this
      simpa using this
  · simp

theorem sentry_false_not_good (s : IStream) (h : (sentry s).2 = false) :
    (sentry s).1.good = false := by
  unfold sentry at h ⊢
  split
  · split
    · simp [IStream.good]
    · rename_i c cs hd
      rw [if_pos (by assumption), hd] at h
      simp at h
  · simp [IStream.good]

theorem sentry_true_cases (s : IStream) (h : (sentry s).2 = true) :
    ∃ c cs, (sentry s).1 = ⟨c :: cs, false, false⟩ ∧ isspace c = false ∧
      s.buf.dropWhile isspace = c :: cs ∧ s.good = true := by
  unfold sentry at h ⊢
  by_cases hg : s.good = true
  · rw [if_pos hg] at h ⊢
    cases hd : s.buf.dropWhile isspace with
    | nil => rw [hd] at h; simp at h
    | cons c cs =>
      exact ⟨c, cs, by simp, dropWhile_head_false isspace _ _ _ hd, rfl, hg⟩
  · rw [if_neg hg] at h
    simp at h

theorem sentry_not_good (s : IStream) (h : s.good = false) :
    sentry s = (⟨s.buf, s.eofbit, true⟩, false) := by
  unfold sentry
  simp [h]

theorem getString_not_good (s : IStream) (old : List Char) (h : s.good = false) :
    getString s old = (⟨s.buf, s.eofbit, true⟩, old) := by
  unfold getString
  rw [sentry_not_good s h]

theorem extract_not_good {α : Type} (sc : Scanner α) (s : IStream) (old : α)
    (h : s.good = false) : extract sc s old = (⟨s.buf, s.eofbit, true⟩, old) := by
  unfold extract
  rw [sentry_not_good s h]

theorem getString_length_le (s : IStream) (old : List Char) :
    (getString s old).1.buf.length ≤ s.buf.length := by
  unfold getString
  cases hb : (sentry s).2 with
  | false =>
    have : sentry s = ((sentry s).1, false) := by rw [← hb]
    rw [this]
    exact sentry_length_le s
  | true =>
    have : sentry s = ((sentry s).1, true) := by rw [← hb]
    rw [this]
    have h1 := sentry_length_le s
    have h2 := (List.dropWhile_suffix (l := (sentry s).1.buf) (fun c => !isspace c)).length_le
    simp only
    omega

theorem getString_good_lt (s : IStream) (old : List Char)
    (h : (getString s old).1.good = true) :
    (getString s old).1.buf.length < s.buf.length := by
  unfold getString at h ⊢
  cases hb : (sentry s).2 with
  | false =>
    have e : sentry s = ((sentry s).1, false) := by rw [← hb]
    rw [e] at h
    simp only at h
    rw [sentry_false_not_good s hb] at h
    cases h
  | true =>
    have e : sentry s = ((sentry s).1, true) := by rw [← hb]
    rw [e]
    obtain ⟨c, cs, h1, hc, hd, _⟩ := sentry_true_cases s hb
    have h2 := (List.dropWhile_suffix (l := s.buf) isspace).length_le
    rw [hd] at h2
    have h3 := (List.dropWhile_suffix (l := cs) (fun c => !isspace c)).length_le
    simp only [h1, List.dropWhile_cons_of_pos (p := fun c => !isspace c) (a := c) (l := cs)
      (by simp [hc])]
    simp only [List.length_cons] at h2
    omega

theorem run_length_le {α : Type} (sc : Scanner α) :
    ∀ (l : List Char) (st : sc.σ), (sc.run st l).2.length ≤ l.length
  | [], st => by simp [Scanner.run]
  | c :: cs, st => by
    unfold Scanner.run
    split
    · simp
    · split
      · have := run_length_le sc cs ‹_›
        simp only [List.length_cons]
        omega
      · simp

theorem extract_length_le {α : Type} (sc : Scanner α) (s : IStream) (old : α) :
    (extract sc s old).1.buf.length ≤ s.buf.length := by
  unfold extract
  cases hb : (sentry s).2 with
  | false =>
    have : sentry s = ((sentry s).1, false) := by rw [← hb]
    rw [this]
    exact sentry_length_le s
  | true =>
    have : sentry s = ((sentry s).1, true) := by rw [← hb]
    rw [this]
    have h1 := sentry_length_le s
    have h2 := run_length_le sc (sentry s).1.buf sc.init
    simp only
    omega

theorem channelLoop_length_le :
    ∀ (n : Nat) (file : IStream) (token : List Char) (channels : List Channel),
      (channelLoop n file token channels).1.buf.length ≤ file.buf.length
  | 0, _, _, _ => by simp [channelLoop]
  | n + 1, file, token, channels => by
    unfold channelLoop
    have h1 := getString_length_le file token
    split
    · have h2 := channelLoop_length_le n (getString file token).1 (getString file token).2
        (channels ++ [‹Channel›])
      omega
    · exact h1

theorem parseChannelOrder_length_le {F D : Type} (ng : NumGet F D) (u : Indet F D)
    (file : IStream) (heap : Heap F) (joint : Nat) :
    (parseChannelOrder ng u file heap joint).2.1.buf.length ≤ file.buf.length := by
  unfold parseChannelOrder
  have h1 := extract_length_le ng.int file (u.num joint)
  have h2 := channelLoop_length_le (extract ng.int file (u.num joint)).2.toNat
    (extract ng.int file (u.num joint)).1 [] []
  split
  · rename_i f1 chs he
    rw [he] at h2
    simp only at h2 ⊢
    omega
  · rename_i f1 he
    rw [he] at h2
    simp only at h2 ⊢
    omega

theorem readOffset_length_le {F D : Type} (ng : NumGet F D) (file : IStream) (o : Offset F) :
    (readOffset ng file o).1.buf.length ≤ file.buf.length := by
  unfold readOffset
  have h1 := extract_length_le ng.float file o.x
  have h2 := extract_length_le ng.float (extract ng.float file o.x).1 o.y
  have h3 := extract_length_le ng.float
    (extract ng.float (extract ng.float file o.x).1 o.y).1 o.z
  simp only
  omega

/-! ## The recursion budget of `parse` is always enough -/

theorem parseJointHead_length {F D : Type} (ng : NumGet F D) (u : Indet F D)
    (parent : Option Nat) (st : PState F D) :
    (∀ ret st1, parseJointHead ng u parent st = Except.error (ret, st1) →
      st1.file.buf.length ≤ st.file.buf.length) ∧
    (∀ tok st1, parseJointHead ng u parent st = Except.ok (tok, st1) →
      st1.file.buf.length ≤ st.file.buf.length ∧
      (st1.file.good = true → st1.file.buf.length < st.file.buf.length)) := by
  unfold parseJointHead
  simp only
  have l1 := getString_length_le st.file []
  have l2 := getString_length_le (getString st.file []).1 []
  have l3 := getString_length_le (getString (getString st.file []).1 []).1
    (getString (getString st.file []).1 []).2
  generalize getString (getString (getString st.file []).1 []).1
    (getString (getString st.file []).1 []).2 = rt2 at l3 ⊢
  split
  · have l4 := readOffset_length_le ng rt2.1 (u.local_offset st.heap.length)
    generalize readOffset ng rt2.1 (u.local_offset st.heap.length) = ro at l4 ⊢
    have l5 := getString_length_le ro.1 rt2.2
    generalize getString ro.1 rt2.2 = rt3 at l5 ⊢
    split
    · generalize Heap.upd _ st.heap.length (Joint.set_offset ro.2) = heap2
      have l6 := parseChannelOrder_length_le ng u rt3.1 heap2 st.heap.length
      generalize parseChannelOrder ng u rt3.1 heap2 st.heap.length = pc at l6 ⊢
      obtain ⟨ret, file4, heap4⟩ := pc
      simp only at l6 ⊢
      split
      · refine ⟨fun ret st1 h => ?_, fun tok st1 h => by cases h⟩
        cases h
        simp only
        omega
      · refine ⟨fun ret st1 h => (by cases h), fun tok st1 h => ?_⟩
        have l7 := getString_length_le file4 rt3.2
        have l8 := getString_good_lt file4 rt3.2
        cases h
        simp only
        exact ⟨by omega, fun hg => by have := l8 hg; omega⟩
    · refine ⟨fun ret st1 h => ?_, fun tok st1 h => by cases h⟩
      cases h
      simp only
      omega
  · refine ⟨fun ret st1 h => ?_, fun tok st1 h => by cases h⟩
    cases h
    simp only
    omega

theorem parseEndSite_length {F D : Type} (ng : NumGet F D) (u : Indet F D)
    (joint : Nat) (token : List Char) (st : PState F D) :
    (∀ ret st1, parseEndSite ng u joint token st = Except.error (ret, st1) →
      st1.file.buf.length ≤ st.file.buf.length) ∧
    (∀ tok st1, parseEndSite ng u joint token st = Except.ok (tok, st1) →
      st1.file.buf.length ≤ st.file.buf.length) := by
  unfold parseEndSite
  simp only
  have l1 := getString_length_le st.file token
  generalize getString st.file token = rs1 at l1 ⊢
  have l2 := getString_length_le rs1.1 rs1.2
  generalize getString rs1.1 rs1.2 = rs2 at l2 ⊢
  have l3 := getString_length_le rs2.1 rs2.2
  generalize getString rs2.1 rs2.2 = rt3 at l3 ⊢
  split
  · have l4 := readOffset_length_le ng rt3.1 (u.local_offset st.heap.length)
    generalize readOffset ng rt3.1 (u.local_offset st.heap.length) = ro at l4 ⊢
    have l5 := getString_length_le ro.1 rt3.2
    refine ⟨fun ret st1 h => (by cases h), fun tok st1 h => ?_⟩
    cases h
    simp only
    omega
  · refine ⟨fun ret st1 h => ?_, fun tok st1 h => by cases h⟩
    cases h
    simp only
    omega

theorem parseJoint_childrenLoop_total {F D : Type} (ng : NumGet F D) (u : Indet F D) :
    ∀ n : Nat,
      (∀ (parent : Option Nat) (st : PState F D), 2 * st.file.buf.length + 2 ≤ n →
        ∃ r, parseJoint ng u n parent st = some r ∧
          r.2.2.file.buf.length ≤ st.file.buf.length) ∧
      (∀ (joint : Nat) (token : List Char) (children : List Nat) (st : PState F D),
        (st.file.good = true → 2 * st.file.buf.length + 3 ≤ n) →
        ∃ r, childrenLoop ng u n joint token children st = some r ∧
          r.2.2.file.buf.length ≤ st.file.buf.length) := by
  intro n
  induction n with
  | zero =>
    refine ⟨fun _ st h => by omega, fun joint token children st h => ?_⟩
    cases hg : st.file.good with
    | true => have := h hg; omega
    | false => exact ⟨_, childrenLoop_not_good ng u 0 joint token children st hg, le_refl _⟩
  | succ n ih =>
    obtain ⟨ihJ, ihL⟩ := ih
    constructor
    · intro parent st hn
      rw [parseJoint_succ]
      obtain ⟨hE, hO⟩ := parseJointHead_length ng u parent st
      cases hh : parseJointHead ng u parent st with
      | error e =>
        obtain ⟨ret, st1⟩ := e
        exact ⟨_, rfl, hE ret st1 hh⟩
      | ok o =>
        obtain ⟨tok, st1⟩ := o
        obtain ⟨h1, h2⟩ := hO tok st1 hh
        obtain ⟨r, hr, hl⟩ := ihL st.heap.length tok [] st1
          (fun hg => by have := h2 hg; omega)
        exact ⟨r, hr, by omega⟩
    · intro joint token children st hn
      cases hg : st.file.good with
      | false => exact ⟨_, childrenLoop_not_good ng u _ joint token children st hg, le_refl _⟩
      | true =>
        have hn1 := hn hg
        by_cases h1 : token = kJoint
        · rw [childrenLoop_joint ng u n joint token children st hg h1]
          obtain ⟨r, hr, hl⟩ := ihJ (some joint) st (by omega)
          rw [hr]
          obtain ⟨ret, child, st1⟩ := r
          simp only at hl ⊢
          split
          · exact ⟨_, rfl, hl⟩
          · have l7 := getString_length_le st1.file token
            have l8 := getString_good_lt st1.file token
            obtain ⟨r, hr, hl2⟩ := ihL joint (getString st1.file token).2
              (children ++ child.toList) ⟨(getString st1.file token).1, st1.heap, st1.bvh⟩
              (fun hg => by have := l8 hg; simp only at this ⊢; omega)
            exact ⟨r, hr, by simp only at hl2; omega⟩
        · by_cases h2 : token = kEnd
          · rw [childrenLoop_end ng u n joint token children st hg h2]
            obtain ⟨hE, hO⟩ := parseEndSite_length ng u joint token st
            cases hh : parseEndSite ng u joint token st with
            | error e =>
              obtain ⟨ret, st1⟩ := e
              exact ⟨_, rfl, hE ret st1 hh⟩
            | ok o =>
              obtain ⟨tok, st1⟩ := o
              have l6 := hO tok st1 hh
              have l7 := getString_length_le st1.file tok
              have l8 := getString_good_lt st1.file tok
              obtain ⟨r, hr, hl2⟩ := ihL joint (getString st1.file tok).2
                (children ++ [st.heap.length])
                ⟨(getString st1.file tok).1, st1.heap, st1.bvh⟩
                (fun hg => by have := l8 hg; simp only at this ⊢; omega)
              exact ⟨r, hr, by simp only at hl2 ⊢; omega⟩
          · by_cases h3 : token = kClose
            · rw [childrenLoop_close ng u n joint token children st hg h3]
              exact ⟨_, rfl, le_refl _⟩
            · rw [childrenLoop_skip ng u n joint token children st hg h1 h2 h3]
              have l7 := getString_length_le st.file token
              have l8 := getString_good_lt st.file token
              obtain ⟨r, hr, hl2⟩ := ihL joint (getString st.file token).2 children
                ⟨(getString st.file token).1, st.heap, st.bvh⟩
                (fun hg => by have := l8 hg; simp only at this ⊢; omega)
              exact ⟨r, hr, by simp only at hl2; omega⟩

theorem parseHierarchy_isSome {F D : Type} (ng : NumGet F D) (u : Indet F D) (n : Nat)
    (st : PState F D) (h : 2 * st.file.buf.length + 2 ≤ n) :
    (parseHierarchy ng u n st).isSome = true := by
  unfold parseHierarchy
  split
  · simp only
    split
    · have l1 := getString_length_le st.file []
      obtain ⟨r, hr, -⟩ := (parseJoint_childrenLoop_total ng u n).1 none
        ⟨(getString st.file []).1, st.heap, st.bvh⟩ (by simp only; omega)
      rw [hr]
      obtain ⟨ret, root, st1⟩ := r
      simp only
      split <;> rfl
    · rfl
  · rfl

/-- Function `parse` always returns: the recursion budget it hands down is enough on
every input. -/
theorem parse_isSome {F D : Type} (ng : NumGet F D) (u : Indet F D)
    (content : Option (List Char)) (heap : Heap F) (bvh : Bvh D) :
    (parse ng u content heap bvh).isSome = true := by
  unfold parse
  cases content with
  | none => rfl
  | some cs =>
    simp only
    split
    · have l1 := getString_length_le (IStream.ofContent cs) []
      have hs := parseHierarchy_isSome ng u (2 * cs.length + 2)
        ⟨(getString (IStream.ofContent cs) []).1, heap, bvh⟩
        (by simp only [IStream.ofContent] at l1 ⊢; omega)
      cases hp : parseHierarchy ng u (2 * cs.length + 2)
        ⟨(getString (IStream.ofContent cs) []).1, heap, bvh⟩ with
      | none => rw [hp] at hs; cases hs
      | some r =>
        obtain ⟨ret, st1⟩ := r
        simp only
        split <;> rfl
    · rfl

/-! ## Heap updates -/

theorem Heap.length_upd {F : Type} (h : Heap F) (i : Nat) (f : Joint F → Joint F) :
    (Heap.upd h i f).length = h.length := by
  unfold Heap.upd
  split
  · simp
  · rfl

theorem Heap.getElem?_upd {F : Type} (h : Heap F) (i : Nat) (f : Joint F → Joint F)
    (k : Nat) : (Heap.upd h i f)[k]? = if k = i then (h[i]?).map f else h[k]? := by
  unfold Heap.upd
  cases hi : h[i]? with
  | none =>
    simp only
    split
    · subst_vars; simp [hi]
    · rfl
  | some j =>
    simp only
    have hlt : i < h.length := by
      rcases List.getElem?_eq_some.1 hi with ⟨hlt, _⟩
      exact hlt
    rw [List.getElem?_set]
    by_cases hk : k = i
    · subst hk
      simp [hlt]
    · have : ¬ i = k := fun e => hk e.symm
      simp [hk, this]

theorem Heap.upd_append_last {F : Type} (h : Heap F) (j : Joint F) (f : Joint F → Joint F) :
    Heap.upd (h ++ [j]) h.length f = h ++ [f j] := by
  unfold Heap.upd
  simp

@[simp] theorem Joint.blank_set_name {F : Type} (n : List Char) (j : Joint F) :
    (j.set_name n).Blank ↔ j.Blank := Iff.rfl
@[simp] theorem Joint.blank_set_parent {F : Type} (n : Option Nat) (j : Joint F) :
    (j.set_parent n).Blank ↔ j.Blank := Iff.rfl
@[simp] theorem Joint.blank_set_offset {F : Type} (n : Offset F) (j : Joint F) :
    (j.set_offset n).Blank ↔ j.Blank := Iff.rfl
@[simp] theorem Joint.blank_set_channels_order {F : Type} (n : List Channel) (j : Joint F) :
    (j.set_channels_order n).Blank ↔ j.Blank := Iff.rfl
@[simp] theorem Joint.blank_set_children {F : Type} (n : List Nat) (j : Joint F) :
    (j.set_children n).Blank ↔ j.Blank := Iff.rfl
theorem Joint.blank_fresh {F D : Type} (u : Indet F D) (id : Nat) :
    (Joint.fresh u id).Blank := ⟨rfl, rfl, rfl⟩

theorem parseChannelOrder_heap {F D : Type} (ng : NumGet F D) (u : Indet F D)
    (file : IStream) (h : Heap F) (j : Joint F) :
    (parseChannelOrder ng u file (h ++ [j]) h.length).2.2 = h ++ [j] ∨
    ∃ chs, (parseChannelOrder ng u file (h ++ [j]) h.length).2.2 =
      h ++ [j.set_channels_order chs] := by
  unfold parseChannelOrder
  split
  · exact Or.inr ⟨_, Heap.upd_append_last h j _⟩
  · exact Or.inl rfl

theorem parseJointHead_ok {F D : Type} (ng : NumGet F D) (u : Indet F D)
    (parent : Option Nat) (st : PState F D) (tok : List Char) (st1 : PState F D)
    (h : parseJointHead ng u parent st = Except.ok (tok, st1)) :
    ∃ j : Joint F, st1.heap = st.heap ++ [j] ∧ j.parent = parent ∧ j.children = [] ∧
      j.Blank ∧ st1.bvh = st.bvh.addJoint st.heap.length := by
  unfold parseJointHead at h
  simp only at h
  split at h
  · split at h
    · rw [Heap.upd_append_last, Heap.upd_append_last] at h
      generalize hj : Joint.set_offset _ (Joint.set_name _
        (Joint.set_parent parent (Joint.fresh u st.heap.length))) = j0 at h
      have hj0 : j0.parent = parent ∧ j0.children = [] ∧ j0.Blank := by
        subst hj
        exact ⟨rfl, rfl, rfl, rfl, rfl⟩
      have hc := parseChannelOrder_heap ng u
        (getString (readOffset ng (getString (getString (getString st.file []).1 []).1
          (getString (getString st.file []).1 []).2).1 (u.local_offset st.heap.length)).1
          (getString (getString (getString st.file []).1 []).1
            (getString (getString st.file []).1 []).2).2).1 st.heap j0
      generalize parseChannelOrder ng u _ (st.heap ++ [j0]) st.heap.length = pc at h hc
      obtain ⟨ret, file4, heap4⟩ := pc
      simp only at h hc
      split at h
      · cases h
      · cases h
        rcases hc with e1 | ⟨chs, e1⟩
        · exact ⟨j0, e1, hj0.1, hj0.2.1, hj0.2.2, rfl⟩
        · exact ⟨_, e1, hj0.1, hj0.2.1, hj0.2.2, rfl⟩
    · cases h
  · cases h

theorem parseJointHead_error {F D : Type} (ng : NumGet F D) (u : Indet F D)
    (parent : Option Nat) (st : PState F D) (ret : Int) (st1 : PState F D)
    (h : parseJointHead ng u parent st = Except.error (ret, st1)) : ret ≠ 0 := by
  unfold parseJointHead at h
  simp only at h
  split at h
  · split at h
    · generalize parseChannelOrder ng u _ _ st.heap.length = pc at h
      obtain ⟨ret1, file4, heap4⟩ := pc
      simp only at h
      split at h
      · cases h
        assumption
      · cases h
    · cases h
      decide
  · cases h
    decide

theorem parseEndSite_ok {F D : Type} (ng : NumGet F D) (u : Indet F D) (joint : Nat)
    (token : List Char) (st : PState F D) (tok : List Char) (st1 : PState F D)
    (h : parseEndSite ng u joint token st = Except.ok (tok, st1)) :
    ∃ j : Joint F, st1.heap = st.heap ++ [j] ∧ j.parent = some joint ∧ j.children = [] ∧
      j.Blank ∧ j.channels_order = [] ∧ j.name = kEndSite ∧
      st1.bvh = st.bvh.addJoint st.heap.length := by
  unfold parseEndSite at h
  simp only at h
  split at h
  · rw [Heap.upd_append_last] at h
    cases h
    exact ⟨_, rfl, rfl, rfl, ⟨rfl, rfl, rfl⟩, rfl, rfl, rfl⟩
  · cases h

theorem parseEndSite_error {F D : Type} (ng : NumGet F D) (u : Indet F D) (joint : Nat)
    (token : List Char) (st : PState F D) (ret : Int) (st1 : PState F D)
    (h : parseEndSite ng u joint token st = Except.error (ret, st1)) : ret ≠ 0 := by
  unfold parseEndSite at h
  simp only at h
  split at h
  · cases h
  · cases h
    decide

/-! ## The heap after a successful `parseJoint` -/

theorem range'_split (a b c : Nat) (h1 : a ≤ b) (h2 : b ≤ c) :
    List.range' a (b - a) ++ List.range' b (c - b) = List.range' a (c - a) := by
  have e : b = a + (b - a) := by omega
  conv_lhs => rw [e, Nat.add_sub_cancel_left]
  rw [List.range'_append_1]
  congr 1
  omega

theorem range'_head (a c : Nat) (h : a < c) :
    a :: List.range' (a + 1) (c - (a + 1)) = List.range' a (c - a) := by
  have e : c - a = (c - (a + 1)) + 1 := by omega
  rw [e, List.range'_succ]

theorem Forest.append_forest {F : Type} {h : Heap F} {p : Option Nat} {as bs la lb : List Nat}
    (ha : Forest h p as la) (hb : Forest h p bs lb) : Forest h p (as ++ bs) (la ++ lb) := by
  induction ha with
  | nil p => exact hb
  | cons p id j ids sub rest hj hp _ _ _ ih2 =>
    have := Forest.cons p id j (ids ++ bs) sub (rest ++ lb) hj hp ‹_› (ih2 hb)
    simpa [List.append_assoc] using this

/-- A forest survives every change of the heap that keeps the parent reference and the
children list of its joints. -/
theorem Forest.mono {F : Type} {h h2 : Heap F} {p : Option Nat} {ids l : List Nat}
    (hf : Forest h p ids l)
    (hk : ∀ x ∈ l, ∀ j, h[x]? = some j →
      ∃ j2, h2[x]? = some j2 ∧ j2.parent = j.parent ∧ j2.children = j.children) :
    Forest h2 p ids l := by
  induction hf with
  | nil p => exact Forest.nil p
  | cons p id j ids sub rest hj hp _ _ ih1 ih2 =>
    obtain ⟨j2, e1, e2, e3⟩ := hk id (by simp) j hj
    refine Forest.cons p id j2 ids sub rest e1 (by rw [e2, hp]) ?_ ?_
    · rw [e3]
      exact ih1 (fun x hx => hk x (by simp [hx]))
    · exact ih2 (fun x hx => hk x (by simp [hx]))

theorem Forest.congr_forest {F : Type} {h h2 : Heap F} {p : Option Nat} {ids l : List Nat}
    (hf : Forest h p ids l) (hk : ∀ x ∈ l, h2[x]? = h[x]?) : Forest h2 p ids l :=
  hf.mono (fun x hx j hj => ⟨j, by rw [hk x hx, hj], rfl, rfl⟩)

theorem Forest.preOrder {F : Type} {h : Heap F} {p : Option Nat} {ids l : List Nat}
    (hf : Forest h p ids l) : PreOrder h ids l := by
  induction hf with
  | nil p => exact PreOrder.nil
  | cons p id j ids sub rest hj _ _ _ ih1 ih2 => exact PreOrder.cons id j ids sub rest hj ih1 ih2

theorem parse_invariant {F D : Type} (ng : NumGet F D) (u : Indet F D) :
    ∀ n : Nat,
      (∀ (parent : Option Nat) (st : PState F D) (ret : Int) (parsed : Option Nat)
          (st1 : PState F D),
        parseJoint ng u n parent st = some (ret, parsed, st1) → ret = 0 →
        parsed = some st.heap.length ∧ JointPost parent st.heap st.bvh st1) ∧
      (∀ (joint : Nat) (token : List Char) (cs : List Nat) (st : PState F D) (ret : Int)
          (parsed : Option Nat) (st1 : PState F D),
        joint < st.heap.length →
        childrenLoop ng u n joint token cs st = some (ret, parsed, st1) → ret = 0 →
        parsed = some joint ∧ LoopPost joint cs st.heap st.bvh st1) := by
  intro n
  induction n with
  | zero =>
    refine ⟨fun parent st ret parsed st1 h => (by cases h), ?_⟩
    intro joint token cs st ret parsed st1 _ h hr
    cases hg : st.file.good with
    | true => rw [childrenLoop_zero_good ng u joint token cs st hg] at h; cases h
    | false =>
      rw [childrenLoop_not_good ng u 0 joint token cs st hg] at h
      cases h
      cases hr
  | succ n ih =>
    obtain ⟨ihJ, ihL⟩ := ih
    constructor
    · intro parent st ret parsed st1 h hr
      rw [parseJoint_succ] at h
      cases hh : parseJointHead ng u parent st with
      | error e =>
        obtain ⟨r0, s0⟩ := e
        rw [hh] at h
        cases h
        exact absurd hr (parseJointHead_error ng u parent st _ _ hh)
      | ok o =>
        obtain ⟨tok, s0⟩ := o
        rw [hh] at h
        simp only at h
        obtain ⟨j, e1, e2, e3, e4, e5⟩ := parseJointHead_ok ng u parent st tok s0 hh
        have hlt : st.heap.length < s0.heap.length := by rw [e1]; simp
        obtain ⟨hp, P⟩ := ihL st.heap.length tok [] s0 ret parsed st1 hlt h hr
        have hl0 : s0.heap.length = st.heap.length + 1 := by rw [e1]; simp
        refine ⟨hp, ?_⟩
        obtain ⟨kids, hk1, hk2⟩ := P.self
        have hself : st1.heap[st.heap.length]? = some (j.set_children kids) := by
          rw [hk1, e1]
          simp
        have hlen := P.len
        constructor
        · exact P.good
        · omega
        · rw [P.joints, e5, hl0]
          simp only [Bvh.addJoint, List.append_assoc, List.singleton_append]
          rw [range'_head _ _ (by omega)]
        · rw [P.root, e5]; rfl
        · rw [P.frames, e5]; rfl
        · rw [P.time, e5]; rfl
        · intro i hi
          rw [P.old i (by omega) (by omega), e1, List.getElem?_append_left hi]
        · rw [hl0] at hk2
          have := Forest.cons parent st.heap.length (j.set_children kids) [] _ []
            hself e2 hk2 (Forest.nil parent)
          rw [List.append_nil, range'_head _ _ (by omega)] at this
          exact this
        · intro i ji hi hji
          by_cases hi2 : i = st.heap.length
          · subst hi2
            rw [hself] at hji
            cases hji
            exact e4
          · exact P.blank i ji (by omega) hji
    · intro joint token cs st ret parsed st1 hjl h hr
      cases hg : st.file.good with
      | false =>
        rw [childrenLoop_not_good ng u _ joint token cs st hg] at h
        cases h
        cases hr
      | true =>
        by_cases h1 : token = kJoint
        · rw [childrenLoop_joint ng u n joint token cs st hg h1] at h
          cases hp : parseJoint ng u n (some joint) st with
          | none => rw [hp] at h; cases h
          | some r =>
            obtain ⟨r0, child, s0⟩ := r
            rw [hp] at h
            simp only at h
            by_cases hr0 : r0 = 0
            · rw [if_neg (by simpa using hr0)] at h
              obtain ⟨hc, Q⟩ := ihJ (some joint) st r0 child s0 hp hr0
              have hlt := Q.len
              obtain ⟨hpar, P⟩ := ihL joint _ _
                ⟨(getString s0.file token).1, s0.heap, s0.bvh⟩ ret parsed st1
                (by simp only; omega) h hr
              simp only at P
              refine ⟨hpar, ?_⟩
              have hlen := P.len
              obtain ⟨kids, hk1, hk2⟩ := P.self
              constructor
              · exact P.good
              · omega
              · rw [P.joints, Q.joints, List.append_assoc,
                  range'_split _ _ _ (by omega) (by omega)]
              · rw [P.root, Q.root]
              · rw [P.frames, Q.frames]
              · rw [P.time, Q.time]
              · intro i hi hij
                rw [P.old i (by omega) hij, Q.old i hi]
              · refine ⟨st.heap.length :: kids, ?_, ?_⟩
                · rw [hk1, Q.old joint hjl, hc]
                  simp
                · have t1 : Forest st1.heap (some joint) [st.heap.length]
                      (List.range' st.heap.length (s0.heap.length - st.heap.length)) := by
                    refine Q.tree.congr_forest (fun x hx => ?_)
                    rw [List.mem_range'_1] at hx
                    exact P.old x (by omega) (by omega)
                  have := t1.append_forest hk2
                  rw [range'_split _ _ _ (by omega) (by omega)] at this
                  exact this
              · intro i ji hi hji
                by_cases hi2 : i < s0.heap.length
                · rw [P.old i hi2 (by omega)] at hji
                  exact Q.blank i ji hi hji
                · exact P.blank i ji (by omega) hji
            · rw [if_pos (by simpa using hr0)] at h
              cases h
              exact absurd hr hr0
        · by_cases h2 : token = kEnd
          · rw [childrenLoop_end ng u n joint token cs st hg h2] at h
            cases hh : parseEndSite ng u joint token st with
            | error e =>
              obtain ⟨r0, s0⟩ := e
              rw [hh] at h
              cases h
              exact absurd hr (parseEndSite_error ng u joint token st _ _ hh)
            | ok o =>
              obtain ⟨tok, s0⟩ := o
              rw [hh] at h
              simp only at h
              obtain ⟨j, e1, e2, e3, e4, -, -, e5⟩ := parseEndSite_ok ng u joint token st tok s0 hh
              have hl0 : s0.heap.length = st.heap.length + 1 := by rw [e1]; simp
              obtain ⟨hpar, P⟩ := ihL joint _ _
                ⟨(getString s0.file tok).1, s0.heap, s0.bvh⟩ ret parsed st1
                (by simp only; omega) h hr
              simp only at P
              refine ⟨hpar, ?_⟩
              have hlen := P.len
              obtain ⟨kids, hk1, hk2⟩ := P.self
              have hnew : st1.heap[st.heap.length]? = some j := by
                rw [P.old _ (by omega) (by omega), e1]
                simp
              constructor
              · exact P.good
              · omega
              · rw [P.joints, e5, hl0]
                simp only [Bvh.addJoint, List.append_assoc, List.singleton_append]
                rw [range'_head _ _ (by omega)]
              · rw [P.root, e5]; rfl
              · rw [P.frames, e5]; rfl
              · rw [P.time, e5]; rfl
              · intro i hi hij
                rw [P.old i (by omega) hij, e1, List.getElem?_append_left hi]
              · refine ⟨st.heap.length :: kids, ?_, ?_⟩
                · rw [hk1, e1, List.getElem?_append_left hjl]
                  simp
                · rw [hl0] at hk2
                  have := Forest.cons (some joint) st.heap.length j kids [] _ hnew e2
                    (by rw [e3]; exact Forest.nil _) hk2
                  rw [List.nil_append, range'_head _ _ (by omega)] at this
                  exact this
              · intro i ji hi hji
                by_cases hi2 : i = st.heap.length
                · subst hi2
                  rw [hnew] at hji
                  cases hji
                  exact e4
                · exact P.blank i ji (by omega) hji
          · by_cases h3 : token = kClose
            · rw [childrenLoop_close ng u n joint token cs st hg h3] at h
              cases h
              refine ⟨rfl, ?_⟩
              constructor
              · exact hg
              · simp [Heap.length_upd]
              · simp [Heap.length_upd]
              · rfl
              · rfl
              · rfl
              · intro i hi hij
                simp only
                rw [Heap.getElem?_upd, if_neg hij]
              · refine ⟨[], ?_, ?_⟩
                · simp only [List.append_nil]
                  rw [Heap.getElem?_upd, if_pos rfl]
                · simp only [Heap.length_upd, Nat.sub_self, List.range'_zero]
                  exact Forest.nil _
              · intro i ji hi hji
                simp only at hji
                rw [Heap.getElem?_upd, if_neg (by omega),
                  List.getElem?_eq_none hi] at hji
                cases hji
            · rw [childrenLoop_skip ng u n joint token cs st hg h1 h2 h3] at h
              exact ihL joint _ _ ⟨(getString st.file token).1, st.heap, st.bvh⟩ ret parsed st1
                hjl h hr

/-! ## Layout of the motion block -/

theorem readSeq_length {F D : Type} (ng : NumGet F D) :
    ∀ (n : Nat) (file : IStream) (number : F), (readSeq ng n file number).length = n
  | 0, _, _ => rfl
  | n + 1, file, number => by simp [readSeq, readSeq_length ng n]

theorem readSeq_add {F D : Type} (ng : NumGet F D) :
    ∀ (m n : Nat) (file : IStream) (number : F),
      readSeq ng (m + n) file number =
        readSeq ng m file number ++
          readSeq ng n (readEnd ng m file number).1 (readEnd ng m file number).2
  | 0, n, file, number => by simp [readSeq, readEnd]
  | m + 1, n, file, number => by
    have e : m + 1 + n = (m + n) + 1 := by omega
    rw [e]
    simp only [readSeq, readEnd, List.cons_append]
    rw [readSeq_add ng m n]

theorem readEnd_add {F D : Type} (ng : NumGet F D) :
    ∀ (m n : Nat) (file : IStream) (number : F),
      readEnd ng (m + n) file number =
        readEnd ng n (readEnd ng m file number).1 (readEnd ng m file number).2
  | 0, n, file, number => by simp [readEnd]
  | m + 1, n, file, number => by
    have e : m + 1 + n = (m + n) + 1 := by omega
    rw [e]
    simp only [readEnd]
    rw [readEnd_add ng m n]

theorem readRow_eq {F D : Type} (ng : NumGet F D) :
    ∀ (n : Nat) (file : IStream) (number : F) (data : List F),
      readRow ng n file number data =
        ((readEnd ng n file number).1, (readEnd ng n file number).2,
          data ++ readSeq ng n file number)
  | 0, file, number, data => by simp [readRow, readEnd, readSeq]
  | n + 1, file, number, data => by
    simp only [readRow, readEnd, readSeq]
    rw [readRow_eq ng n]
    simp

theorem readSeq_drop {F D : Type} (ng : NumGet F D) (m n : Nat) (file : IStream)
    (number : F) :
    readSeq ng n (readEnd ng m file number).1 (readEnd ng m file number).2 =
      (readSeq ng (m + n) file number).drop m := by
  rw [readSeq_add, List.drop_left' (readSeq_length ng m file number)]

theorem readSeq_take {F D : Type} (ng : NumGet F D) (m n : Nat) (file : IStream)
    (number : F) :
    readSeq ng m file number = (readSeq ng (m + n) file number).take m := by
  rw [readSeq_add, List.take_left' (readSeq_length ng m file number)]

theorem chanCount_upd {F : Type} (h : Heap F) (x : Nat) (row : List F) (i : Nat) :
    chanCount (h.upd x (Joint.add_frame_motion_data row)) i = chanCount h i := by
  unfold chanCount
  rw [Heap.getElem?_upd]
  by_cases hi : i = x
  · subst hi
    rw [if_pos rfl]
    cases h[i]? <;> rfl
  · rw [if_neg hi]

theorem chanSum_upd {F : Type} (h : Heap F) (x : Nat) (row : List F) (l : List Nat) :
    chanSum (h.upd x (Joint.add_frame_motion_data row)) l = chanSum h l := by
  unfold chanSum
  congr 1
  exact List.map_congr_left (fun i _ => chanCount_upd h x row i)

/-- One pass of the loop over the registered joints: the joint at position `k` of the
list receives the `chanCount` values that follow the values of the joints before it. -/
theorem jointLoop_spec {F D : Type} (ng : NumGet F D) :
    ∀ (l : List Nat) (file : IStream) (number : F) (h : Heap F), l.Nodup →
      (jointLoop ng l file number h).1 = (readEnd ng (chanSum h l) file number).1 ∧
      (jointLoop ng l file number h).2.1 = (readEnd ng (chanSum h l) file number).2 ∧
      (jointLoop ng l file number h).2.2.length = h.length ∧
      (∀ i, i ∉ l → (jointLoop ng l file number h).2.2[i]? = h[i]?) ∧
      (∀ k, k < l.length → (jointLoop ng l file number h).2.2[l.getD k 0]? =
        (h[l.getD k 0]?).map (Joint.addRows
          [((readSeq ng (chanSum h l) file number).drop (chanSum h (l.take k))).take
            (chanCount h (l.getD k 0))]))
  | [], file, number, h, _ => by
    simp [jointLoop, chanSum, readEnd]
  | x :: xs, file, number, h, hnd => by
    have hx : x ∉ xs := (List.nodup_cons.1 hnd).1
    have hxs : xs.Nodup := (List.nodup_cons.1 hnd).2
    have hc : (match h[x]? with
        | some j => j.num_channels
        | none => 0) = chanCount h x := rfl
    have hsum : chanSum h (x :: xs) = chanCount h x + chanSum h xs := by
      simp [chanSum]
    simp only [jointLoop]
    rw [hc, readRow_eq]
    simp only [List.nil_append]
    obtain ⟨i1, i2, i3, i4, i5⟩ := jointLoop_spec ng xs
      (readEnd ng (chanCount h x) file number).1 (readEnd ng (chanCount h x) file number).2
      (h.upd x (Joint.add_frame_motion_data (readSeq ng (chanCount h x) file number))) hxs
    rw [chanSum_upd] at i1 i2 i5
    refine ⟨?_, ?_, ?_, ?_, ?_⟩
    · rw [i1, hsum, readEnd_add]
    · rw [i2, hsum, readEnd_add]
    · rw [i3, Heap.length_upd]
    · intro i hi
      rw [List.mem_cons, not_or] at hi
      rw [i4 i hi.2, Heap.getElem?_upd, if_neg hi.1]
    · intro k hk
      cases k with
      | zero =>
        simp only [List.getD_cons_zero, List.take_zero]
        rw [i4 x hx, Heap.getElem?_upd, if_pos rfl, hsum]
        have : chanSum h ([] : List Nat) = 0 := rfl
        rw [this, List.drop_zero, ← readSeq_take]
        rfl
      | succ k =>
        have hk' : k < xs.length := by simpa using hk
        have hne : xs.getD k 0 ≠ x := by
          intro e
          apply hx
          rw [← e, List.getD_eq_getElem _ _ hk']
          exact List.getElem_mem _
        simp only [List.getD_cons_succ, List.take_succ_cons]
        rw [i5 k hk', Heap.getElem?_upd, if_neg hne, chanCount_upd, chanSum_upd, readSeq_drop,
          hsum]
        have e2 : chanSum h (x :: xs.take k) = chanCount h x + chanSum h (xs.take k) := by
          simp [chanSum]
        rw [e2, List.drop_drop]

theorem jointLoop_chanCount {F D : Type} (ng : NumGet F D) :
    ∀ (l : List Nat) (file : IStream) (number : F) (h : Heap F) (i : Nat),
      chanCount (jointLoop ng l file number h).2.2 i = chanCount h i
  | [], _, _, _, _ => rfl
  | x :: xs, file, number, h, i => by
    simp only [jointLoop]
    rw [jointLoop_chanCount ng xs, chanCount_upd]

theorem jointLoop_chanSum {F D : Type} (ng : NumGet F D) (l : List Nat) (file : IStream)
    (number : F) (h : Heap F) (l2 : List Nat) :
    chanSum (jointLoop ng l file number h).2.2 l2 = chanSum h l2 := by
  unfold chanSum
  congr 1
  exact List.map_congr_left (fun i _ => jointLoop_chanCount ng l file number h i)

theorem chanSum_take_le {F : Type} (h : Heap F) :
    ∀ (l : List Nat) (k : Nat), k < l.length →
      chanSum h (l.take k) + chanCount h (l.getD k 0) ≤ chanSum h l
  | [], k, hk => by simp at hk
  | x :: xs, 0, _ => by simp [chanSum]
  | x :: xs, k + 1, hk => by
    have := chanSum_take_le h xs k (by simpa using hk)
    simp only [chanSum, List.take_succ_cons, List.map_cons, List.sum_cons,
      List.getD_cons_succ] at this ⊢
    omega

theorem Joint.addRows_addRows {F : Type} (a b : List (List F)) (j : Joint F) :
    (j.addRows a).addRows b = j.addRows (a ++ b) := by
  simp [Joint.addRows, List.append_assoc]

theorem take_drop_take {α : Type} (l : List α) (a c s : Nat) (h : a + c ≤ s) :
    (List.drop a (List.take s l)).take c = (List.drop a l).take c := by
  rw [List.drop_take, List.take_take]
  congr 1
  omega

/-- The loop over the frames: after `n` frames the joint at position `k` of the
registration list has received `n` rows; the row of frame `f` holds the values read at
positions `f * S + (c_0 + ... + c_(k-1))` and following, `S` being the sum of all
channel counts. -/
theorem frameLoop_spec {F D : Type} (ng : NumGet F D) (l : List Nat) (hnd : l.Nodup) :
    ∀ (n : Nat) (file : IStream) (number : F) (h : Heap F),
      (frameLoop ng l n file number h).1 = (readEnd ng (n * chanSum h l) file number).1 ∧
      (frameLoop ng l n file number h).2.1 = (readEnd ng (n * chanSum h l) file number).2 ∧
      (frameLoop ng l n file number h).2.2.length = h.length ∧
      (∀ i, i ∉ l → (frameLoop ng l n file number h).2.2[i]? = h[i]?) ∧
      (∀ k, k < l.length → (frameLoop ng l n file number h).2.2[l.getD k 0]? =
        (h[l.getD k 0]?).map (Joint.addRows ((List.range n).map (fun f =>
          ((readSeq ng (n * chanSum h l) file number).drop
            (f * chanSum h l + chanSum h (l.take k))).take (chanCount h (l.getD k 0))))))
  | 0, file, number, h => by
    refine ⟨by simp [frameLoop, readEnd], by simp [frameLoop, readEnd], rfl,
      fun i _ => rfl, fun k _ => ?_⟩
    simp only [frameLoop, List.range_zero, List.map_nil]
    cases h[l.getD k 0]? with
    | none => rfl
    | some j => simp [Joint.addRows]
  | n + 1, file, number, h => by
    obtain ⟨a1, a2, a3, a4, a5⟩ := jointLoop_spec ng l file number h hnd
    obtain ⟨i1, i2, i3, i4, i5⟩ := frameLoop_spec ng l hnd n
      (jointLoop ng l file number h).1 (jointLoop ng l file number h).2.1
      (jointLoop ng l file number h).2.2
    rw [jointLoop_chanSum] at i1 i2
    have hS : (n + 1) * chanSum h l = chanSum h l + n * chanSum h l := by ring
    simp only [frameLoop]
    refine ⟨?_, ?_, ?_, ?_, ?_⟩
    · rw [i1, a1, a2, hS, readEnd_add]
    · rw [i2, a1, a2, hS, readEnd_add]
    · rw [i3, a3]
    · intro i hi
      rw [i4 i hi, a4 i hi]
    · intro k hk
      have hle := chanSum_take_le h l k hk
      rw [i5 k hk, a5 k hk, Option.map_map, jointLoop_chanSum, jointLoop_chanSum,
        jointLoop_chanCount, a1, a2, readSeq_drop, List.range_succ_eq_map, List.map_cons,
        List.map_map]
      congr 1
      funext j
      simp only [Function.comp, Joint.addRows_addRows, List.singleton_append]
      congr 2
      · rw [readSeq_take ng (chanSum h l) (n * chanSum h l), ← hS, zero_mul, zero_add]
        exact take_drop_take _ _ _ _ hle
      · apply List.map_congr_left
        intro f _
        simp only [Function.comp]
        rw [List.drop_drop, ← hS]
        congr 2
        simp only [Nat.succ_eq_add_one]
        ring

/-! ## Shape of a successful `parse` -/

theorem parseMotion_success {F D : Type} (ng : NumGet F D) (u : Indet F D)
    (st st1 : PState F D) (h : parseMotion ng u st = (0, st1)) :
    st1.bvh.joints = st.bvh.joints ∧ st1.bvh.root_joint = st.bvh.root_joint ∧
    ∃ file number, st1.heap =
      (frameLoop ng st.bvh.joints st1.bvh.num_frames.toNat file number st.heap).2.2 := by
  unfold parseMotion at h
  simp only at h
  split at h
  · split at h
    · cases h
      exact ⟨rfl, rfl, _, _, rfl⟩
    · cases h
  · cases h

theorem parseHierarchyMotion_success {F D : Type} (ng : NumGet F D) (u : Indet F D)
    (token : List Char) (st st1 : PState F D) (hg : st.file.good = true)
    (h : parseHierarchyMotion ng u token st = (0, st1)) :
    st1.bvh.joints = st.bvh.joints ∧ st1.bvh.root_joint = st.bvh.root_joint ∧
    ∃ file number, st1.heap =
      (frameLoop ng st.bvh.joints st1.bvh.num_frames.toNat file number st.heap).2.2 := by
  unfold parseHierarchyMotion at h
  rw [if_pos hg] at h
  simp only at h
  split at h
  · split at h
    · rename_i hne
      rw [h] at hne
      exact absurd rfl hne
    · have e : parseMotion ng u ⟨(getString st.file token).1, st.heap, st.bvh⟩ =
          (0, st1) := by
        rename_i hz
        have hz' : (parseMotion ng u ⟨(getString st.file token).1, st.heap, st.bvh⟩).1 = 0 := by
          simpa using hz
        cases hp : parseMotion ng u ⟨(getString st.file token).1, st.heap, st.bvh⟩ with
        | mk r s =>
          rw [hp] at h hz'
          simp only at hz'
          cases h
          rw [hz']
      exact parseMotion_success ng u ⟨(getString st.file token).1, st.heap, st.bvh⟩ st1 e
  · cases h

/-- Every successful `parse` on a skeleton without root either read nothing but the
keyword `HIERARCHY` and left heap and skeleton alone, or parsed a root joint, whose
subtree is exactly the registered joints, and then ran the loop over the frames. -/
theorem parse_success {F D : Type} (ng : NumGet F D) (u : Indet F D)
    (content : Option (List Char)) (heap : Heap F) (bvh : Bvh D) (heap1 : Heap F)
    (bvh1 : Bvh D) (h : parse ng u content heap bvh = some (0, heap1, bvh1)) :
    (heap1 = heap ∧ bvh1 = bvh) ∨
    ∃ (st : PState F D) (file : IStream) (number : F),
      JointPost none heap bvh st ∧ bvh1.root_joint = some heap.length ∧
      bvh1.joints = st.bvh.joints ∧
      heap1 = (frameLoop ng st.bvh.joints bvh1.num_frames.toNat file number st.heap).2.2 := by
  unfold parse at h
  cases content with
  | none => cases h
  | some cs =>
    simp only at h
    split at h
    · cases hp : parseHierarchy ng u (2 * cs.length + 2)
        ⟨(getString (IStream.ofContent cs) []).1, heap, bvh⟩ with
      | none => rw [hp] at h; cases h
      | some r =>
        obtain ⟨ret, st1⟩ := r
        rw [hp] at h
        simp only at h
        by_cases hr : ret = 0
        · rw [if_neg (by simpa using hr)] at h
          cases h
          subst hr
          unfold parseHierarchy at hp
          simp only at hp
          split at hp
          · split at hp
            · cases hj : parseJoint ng u (2 * cs.length + 2) none
                ⟨(getString (getString (IStream.ofContent cs) []).1 []).1, heap, bvh⟩ with
              | none => rw [hj] at hp; cases hp
              | some r =>
                obtain ⟨r0, root, s0⟩ := r
                rw [hj] at hp
                simp only at hp
                by_cases hr0 : r0 = 0
                · rw [if_neg (by simpa using hr0)] at hp
                  obtain ⟨hroot, P⟩ := (parse_invariant ng u _).1 none _ r0 root s0 hj hr0
                  simp only at hroot P
                  have hm := Option.some.inj hp
                  obtain ⟨m1, m2, file, number, m3⟩ := parseHierarchyMotion_success ng u _
                    ⟨s0.file, s0.heap, s0.bvh.setRootJoint root⟩ st1 P.good hm
                  refine Or.inr ⟨s0, file, number, P, ?_, m1, ?_⟩
                  · rw [m2, hroot]
                    rfl
                  · rw [m3]
                    rfl
                · rw [if_pos (by simpa using hr0)] at hp
                  cases hp
                  exact absurd rfl hr0
            · cases hp
          · rename_i hng
            unfold parseHierarchyMotion at hp
            rw [if_neg hng] at hp
            cases hp
            exact Or.inl ⟨rfl, rfl⟩
        · rw [if_pos (by simpa using hr)] at h
          cases h
          exact absurd rfl hr
    · cases h

theorem Joint.addRows_nil {F : Type} (j : Joint F) : j.addRows [] = j := by
  cases j
  simp [Joint.addRows]

/-- The loop over the frames changes nothing in a joint but its samples, to which it
adds rows. -/
theorem frameLoop_getElem? {F D : Type} (ng : NumGet F D) (l : List Nat) (hnd : l.Nodup)
    (n : Nat) (file : IStream) (number : F) (h : Heap F) (i : Nat) :
    ∃ rows, (frameLoop ng l n file number h).2.2[i]? = (h[i]?).map (Joint.addRows rows) := by
  obtain ⟨-, -, -, i4, i5⟩ := frameLoop_spec ng l hnd n file number h
  by_cases hi : i ∈ l
  · obtain ⟨k, hk, e⟩ := List.getElem_of_mem hi
    have e2 : l.getD k 0 = i := by rw [List.getD_eq_getElem _ _ hk, e]
    have := i5 k hk
    rw [e2] at this
    exact ⟨_, this⟩
  · refine ⟨[], ?_⟩
    rw [i4 i hi]
    cases h[i]? with
    | none => rfl
    | some j => simp [Joint.addRows_nil]

/-- C2: after a successful `parse` on a fresh skeleton (no registered joint, no root) the
flat joint list is the depth-first pre-order traversal of the tree below the root joint:
each joint before its children, the children in the order of the children list, End Site
leaves included; so its length is the number of nodes of that tree, and no joint
appears twice. -/
theorem parse_joints_preorder {F D : Type} (ng : NumGet F D) (u : Indet F D)
    (content : Option (List Char)) (heap : Heap F) (bvh : Bvh D) (heap1 : Heap F)
    (bvh1 : Bvh D) (hj : bvh.joints = []) (hr : bvh.root_joint = none)
    (h : parse ng u content heap bvh = some (0, heap1, bvh1)) :
    PreOrder heap1 bvh1.root_joint.toList bvh1.joints ∧ bvh1.joints.Nodup := by
  rcases parse_success ng u content heap bvh heap1 bvh1 h with ⟨-, e⟩ | ⟨st, file, number, P, e1, e2, e3⟩
  · subst e
    rw [hj, hr]
    exact ⟨PreOrder.nil, List.nodup_nil⟩
  · have hl : st.bvh.joints = List.range' heap.length (st.heap.length - heap.length) := by
      rw [P.joints, hj, List.nil_append]
    have hnd : st.bvh.joints.Nodup := by
      rw [hl]
      exact List.nodup_range' _ _
    rw [e1, e2]
    refine ⟨?_, hnd⟩
    rw [hl]
    refine (P.tree.mono (fun x _ j hx => ?_)).preOrder
    obtain ⟨rows, hrows⟩ := frameLoop_getElem? ng st.bvh.joints hnd bvh1.num_frames.toNat
      file number st.heap x
    rw [e3, hrows, hx]
    exact ⟨_, rfl, rfl, rfl⟩

/-- C4: after a successful `parse` on a skeleton with no registered joint, every
registered joint has a sample row for every frame index below the frame count, and
the length of each of these rows is the length of the joint's channel order. -/
theorem parse_schema_invariant {F D : Type} (ng : NumGet F D) (u : Indet F D)
    (content : Option (List Char)) (heap : Heap F) (bvh : Bvh D) (heap1 : Heap F)
    (bvh1 : Bvh D) (hj : bvh.joints = [])
    (h : parse ng u content heap bvh = some (0, heap1, bvh1)) :
    ∀ x ∈ bvh1.joints, ∃ j, heap1[x]? = some j ∧
      ∀ f : Nat, (f : Int) < bvh1.num_frames →
        ∃ row, j.channel_data[f]? = some row ∧ row.length = j.channels_order.length := by
  rcases parse_success ng u content heap bvh heap1 bvh1 h with ⟨-, e⟩ | ⟨st, file, number, P, e1, e2, e3⟩
  · subst e
    rw [hj]
    intro x hx
    cases hx
  · have hl : st.bvh.joints = List.range' heap.length (st.heap.length - heap.length) := by
      rw [P.joints, hj, List.nil_append]
    have hnd : st.bvh.joints.Nodup := by
      rw [hl]
      exact List.nodup_range' _ _
    intro x hx
    rw [e2] at hx
    obtain ⟨k, hk, ek⟩ := List.getElem_of_mem hx
    have ek2 : st.bvh.joints.getD k 0 = x := by rw [List.getD_eq_getElem _ _ hk, ek]
    obtain ⟨-, -, -, -, i5⟩ := frameLoop_spec ng st.bvh.joints hnd bvh1.num_frames.toNat
      file number st.heap
    have h5 := i5 k hk
    rw [ek2, ← e3] at h5
    have hx2 : heap.length ≤ x ∧ x < st.heap.length := by
      rw [hl, List.mem_range'_1] at hx
      have := P.len
      omega
    obtain ⟨j0, hj0⟩ : ∃ j0, st.heap[x]? = some j0 :=
      ⟨_, List.getElem?_eq_some.2 ⟨hx2.2, rfl⟩⟩
    have hb := P.blank x j0 hx2.1 hj0
    rw [hj0] at h5
    refine ⟨_, h5, fun f hf => ?_⟩
    have hf2 : f < bvh1.num_frames.toNat := by omega
    have hcc : chanCount st.heap x = j0.channels_order.length := by
      unfold chanCount
      rw [hj0]
      rfl
    have hle := chanSum_take_le st.heap st.bvh.joints k hk
    rw [ek2, hcc] at hle
    simp only [Joint.addRows, Option.map_some', hb.1, List.nil_append]
    rw [List.getElem?_map, List.getElem?_range hf2]
    refine ⟨_, rfl, ?_⟩
    rw [List.length_take, List.length_drop, readSeq_length, hcc]
    have : (f + 1) * chanSum st.heap st.bvh.joints ≤
        bvh1.num_frames.toNat * chanSum st.heap st.bvh.joints :=
      Nat.mul_le_mul_right _ hf2
    have e : (f + 1) * chanSum st.heap st.bvh.joints =
        f * chanSum st.heap st.bvh.joints + chanSum st.heap st.bvh.joints := by ring
    omega

/-! ## Reading tokens -/

theorem dropWhile_space_append (ws t r : List Char) (hws : ∀ c ∈ ws, isspace c = true)
    (ht : t ≠ []) (hts : ∀ c ∈ t, isspace c = false) :
    (ws ++ (t ++ r)).dropWhile isspace = t ++ r := by
  induction ws with
  | nil =>
    cases t with
    | nil => exact absurd rfl ht
    | cons a t =>
      have : isspace a = false := hts a (by simp)
      simp [List.dropWhile, this]
  | cons a ws ih =>
    have : isspace a = true := hws a (by simp)
    simp only [List.cons_append, List.dropWhile_cons_of_pos this]
    exact ih (fun c hc => hws c (by simp [hc]))

theorem takeWhile_token (t r : List Char) (hts : ∀ c ∈ t, isspace c = false)
    (hr : r = [] ∨ ∃ c r1, r = c :: r1 ∧ isspace c = true) :
    (t ++ r).takeWhile (fun c => !isspace c) = t ∧
    (t ++ r).dropWhile (fun c => !isspace c) = r := by
  induction t with
  | nil =>
    rcases hr with rfl | ⟨c, r1, rfl, hc⟩
    · simp
    · simp [hc]
  | cons a t ih =>
    have ha : isspace a = false := hts a (by simp)
    have := ih (fun c hc => hts c (by simp [hc]))
    simp [ha, this.1, this.2]

theorem run_token {α : Type} (sc : Scanner α) (r : List Char)
    (hr : r = [] ∨ ∃ c r1, r = c :: r1 ∧ isspace c = true) :
    ∀ (t : List Char) (st : sc.σ), (sc.run st t).2 = [] →
      sc.run st (t ++ r) = ((sc.run st t).1, r)
  | [], st, _ => by
    rcases hr with rfl | ⟨c, r1, rfl, hc⟩
    · simp [Scanner.run]
    · simp [Scanner.run, hc]
  | a :: t, st, h => by
    simp only [List.cons_append]
    by_cases ha : isspace a = true
    · simp only [Scanner.run, if_pos ha] at h
      cases h
    · cases hs : sc.step st a with
      | none =>
        simp only [Scanner.run, if_neg ha, hs] at h
        cases h
      | some st1 =>
        simp only [Scanner.run, if_neg ha, hs] at h ⊢
        exact run_token sc r hr t st1 h

theorem Lexes.nil_inv {b rest : List Char} (h : Lexes b [] rest) : b = rest := by
  cases h
  rfl

theorem Lexes.cons_inv {b rest t : List Char} {toks : List (List Char)}
    (h : Lexes b (t :: toks) rest) :
    ∃ ws r, b = ws ++ (t ++ r) ∧ (∀ c ∈ ws, isspace c = true) ∧ t ≠ [] ∧
      (∀ c ∈ t, isspace c = false) ∧ (r = [] ∨ ∃ c r1, r = c :: r1 ∧ isspace c = true) ∧
      Lexes r toks rest := by
  cases h with
  | cons ws t r toks rest hws ht hts hr hrest => exact ⟨ws, r, rfl, hws, ht, hts, hr, hrest⟩

theorem At.good {s : IStream} {toks : List (List Char)} {rest : List Char}
    (h : At s toks rest) (hne : toks ≠ [] ∨ rest ≠ []) : s.good = true := by
  have hb : s.buf ≠ [] := by
    cases toks with
    | nil =>
      rw [h.lex.nil_inv]
      rcases hne with h1 | h1
      · exact absurd rfl h1
      · exact h1
    | cons t toks =>
      obtain ⟨ws, r, e, -, ht, -, -, -⟩ := h.lex.cons_inv
      rw [e]
      cases ws <;> cases t <;> simp_all
  have he := h.eof
  have hf := h.fail
  cases hbuf : s.buf with
  | nil => exact absurd hbuf hb
  | cons a l =>
    rw [hbuf] at he
    simp [IStream.good, he, hf]

theorem At.not_good {s : IStream} (h : At s [] []) : s.good = false := by
  have he := h.eof
  rw [h.lex.nil_inv] at he
  simp [IStream.good, he]

theorem At.nil_eq {s : IStream} {rest : List Char} (h : At s [] rest) :
    s = ⟨rest, rest.isEmpty, false⟩ := by
  have he := h.eof
  have hf := h.fail
  cases s with
  | mk buf e f =>
    simp only at he hf
    have : buf = rest := h.lex.nil_inv
    subst this
    rw [he, hf]

theorem sentry_at {s : IStream} {ws t r : List Char} (hg : s.good = true)
    (hb : s.buf = ws ++ (t ++ r)) (hws : ∀ c ∈ ws, isspace c = true)
    (ht : t ≠ []) (hts : ∀ c ∈ t, isspace c = false) :
    sentry s = (⟨t ++ r, false, false⟩, true) := by
  unfold sentry
  rw [if_pos hg, hb, dropWhile_space_append ws t r hws ht hts]
  cases t with
  | nil => exact absurd rfl ht
  | cons a t => rfl

/-- Extraction of a string at a token boundary returns the next token. -/
theorem getString_at {s : IStream} {t : List Char} {toks : List (List Char)}
    {rest : List Char} (h : At s (t :: toks) rest) (old : List Char) :
    (getString s old).2 = t ∧ At (getString s old).1 toks rest := by
  have hg := h.good (Or.inl (by simp))
  obtain ⟨ws, r, hb, hws, ht, hts, hr, hrest⟩ := h.lex.cons_inv
  unfold getString
  rw [sentry_at hg hb hws ht hts]
  simp only
  obtain ⟨e1, e2⟩ := takeWhile_token t r hts hr
  rw [e1, e2]
  exact ⟨rfl, ⟨rfl, rfl, hrest⟩⟩

/-- Extraction of a number at a token that the scanner reads completely returns its
value. -/
theorem extract_at {α : Type} (sc : Scanner α) {s : IStream} {t : List Char}
    {toks : List (List Char)} {rest : List Char} (h : At s (t :: toks) rest) (old v : α)
    (hv : sc.Reads t v) :
    (extract sc s old).2 = v ∧ At (extract sc s old).1 toks rest := by
  have hg := h.good (Or.inl (by simp))
  obtain ⟨ws, r, hb, hws, ht, hts, hr, hrest⟩ := h.lex.cons_inv
  unfold extract
  rw [sentry_at hg hb hws ht hts]
  simp only
  rw [run_token sc r hr t sc.init hv.1, hv.2]
  exact ⟨rfl, ⟨rfl, rfl, hrest⟩⟩

/-! ## The parser on well-formed tokens -/

theorem channelOfToken_chanToken (c : Channel) : channelOfToken (chanToken c) = some c := by
  cases c <;> decide

theorem channelLoop_at :
    ∀ (chans : List Channel) (file : IStream) (token : List Char) (acc : List Channel)
      (toks : List (List Char)) (rest : List Char),
      At file (chans.map chanToken ++ toks) rest →
      (channelLoop chans.length file token acc).2 = some (acc ++ chans) ∧
      At (channelLoop chans.length file token acc).1 toks rest
  | [], file, token, acc, toks, rest, h => by
    simpa [channelLoop] using h
  | c :: chans, file, token, acc, toks, rest, h => by
    obtain ⟨e, h1⟩ := getString_at (t := chanToken c) h token
    simp only [List.length_cons, channelLoop]
    rw [e, channelOfToken_chanToken]
    simp only
    have := channelLoop_at chans (getString file token).1 (chanToken c) (acc ++ [c]) toks rest h1
    simpa [List.append_assoc] using this

theorem parseChannelOrder_at {F D : Type} (ng : NumGet F D) (u : Indet F D)
    (file : IStream) (heap : Heap F) (joint : Nat) (n : List Char) (chans : List Channel)
    (toks : List (List Char)) (rest : List Char)
    (h : At file (n :: (chans.map chanToken ++ toks)) rest)
    (hn : ng.int.Reads n chans.length) :
    (parseChannelOrder ng u file heap joint).1 = 0 ∧
    (parseChannelOrder ng u file heap joint).2.2 =
      heap.upd joint (Joint.set_channels_order chans) ∧
    At (parseChannelOrder ng u file heap joint).2.1 toks rest := by
  obtain ⟨e, h1⟩ := extract_at ng.int h (u.num joint) _ hn
  obtain ⟨c1, c2⟩ := channelLoop_at chans (extract ng.int file (u.num joint)).1 [] [] toks
    rest h1
  unfold parseChannelOrder
  rw [e, Int.toNat_ofNat]
  generalize channelLoop chans.length (extract ng.int file (u.num joint)).1 [] [] = r at c1 c2
  obtain ⟨f1, o⟩ := r
  simp only at c1 c2
  subst c1
  exact ⟨rfl, rfl, c2⟩

theorem readOffset_at {F D : Type} (ng : NumGet F D) (file : IStream) (o0 o : Offset F)
    (x y z : List Char) (toks : List (List Char)) (rest : List Char)
    (h : At file (x :: y :: z :: toks) rest) (ho : ReadsOffset ng x y z o) :
    (readOffset ng file o0).2 = o ∧ At (readOffset ng file o0).1 toks rest := by
  obtain ⟨e1, h1⟩ := extract_at ng.float h o0.x _ ho.1
  obtain ⟨e2, h2⟩ := extract_at ng.float h1 o0.y _ ho.2.1
  obtain ⟨e3, h3⟩ := extract_at ng.float h2 o0.z _ ho.2.2
  unfold readOffset
  simp only
  refine ⟨?_, h3⟩
  rw [e1, e2, e3]

theorem parseJointHead_at {F D : Type} (ng : NumGet F D) (u : Indet F D)
    (parent : Option Nat) (st : PState F D) (name x y z n : List Char) (o : Offset F)
    (chans : List Channel) (t1 : List Char) (toks : List (List Char)) (rest : List Char)
    (h : At st.file (headTokens name x y z n chans ++ (t1 :: toks)) rest)
    (ho : ReadsOffset ng x y z o) (hn : ng.int.Reads n chans.length) :
    ∃ st1, parseJointHead ng u parent st = Except.ok (t1, st1) ∧ At st1.file toks rest ∧
      st1.heap = st.heap ++ [headJoint u st.heap.length parent ⟨name, o, chans⟩] ∧
      st1.bvh = st.bvh.addJoint st.heap.length := by
  unfold headTokens at h
  simp only [List.cons_append] at h
  obtain ⟨e1, h1⟩ := getString_at h []
  obtain ⟨e2, h2⟩ := getString_at h1 []
  obtain ⟨e3, h3⟩ := getString_at h2 (getString (getString st.file []).1 []).2
  unfold parseJointHead
  simp only
  rw [if_pos e3]
  obtain ⟨e4, h4⟩ := readOffset_at ng _ (u.local_offset st.heap.length) o x y z _ rest h3 ho
  generalize readOffset ng _ (u.local_offset st.heap.length) = ro at e4 h4
  obtain ⟨e5, h5⟩ := getString_at h4
    (getString (getString (getString st.file []).1 []).1
      (getString (getString st.file []).1 []).2).2
  rw [if_pos e5]
  rw [Heap.upd_append_last, Heap.upd_append_last]
  obtain ⟨e6, e7, h6⟩ := parseChannelOrder_at ng u _
    (st.heap ++ [Joint.set_offset ro.2 (Joint.set_name (getString st.file []).2
      (Joint.set_parent parent (Joint.fresh u st.heap.length)))]) st.heap.length n chans
    (t1 :: toks) rest h5 hn
  rw [Heap.upd_append_last] at e7
  generalize parseChannelOrder ng u _ _ st.heap.length = pc at e6 e7 h6
  obtain ⟨ret, file4, heap4⟩ := pc
  simp only at e6 e7 h6 ⊢
  subst e6
  obtain ⟨e8, h8⟩ := getString_at h6 (getString ro.1
    (getString (getString (getString st.file []).1 []).1
      (getString (getString st.file []).1 []).2).2).2
  rw [if_neg (by simp)]
  rw [e8]
  refine ⟨_, rfl, h8, ?_, rfl⟩
  simp only
  rw [e7, e1, e4]
  rfl

theorem parseEndSite_at {F D : Type} (ng : NumGet F D) (u : Indet F D) (joint : Nat)
    (token : List Char) (st : PState F D) (x y z : List Char) (o : Offset F)
    (toks : List (List Char)) (rest : List Char)
    (h : At st.file (kSite :: kOpen :: kOffset :: x :: y :: z :: kClose :: toks) rest)
    (ho : ReadsOffset ng x y z o) :
    ∃ st1, parseEndSite ng u joint token st = Except.ok (kClose, st1) ∧
      At st1.file toks rest ∧
      st1.heap = st.heap ++ [endJoint u st.heap.length joint o] ∧
      st1.bvh = st.bvh.addJoint st.heap.length := by
  obtain ⟨e1, h1⟩ := getString_at h token
  obtain ⟨e2, h2⟩ := getString_at h1 (getString st.file token).2
  obtain ⟨e3, h3⟩ := getString_at h2 (getString (getString st.file token).1
    (getString st.file token).2).2
  unfold parseEndSite
  simp only
  rw [if_pos e3]
  obtain ⟨e4, h4⟩ := readOffset_at ng _ (u.local_offset st.heap.length) o x y z _ rest h3 ho
  generalize readOffset ng _ (u.local_offset st.heap.length) = ro at e4 h4
  obtain ⟨e5, h5⟩ := getString_at h4
    (getString (getString (getString st.file token).1 (getString st.file token).2).1
      (getString (getString st.file token).1 (getString st.file token).2).2).2
  rw [Heap.upd_append_last]
  rw [e5]
  refine ⟨_, rfl, h5, ?_, rfl⟩
  simp only
  rw [e4]
  rfl

theorem Children.ne_nil {F D : Type} {ng : NumGet F D} {toks : List (List Char)}
    {infos : List (NodeInfo F)} (h : Children ng toks infos) :
    ∃ t more, toks = t :: more := by
  cases h with
  | close => exact ⟨_, _, rfl⟩
  | endSite => exact ⟨_, _, rfl⟩
  | joint => exact ⟨_, _, rfl⟩

theorem Matches.cons {F : Type} {h : Heap F} {n0 : Nat} {info : NodeInfo F}
    {infos : List (NodeInfo F)} (h0 : InfoAt h n0 info) (h1 : Matches h (n0 + 1) infos) :
    Matches h n0 (info :: infos) := by
  intro k i hk
  cases k with
  | zero =>
    simp only [List.getElem?_cons_zero, Option.some.injEq] at hk
    subst hk
    exact h0
  | succ k =>
    simp only [List.getElem?_cons_succ] at hk
    have := h1 k i hk
    rwa [Nat.add_assoc, Nat.add_comm 1 k] at this

theorem Matches.append_infos {F : Type} {h : Heap F} {n0 : Nat} {a b : List (NodeInfo F)}
    (ha : Matches h n0 a) (hb : Matches h (n0 + a.length) b) : Matches h n0 (a ++ b) := by
  intro k i hk
  by_cases hlt : k < a.length
  · rw [List.getElem?_append_left hlt] at hk
    exact ha k i hk
  · rw [List.getElem?_append_right (by omega)] at hk
    have := hb (k - a.length) i hk
    have e : n0 + a.length + (k - a.length) = n0 + k := by omega
    rwa [e] at this

theorem Matches.congr_infos {F : Type} {h h2 : Heap F} {n0 : Nat} {a : List (NodeInfo F)}
    (ha : Matches h n0 a) (hk : ∀ k, k < a.length → h2[n0 + k]? = h[n0 + k]?) :
    Matches h2 n0 a := by
  intro k i hki
  have hlt : k < a.length := by
    by_contra hge
    rw [List.getElem?_eq_none (by omega)] at hki
    cases hki
  obtain ⟨j, e1, e2⟩ := ha k i hki
  exact ⟨j, by rw [hk k hlt, e1], e2⟩

/-- The loop of `parseJoint` on the tokens of a well-formed children sequence: it
returns success when something (a token, or at least whitespace) follows the closing
brace, and failure when the closing brace ends the input; on success every declared node
has been allocated, in textual order. -/
theorem childrenLoop_wf {F D : Type} (ng : NumGet F D) (u : Indet F D)
    {toks : List (List Char)} {infos : List (NodeInfo F)} (hc : Children ng toks infos) :
    ∀ (t0 : List Char) (more : List (List Char)), toks = t0 :: more →
    ∀ (fuel joint : Nat) (cs : List Nat) (st : PState F D) (tail : List (List Char))
      (rest : List Char),
      At st.file (more ++ tail) rest → joint < st.heap.length →
      ∀ (ret : Int) (parsed : Option Nat) (st1 : PState F D),
        childrenLoop ng u fuel joint t0 cs st = some (ret, parsed, st1) →
        ((tail ≠ [] ∨ rest ≠ []) → ret = 0 ∧ At st1.file tail rest ∧
          st1.heap.length = st.heap.length + infos.length ∧
          Matches st1.heap st.heap.length infos) ∧
        (tail = [] → rest = [] → ret ≠ 0) := by
  induction hc with
  | close =>
    intro t0 more e
    cases e
    intro fuel joint cs st tail rest hat hj ret parsed st1 hr
    rw [List.nil_append] at hat
    constructor
    · intro hne
      have hg := hat.good hne
      cases fuel with
      | zero => rw [childrenLoop_zero_good ng u joint _ cs st hg] at hr; cases hr
      | succ f =>
        rw [childrenLoop_close ng u f joint _ cs st hg rfl] at hr
        cases hr
        refine ⟨rfl, hat, by simp [Heap.length_upd], ?_⟩
        intro k info hk
        simp at hk
    · intro h1 h2
      subst h1 h2
      rw [childrenLoop_not_good ng u fuel joint _ cs st hat.not_good] at hr
      cases hr
      decide
  | endSite x y z o rest1 infos ho hrest ih =>
    intro t0 more e
    cases e
    intro fuel joint cs st tail rest hat hj ret parsed st1 hr
    simp only [List.cons_append] at hat
    have hg := hat.good (Or.inl (by simp))
    cases fuel with
    | zero => rw [childrenLoop_zero_good ng u joint _ cs st hg] at hr; cases hr
    | succ f =>
      rw [childrenLoop_end ng u f joint _ cs st hg rfl] at hr
      obtain ⟨s1, e1, h1, e2, e3⟩ := parseEndSite_at ng u joint kEnd st x y z o _ rest hat ho
      rw [e1] at hr
      simp only at hr
      obtain ⟨t2, more2, e4⟩ := hrest.ne_nil
      subst e4
      rw [List.cons_append] at h1
      obtain ⟨e5, h5⟩ := getString_at h1 kClose
      rw [e5] at hr
      have hl1 : s1.heap.length = st.heap.length + 1 := by rw [e2]; simp
      have hjl : joint < s1.heap.length := by omega
      obtain ⟨A, B⟩ := ih t2 more2 rfl f joint _
        ⟨(getString s1.file kClose).1, s1.heap, s1.bvh⟩ tail rest h5 hjl ret parsed st1 hr
      refine ⟨fun hne => ?_, B⟩
      obtain ⟨a0, a1, a2, a3⟩ := A hne
      obtain ⟨-, P⟩ := (parse_invariant ng u f).2 joint _ _
        ⟨(getString s1.file kClose).1, s1.heap, s1.bvh⟩ ret parsed st1 hjl hr a0
      simp only at a2 a3 P
      refine ⟨a0, a1, by rw [a2, hl1, List.length_cons]; omega, ?_⟩
      refine Matches.cons ?_ (by rw [← hl1]; exact a3)
      refine ⟨endJoint u st.heap.length joint o, ?_, rfl, rfl, rfl⟩
      rw [P.old _ (by omega) (by omega), e2]
      simp
  | joint name x y z n o chans inner rest1 ii ir ho hn hinner hrest ih1 ih2 =>
    intro t0 more e
    cases e
    intro fuel joint cs st tail rest hat hj ret parsed st1 hr
    have hg := hat.good (Or.inl (by simp [headTokens]))
    obtain ⟨t1, more1, e4⟩ := hinner.ne_nil
    subst e4
    obtain ⟨t2, more2, e5⟩ := hrest.ne_nil
    subst e5
    cases fuel with
    | zero => rw [childrenLoop_zero_good ng u joint _ cs st hg] at hr; cases hr
    | succ f =>
      rw [childrenLoop_joint ng u f joint _ cs st hg rfl] at hr
      cases f with
      | zero => cases hr
      | succ f =>
        rw [parseJoint_succ] at hr
        have hat2 : At st.file (headTokens name x y z n chans ++
            (t1 :: (more1 ++ ((t2 :: more2) ++ tail)))) rest := by
          simpa [List.append_assoc] using hat
        obtain ⟨s1, e1, h1, e2, e3⟩ := parseJointHead_at ng u (some joint) st name x y z n o
          chans t1 _ rest hat2 ho hn
        rw [e1] at hr
        simp only at hr
        have hl1 : s1.heap.length = st.heap.length + 1 := by rw [e2]; simp
        cases hin : childrenLoop ng u f st.heap.length t1 [] s1 with
        | none => rw [hin] at hr; cases hr
        | some r =>
          obtain ⟨r0, child, s0⟩ := r
          rw [hin] at hr
          simp only at hr
          obtain ⟨A1, -⟩ := ih1 t1 more1 rfl f st.heap.length [] s1 ((t2 :: more2) ++ tail)
            rest h1 (by omega) r0 child s0 hin
          obtain ⟨b0, b1, b2, b3⟩ := A1 (Or.inl (by simp))
          obtain ⟨hchild, Q⟩ := (parse_invariant ng u f).2 st.heap.length t1 [] s1 r0 child s0
            (by omega) hin b0
          subst b0
          rw [if_neg (by simp)] at hr
          rw [List.cons_append] at b1
          obtain ⟨e6, h6⟩ := getString_at b1 kJoint
          rw [e6] at hr
          have hjl : joint < s0.heap.length := by omega
          obtain ⟨A, B⟩ := ih2 t2 more2 rfl (f + 1) joint _
            ⟨(getString s0.file kJoint).1, s0.heap, s0.bvh⟩ tail rest h6 hjl ret parsed st1 hr
          refine ⟨fun hne => ?_, B⟩
          obtain ⟨a0, a1, a2, a3⟩ := A hne
          obtain ⟨-, P⟩ := (parse_invariant ng u (f + 1)).2 joint _ _
            ⟨(getString s0.file kJoint).1, s0.heap, s0.bvh⟩ ret parsed st1 hjl hr a0
          simp only at a2 a3 P
          refine ⟨a0, a1, ?_, ?_⟩
          · rw [a2, b2, hl1, List.length_cons, List.length_append]
            omega
          · obtain ⟨kids, hk1, -⟩ := Q.self
            have hs1 : s1.heap[st.heap.length]? =
                some (headJoint u st.heap.length (some joint) ⟨name, o, chans⟩) := by
              rw [e2]
              simp
            have hself : s0.heap[st.heap.length]? = some
                ((headJoint u st.heap.length (some joint) ⟨name, o, chans⟩).set_children
                  kids) := by
              rw [hk1, hs1]
              rfl
            refine Matches.cons ?_ (Matches.append_infos ?_ ?_)
            · refine ⟨(headJoint u st.heap.length (some joint) ⟨name, o, chans⟩).set_children
                kids, ?_, rfl, rfl, rfl⟩
              rw [P.old _ (by omega) (by omega), hself]
            · refine Matches.congr_infos (hl1 ▸ b3) (fun k hk => ?_)
              exact P.old _ (by omega) (by omega)
            · have e7 : st.heap.length + 1 + ii.length = s0.heap.length := by omega
              rw [e7]
              exact a3

/-! ## The top level of the parser -/

theorem parseHierarchyMotion_eq {F D : Type} (ng : NumGet F D) (u : Indet F D)
    (token : List Char) (st : PState F D) :
    parseHierarchyMotion ng u token st =
      if st.file.good then
        if (getString st.file token).2 = kMotion then
          parseMotion ng u ⟨(getString st.file token).1, st.heap, st.bvh⟩
        else (-1, ⟨(getString st.file token).1, st.heap, st.bvh⟩)
      else (0, st) := by
  unfold parseHierarchyMotion
  split
  · simp only
    split
    · split
      · rfl
      · rename_i h
        have h' : (parseMotion ng u ⟨(getString st.file token).1, st.heap, st.bvh⟩).1 = 0 := by
          simpa using h
        rw [← h']
    · rfl
  · rfl

theorem parse_eq {F D : Type} (ng : NumGet F D) (u : Indet F D) (cs : List Char)
    (heap : Heap F) (bvh : Bvh D) :
    parse ng u (some cs) heap bvh =
      if (getString (IStream.ofContent cs) []).2 = kHierarchy then
        (parseHierarchy ng u (2 * cs.length + 2)
          ⟨(getString (IStream.ofContent cs) []).1, heap, bvh⟩).map
          (fun r => (r.1, r.2.heap, r.2.bvh))
      else some (-1, heap, bvh) := by
  unfold parse
  simp only
  split
  · cases parseHierarchy ng u (2 * cs.length + 2)
        ⟨(getString (IStream.ofContent cs) []).1, heap, bvh⟩ with
    | none => rfl
    | some r =>
      obtain ⟨ret, st1⟩ := r
      simp only [Option.map_some']
      split
      · rfl
      · rename_i h
        have h' : ret = 0 := by simpa using h
        rw [h']
  · rfl

theorem parseHierarchy_root {F D : Type} (ng : NumGet F D) (u : Indet F D) (fuel : Nat)
    (st : PState F D) (hg : st.file.good = true) (hr : (getString st.file []).2 = kRoot)
    (ret : Int) (root : Option Nat) (st1 : PState F D)
    (hj : parseJoint ng u fuel none ⟨(getString st.file []).1, st.heap, st.bvh⟩ =
      some (ret, root, st1)) :
    parseHierarchy ng u fuel st =
      if ret ≠ 0 then some (ret, st1)
      else some (parseHierarchyMotion ng u kRoot
        ⟨st1.file, st1.heap, st1.bvh.setRootJoint root⟩) := by
  unfold parseHierarchy
  rw [if_pos hg]
  simp only
  rw [if_pos hr, hj, hr]

theorem parseMotion_at {F D : Type} (ng : NumGet F D) (u : Indet F D) (st : PState F D)
    (f t : List Char) (frames : Int) (time : D) (toks : List (List Char)) (rest : List Char)
    (h : At st.file (kFrames :: f :: kFrame :: kTime :: t :: toks) rest)
    (hf : ng.int.Reads f frames) (ht : ng.double.Reads t time) :
    ∃ sM, At sM toks rest ∧
      parseMotion ng u st =
        (0, ⟨(frameLoop ng st.bvh.joints frames.toNat sM u.number st.heap).1,
          (frameLoop ng st.bvh.joints frames.toNat sM u.number st.heap).2.2,
          (st.bvh.setNumFrames frames).setFrameTime time⟩) := by
  obtain ⟨e1, h1⟩ := getString_at h []
  obtain ⟨e2, h2⟩ := extract_at ng.int h1 u.frames_num _ hf
  obtain ⟨e3, h3⟩ := getString_at h2 (getString st.file []).2
  obtain ⟨e4, h4⟩ := getString_at h3 (getString (extract ng.int (getString st.file []).1
    u.frames_num).1 (getString st.file []).2).2
  obtain ⟨e5, h5⟩ := extract_at ng.double h4 u.frame_time _ ht
  refine ⟨_, h5, ?_⟩
  unfold parseMotion
  simp only
  rw [if_pos e1, if_pos e3, e2, e5]
  rfl

/-- On a buffer of whitespace only, an extraction fails and leaves its target alone. -/
theorem getString_blank (s : IStream) (old : List Char) (hg : s.good = true)
    (hb : ∀ c ∈ s.buf, isspace c = true) : (getString s old).2 = old := by
  unfold getString sentry
  rw [if_pos hg, List.dropWhile_eq_nil_iff.2 hb]

theorem Lexes.length_le {b rest : List Char} {toks : List (List Char)}
    (h : Lexes b toks rest) : rest.length ≤ b.length := by
  induction h with
  | nil rest => exact le_refl _
  | cons ws t r toks rest _ _ _ _ _ ih =>
    simp only [List.length_append]
    omega

theorem At.ofContent {cs : List Char} {t : List Char} {toks : List (List Char)}
    {rest : List Char} (h : Lexes cs (t :: toks) rest) :
    At (IStream.ofContent cs) (t :: toks) rest := by
  refine ⟨rfl, ?_, h⟩
  obtain ⟨ws, r, e, -, ht, -, -, -⟩ := h.cons_inv
  subst e
  cases ws <;> cases t <;> simp_all [IStream.ofContent]

/-- Function `parseJoint` on the tokens of a well-formed joint: success when something
follows the closing brace, failure when the closing brace ends the input. -/
theorem parseJoint_wf {F D : Type} (ng : NumGet F D) (u : Indet F D)
    (name x y z n : List Char) (o : Offset F) (chans : List Channel)
    (inner : List (List Char)) (ii : List (NodeInfo F)) (ho : ReadsOffset ng x y z o)
    (hn : ng.int.Reads n chans.length) (hinner : Children ng inner ii)
    (st : PState F D) (tail : List (List Char)) (rest : List Char)
    (hat : At st.file (headTokens name x y z n chans ++ (inner ++ tail)) rest)
    (fuel : Nat) (parent : Option Nat) (ret : Int) (parsed : Option Nat) (st1 : PState F D)
    (hr : parseJoint ng u fuel parent st = some (ret, parsed, st1)) :
    ((tail ≠ [] ∨ rest ≠ []) → ret = 0 ∧ At st1.file tail rest ∧
      st1.heap.length = st.heap.length + (ii.length + 1) ∧
      Matches st1.heap st.heap.length (⟨name, o, chans⟩ :: ii)) ∧
    (tail = [] → rest = [] → ret ≠ 0) := by
  obtain ⟨t1, more1, e4⟩ := hinner.ne_nil
  subst e4
  cases fuel with
  | zero => cases hr
  | succ f =>
    rw [parseJoint_succ] at hr
    obtain ⟨s1, e1, h1, e2, e3⟩ := parseJointHead_at ng u parent st name x y z n o
      chans t1 _ rest hat ho hn
    rw [e1] at hr
    simp only at hr
    have hl1 : s1.heap.length = st.heap.length + 1 := by rw [e2]; simp
    obtain ⟨A, B⟩ := childrenLoop_wf ng u hinner t1 more1 rfl f st.heap.length [] s1 tail
      rest h1 (by omega) ret parsed st1 hr
    refine ⟨fun hne => ?_, B⟩
    obtain ⟨a0, a1, a2, a3⟩ := A hne
    obtain ⟨-, Q⟩ := (parse_invariant ng u f).2 st.heap.length t1 [] s1 ret parsed st1
      (by omega) hr a0
    refine ⟨a0, a1, by omega, ?_⟩
    obtain ⟨kids, hk1, -⟩ := Q.self
    have hs1 : s1.heap[st.heap.length]? =
        some (headJoint u st.heap.length parent ⟨name, o, chans⟩) := by
      rw [e2]
      simp
    refine Matches.cons ?_ (hl1 ▸ a3)
    refine ⟨(headJoint u st.heap.length parent ⟨name, o, chans⟩).set_children kids, ?_,
      rfl, rfl, rfl⟩
    rw [hk1, hs1]
    rfl

/-- Function `parse` on an input that starts with `HIERARCHY` and a well-formed root
joint: the root joint is parsed, with success exactly when something follows its closing
brace, and `parse` goes on with the motion section. -/
theorem parse_hierarchy_wf {F D : Type} (ng : NumGet F D) (u : Indet F D)
    (input : List Char) (hier tail : List (List Char)) (rest : List Char)
    (infos : List (NodeInfo F)) (hl : Lexes input (kHierarchy :: (hier ++ tail)) rest)
    (hh : Hierarchy ng hier infos) (heap : Heap F) (bvh : Bvh D) :
    ∃ (ret : Int) (root : Option Nat) (st1 : PState F D),
      parse ng u (some input) heap bvh =
        (if ret ≠ 0 then some (ret, st1.heap, st1.bvh)
         else some
          ((parseHierarchyMotion ng u kRoot
              ⟨st1.file, st1.heap, st1.bvh.setRootJoint root⟩).1,
           (parseHierarchyMotion ng u kRoot
              ⟨st1.file, st1.heap, st1.bvh.setRootJoint root⟩).2.heap,
           (parseHierarchyMotion ng u kRoot
              ⟨st1.file, st1.heap, st1.bvh.setRootJoint root⟩).2.bvh)) ∧
      ((tail ≠ [] ∨ rest ≠ []) → ret = 0 ∧ root = some heap.length ∧
        At st1.file tail rest ∧ st1.heap.length = heap.length + infos.length ∧
        Matches st1.heap heap.length infos ∧ JointPost none heap bvh st1) ∧
      (tail = [] → rest = [] → ret ≠ 0) := by
  cases hh with
  | root name x y z n o chans inner ii ho hn hinner =>
    have h0 := At.ofContent hl
    obtain ⟨e1, h1⟩ := getString_at h0 []
    rw [List.cons_append] at h1
    have hg1 := h1.good (Or.inl (by simp))
    obtain ⟨e2, h2⟩ := getString_at h1 []
    rw [List.append_assoc] at h2
    have hlen1 := getString_length_le (IStream.ofContent input) []
    have hlen2 := getString_length_le (getString (IStream.ofContent input) []).1 []
    obtain ⟨r, hr, -⟩ := (parseJoint_childrenLoop_total ng u (2 * input.length + 2)).1 none
      ⟨(getString (getString (IStream.ofContent input) []).1 []).1, heap, bvh⟩
      (by simp only [IStream.ofContent] at hlen1 hlen2 ⊢; omega)
    obtain ⟨ret, root, st1⟩ := r
    refine ⟨ret, root, st1, ?_, ?_⟩
    · rw [parse_eq, if_pos e1,
        parseHierarchy_root ng u _ ⟨(getString (IStream.ofContent input) []).1, heap, bvh⟩
          hg1 e2 ret root st1 hr]
      split <;> rfl
    · obtain ⟨A, B⟩ := parseJoint_wf ng u name x y z n o chans inner ii ho hn hinner
        ⟨(getString (getString (IStream.ofContent input) []).1 []).1, heap, bvh⟩ tail rest
        h2 _ none ret root st1 hr
      refine ⟨fun hne => ?_, B⟩
      obtain ⟨a0, a1, a2, a3⟩ := A hne
      obtain ⟨hp, P⟩ := (parse_invariant ng u _).1 none _ ret root st1 hr a0
      exact ⟨a0, hp, a1, a2, a3, P⟩

/-- Function `parse` on an input with a well-formed hierarchy and motion header,
whatever follows the header: it returns success, the root is the first joint allocated,
the declared nodes are the registered joints, and the heap is the result of the loop
over the frames run on the rest of the input. -/
theorem parse_motion_wf {F D : Type} (ng : NumGet F D) (u : Indet F D)
    (input : List Char) (hier header tail : List (List Char)) (rest : List Char)
    (infos : List (NodeInfo F)) (frames : Int) (time : D)
    (hl : Lexes input (kHierarchy :: (hier ++ (header ++ tail))) rest)
    (hh : Hierarchy ng hier infos) (hm : MotionHeader ng header frames time)
    (heap : Heap F) (bvh : Bvh D) :
    ∃ (st1 : PState F D) (sM : IStream),
      JointPost none heap bvh st1 ∧ Matches st1.heap heap.length infos ∧
      st1.heap.length = heap.length + infos.length ∧ At sM tail rest ∧
      parse ng u (some input) heap bvh =
        some (0, (frameLoop ng st1.bvh.joints frames.toNat sM u.number st1.heap).2.2,
          ((st1.bvh.setRootJoint (some heap.length)).setNumFrames frames).setFrameTime
            time) := by
  obtain ⟨f, t, rfl, hf, ht⟩ := hm
  obtain ⟨ret, root, st1, hp, A, -⟩ := parse_hierarchy_wf ng u input hier _ rest infos hl hh
    heap bvh
  obtain ⟨a0, a1, a2, a3, a4, P⟩ := A (Or.inl (by simp))
  subst a0 a1
  rw [if_neg (by simp)] at hp
  simp only [List.cons_append, List.nil_append] at a2
  obtain ⟨e1, h1⟩ := getString_at a2 kRoot
  obtain ⟨sM, hM, em⟩ := parseMotion_at ng u
    ⟨(getString st1.file kRoot).1, st1.heap, st1.bvh.setRootJoint (some heap.length)⟩
    f t frames time tail rest h1 hf ht
  refine ⟨st1, sM, P, a4, a3, hM, ?_⟩
  rw [hp, parseHierarchyMotion_eq, if_pos P.good]
  simp only
  rw [if_pos e1, em]
  rfl

/-- C1: on every well-formed input (whitespace-separated tokens of the grammar
`HIERARCHY ROOT Joint MOTION Frames: int Frame Time: float FrameRow*`, every channel
count equal to the number of channel names after it, every channel name one of the six
names, the motion block made of exactly frame count times the sum of the channel counts
numbers), `parse` returns 0 and sets a root joint; this holds on a fresh skeleton and on
any other. -/
theorem parse_wellformed_succeeds {F D : Type} (ng : NumGet F D) (u : Indet F D)
    (input : List Char) (infos : List (NodeInfo F)) (frames : Int) (time : D)
    (vals : List F) (heap : Heap F) (bvh : Bvh D)
    (hw : WellFormed ng input infos frames time vals) :
    ∃ heap1 bvh1, parse ng u (some input) heap bvh = some (0, heap1, bvh1) ∧
      bvh1.root_joint ≠ none := by
  obtain ⟨hier, header, nums, rest, hl, -, hh, hm, -, -⟩ := hw
  obtain ⟨st1, sM, -, -, -, -, hp⟩ := parse_motion_wf ng u input hier header nums rest infos
    frames time hl hh hm heap bvh
  exact ⟨_, _, hp, by simp [Bvh.setFrameTime, Bvh.setNumFrames, Bvh.setRootJoint]⟩

theorem readSeq_at {F D : Type} (ng : NumGet F D) {nums : List (List Char)} {vals : List F}
    (hr : ReadsAll ng nums vals) :
    ∀ (s : IStream) (number : F) (toks : List (List Char)) (rest : List Char),
      At s (nums ++ toks) rest → readSeq ng nums.length s number = vals := by
  induction hr with
  | nil => intro s number toks rest _; rfl
  | cons hv _ ih =>
    intro s number toks rest h
    rw [List.cons_append] at h
    obtain ⟨e, h1⟩ := extract_at ng.float h number _ hv
    simp only [List.length_cons, readSeq]
    rw [e, ih _ _ toks rest h1]

theorem frameLoop_chanCount {F D : Type} (ng : NumGet F D) (l : List Nat) :
    ∀ (n : Nat) (file : IStream) (number : F) (h : Heap F) (i : Nat),
      chanCount (frameLoop ng l n file number h).2.2 i = chanCount h i
  | 0, _, _, _, _ => rfl
  | n + 1, file, number, h, i => by
    simp only [frameLoop]
    rw [frameLoop_chanCount ng l n, jointLoop_chanCount]

theorem frameLoop_chanSum {F D : Type} (ng : NumGet F D) (l : List Nat) (n : Nat)
    (file : IStream) (number : F) (h : Heap F) (l2 : List Nat) :
    chanSum (frameLoop ng l n file number h).2.2 l2 = chanSum h l2 := by
  unfold chanSum
  congr 1
  exact List.map_congr_left (fun i _ => frameLoop_chanCount ng l n file number h i)

theorem chanCount_of_infoAt {F : Type} {h : Heap F} {id : Nat} {info : NodeInfo F}
    (hi : InfoAt h id info) : chanCount h id = info.channels.length := by
  obtain ⟨j, e1, -, -, e4⟩ := hi
  unfold chanCount
  rw [e1]
  simp only [Joint.num_channels, e4]

theorem chanSum_matches {F : Type} (h : Heap F) :
    ∀ (infos : List (NodeInfo F)) (n0 : Nat), Matches h n0 infos →
      chanSum h (List.range' n0 infos.length) = infoSum infos
  | [], _, _ => rfl
  | info :: infos, n0, hm => by
    have h0 : InfoAt h n0 info := hm 0 info (by simp)
    have h1 : Matches h (n0 + 1) infos := by
      intro k i hk
      have := hm (k + 1) i (by simpa using hk)
      rwa [Nat.add_assoc, Nat.add_comm 1 k]
    have ih := chanSum_matches h infos (n0 + 1) h1
    simp only [chanSum, infoSum, List.length_cons, List.range'_succ, List.map_cons,
      List.sum_cons] at ih ⊢
    rw [ih, chanCount_of_infoAt h0]

/-- C3: on every well-formed input with frame count `frames` and motion values `vals`,
after `parse` on a skeleton without registered joints, the registered joints are the
declared nodes, and the sample row of the joint at position `k` of the registration
list for frame `f` is the run of `c_k` consecutive values of the motion block that
starts at position `f * (c_0 + ... + c_(n-1)) + (c_0 + ... + c_(k-1))`, the `c_i` being
the channel counts of the registered joints. -/
theorem parse_motion_layout {F D : Type} (ng : NumGet F D) (u : Indet F D)
    (input : List Char) (infos : List (NodeInfo F)) (frames : Int) (time : D)
    (vals : List F) (heap : Heap F) (bvh : Bvh D) (hj : bvh.joints = [])
    (hw : WellFormed ng input infos frames time vals) :
    ∃ heap1 bvh1, parse ng u (some input) heap bvh = some (0, heap1, bvh1) ∧
      bvh1.num_frames = frames ∧ bvh1.joints.length = infos.length ∧
      ∀ k info, infos[k]? = some info →
        ∃ id j, bvh1.joints[k]? = some id ∧ heap1[id]? = some j ∧
          j.channels_order = info.channels ∧
          ∀ f : Nat, (f : Int) < frames →
            j.channel_data[f]? = some
              ((vals.drop (f * chanSum heap1 bvh1.joints +
                chanSum heap1 (bvh1.joints.take k))).take j.channels_order.length) := by
  obtain ⟨hier, header, nums, rest, hl, -, hh, hm, hra, hlen⟩ := hw
  have hl2 : Lexes input (kHierarchy :: (hier ++ (header ++ (nums ++ [])))) rest := by
    simpa using hl
  obtain ⟨st1, sM, P, hma, hlen1, hM, hp⟩ := parse_motion_wf ng u input hier header
    (nums ++ []) rest infos frames time hl2 hh hm heap bvh
  have hjs : st1.bvh.joints = List.range' heap.length infos.length := by
    rw [P.joints, hj, List.nil_append, hlen1, Nat.add_sub_cancel_left]
  have hnd : st1.bvh.joints.Nodup := by
    rw [hjs]
    exact List.nodup_range' _ _
  have hS : chanSum st1.heap st1.bvh.joints = infoSum infos := by
    rw [hjs]
    exact chanSum_matches st1.heap infos heap.length hma
  have hseq : readSeq ng (frames.toNat * chanSum st1.heap st1.bvh.joints) sM u.number =
      vals := by
    rw [hS, ← hlen, ← hra.length_eq]
    exact readSeq_at ng hra sM u.number [] rest hM
  obtain ⟨-, -, -, -, i5⟩ := frameLoop_spec ng st1.bvh.joints hnd frames.toNat sM u.number
    st1.heap
  refine ⟨_, _, hp, rfl, ?_, ?_⟩
  · show st1.bvh.joints.length = infos.length
    rw [hjs, List.length_range']
  · intro k info hk
    have hkl : k < infos.length := by
      by_contra hge
      rw [List.getElem?_eq_none (by omega)] at hk
      cases hk
    have hkl2 : k < st1.bvh.joints.length := by rw [hjs, List.length_range']; exact hkl
    have hid : st1.bvh.joints[k]? = some (heap.length + k) := by
      rw [hjs, List.getElem?_range' _ _ hkl, Nat.one_mul]
    have hgd : st1.bvh.joints.getD k 0 = heap.length + k := by
      rw [List.getD_eq_getElem?_getD, hid]
      rfl
    obtain ⟨j0, e1, -, -, e4⟩ := hma k info hk
    have hb := P.blank (heap.length + k) j0 (by omega) e1
    have h5 := i5 k hkl2
    rw [hgd, e1, hseq] at h5
    have hcc : chanCount st1.heap (heap.length + k) = j0.channels_order.length := by
      unfold chanCount
      rw [e1]
      rfl
    refine ⟨heap.length + k, _, hid, h5, e4, fun f hf => ?_⟩
    have hf2 : f < frames.toNat := by omega
    show (Joint.addRows _ j0).channel_data[f]? = _
    simp only [Joint.addRows, hb.1, List.nil_append]
    rw [List.getElem?_map, List.getElem?_range hf2, frameLoop_chanSum, frameLoop_chanSum,
      hcc]
    rfl

/-! ## Failures -/

theorem getString_ofContent (cs : List Char) :
    (getString (IStream.ofContent cs) []).2 = firstToken cs := by
  unfold getString sentry firstToken
  simp only [IStream.ofContent, IStream.good, Bool.not_false, Bool.and_self, if_true]
  cases cs.dropWhile isspace with
  | nil => rfl
  | cons c l => rfl

/-- C10: on every readable input whose first token is not `HIERARCHY` (an empty input
included) `parse` returns -1 at once: heap and skeleton are what they were, so no joint
is registered, no root is set, frame count and frame time are untouched. -/
theorem parse_no_hierarchy {F D : Type} (ng : NumGet F D) (u : Indet F D) (cs : List Char)
    (heap : Heap F) (bvh : Bvh D) (h : firstToken cs ≠ kHierarchy) :
    parse ng u (some cs) heap bvh = some (-1, heap, bvh) := by
  rw [parse_eq, getString_ofContent, if_neg h]

/-- C6: on every input made of `HIERARCHY`, `ROOT`, a well-formed root joint and then
either nothing but whitespace (or nothing at all) or a token other than `MOTION`,
`parse` returns, and returns a failure code. -/
theorem parse_missing_motion_fails {F D : Type} (ng : NumGet F D) (u : Indet F D)
    (input : List Char) (hier tail : List (List Char)) (rest : List Char)
    (infos : List (NodeInfo F)) (heap : Heap F) (bvh : Bvh D)
    (hl : Lexes input (kHierarchy :: (hier ++ tail)) rest) (hh : Hierarchy ng hier infos)
    (hrest : ∀ c ∈ rest, isspace c = true) (ht : ∀ t ∈ tail.head?, t ≠ kMotion) :
    ∃ ret heap1 bvh1, parse ng u (some input) heap bvh = some (ret, heap1, bvh1) ∧
      ret ≠ 0 := by
  obtain ⟨ret, root, st1, hp, A, B⟩ := parse_hierarchy_wf ng u input hier tail rest infos hl
    hh heap bvh
  by_cases hne : tail ≠ [] ∨ rest ≠ []
  · obtain ⟨a0, -, a2, -, -, P⟩ := A hne
    subst a0
    rw [if_neg (by simp), parseHierarchyMotion_eq, if_pos P.good] at hp
    have hk : (getString st1.file kRoot).2 ≠ kMotion := by
      cases tail with
      | nil =>
        have e := a2.nil_eq
        rw [getString_blank st1.file kRoot P.good (by rw [e]; exact hrest)]
        decide
      | cons t tail =>
        rw [(getString_at a2 kRoot).1]
        exact ht t (by simp)
    rw [if_neg hk] at hp
    exact ⟨_, _, _, hp, by simp⟩
  · have h1 : tail = [] := by
      by_contra h
      exact hne (Or.inl h)
    have h2 : rest = [] := by
      by_contra h
      exact hne (Or.inr h)
    have hr := B h1 h2
    rw [if_pos hr] at hp
    exact ⟨_, _, _, hp, hr⟩

/-- The motion block is never checked: on every input with a well-formed hierarchy and
motion header whose motion data holds fewer numbers than frame count times the sum of
the channel counts, `parse` returns 0; running out of input inside the motion data is
not detected. -/
theorem parse_short_motion_succeeds {F D : Type} (ng : NumGet F D) (u : Indet F D)
    (input : List Char) (hier header nums : List (List Char)) (rest : List Char)
    (infos : List (NodeInfo F)) (frames : Int) (time : D) (vals : List F) (heap : Heap F)
    (bvh : Bvh D)
    (hl : Lexes input (kHierarchy :: (hier ++ (header ++ nums))) rest)
    (_hrest : ∀ c ∈ rest, isspace c = true)
    (hh : Hierarchy ng hier infos) (hm : MotionHeader ng header frames time)
    (_hr : ReadsAll ng nums vals) (_hlen : vals.length < frames.toNat * infoSum infos) :
    ∃ heap1 bvh1, parse ng u (some input) heap bvh = some (0, heap1, bvh1) := by
  obtain ⟨st1, sM, -, -, -, -, hp⟩ := parse_motion_wf ng u input hier header nums rest infos
    frames time hl hh hm heap bvh
  exact ⟨_, _, hp⟩

/-- C9, the defect: on the input that is just the keyword `HIERARCHY`, with nothing
after it, `parse` returns 0 and leaves heap and skeleton as they were: no root joint was
parsed. -/
theorem parse_hierarchy_only {F D : Type} (ng : NumGet F D) (u : Indet F D)
    (heap : Heap F) (bvh : Bvh D) :
    parse ng u (some kHierarchy) heap bvh = some (0, heap, bvh) := by
  have e : getString (IStream.ofContent kHierarchy) [] = (⟨[], true, false⟩, kHierarchy) := by
    decide
  rw [parse_eq, e, if_pos rfl]
  unfold parseHierarchy
  have hg : (⟨[], true, false⟩ : IStream).good = false := rfl
  simp only [hg, parseHierarchyMotion_eq]
  rfl

/-! ## Tokens separated by single spaces -/

theorem lexes_unwords :
    ∀ (toks : List (List Char)), (∀ t ∈ toks, t ≠ [] ∧ ∀ c ∈ t, isspace c = false) →
      Lexes (unwords toks) toks []
  | [], _ => Lexes.nil []
  | [t], h => by
    have := Lexes.cons [] t [] [] [] (by simp) (h t (by simp)).1 (h t (by simp)).2
      (Or.inl rfl) (Lexes.nil [])
    simpa [unwords] using this
  | t :: t2 :: ts, h => by
    have ih := lexes_unwords (t2 :: ts) (fun x hx => h x (by simp [hx]))
    obtain ⟨ws, r, e, hws, ht2, hts2, hr, hl⟩ := ih.cons_inv
    have := Lexes.cons [] t (Char.ofNat 32 :: unwords (t2 :: ts)) (t2 :: ts) []
      (by simp) (h t (by simp)).1 (h t (by simp)).2
      (Or.inr ⟨_, _, rfl, by decide⟩) ?_
    · simpa [unwords] using this
    · rw [e]
      have := Lexes.cons (Char.ofNat 32 :: ws) t2 r ts []
        (by
          intro c hc
          rcases List.mem_cons.1 hc with rfl | hc
          · decide
          · exact hws c hc) ht2 hts2 hr hl
      simpa using this

/-! ## The evaluator -/

theorem Skel.refl {F : Type} (h : Heap F) : Skel h h :=
  fun _ j hj => ⟨j, hj, rfl, rfl, rfl, rfl, rfl, rfl⟩

theorem Skel.trans {F : Type} {h1 h2 h3 : Heap F} (a : Skel h1 h2) (b : Skel h2 h3) :
    Skel h1 h3 := by
  intro x j hj
  obtain ⟨j2, e, p1, p2, p3, p4, p5, p6⟩ := a x j hj
  obtain ⟨j3, e3, q1, q2, q3, q4, q5, q6⟩ := b x j2 e
  exact ⟨j3, e3, q1.trans p1, q2.trans p2, q3.trans p3, q4.trans p4, q5.trans p5,
    q6.trans p6⟩

theorem channelsLoop_isSome {F : Type} [Zero F] [One F] [Add F] [Mul F]
    (rot : F → Vec3 F → Mat4 F) (data : List (List F)) (i : Nat) (row : List F)
    (hrow : data[i]? = some row) :
    ∀ (chs : List Channel) (j : Nat) (tr : Mat4 F × Mat4 F), j + chs.length ≤ row.length →
      ∃ tr1, channelsLoop rot data i chs j tr = some tr1
  | [], _, tr, _ => ⟨tr, rfl⟩
  | c :: cs, j, tr, h => by
    have hj : j < row.length := by simp only [List.length_cons] at h; omega
    simp only [channelsLoop, hrow, List.getElem?_eq_getElem hj]
    exact channelsLoop_isSome rot data i row hrow cs (j + 1) _
      (by simp only [List.length_cons] at h; omega)

theorem sampleFrom_not_mem {F : Type} [Zero F] (c : Channel) (row : List F) :
    ∀ (chs : List Channel) (j : Nat), c ∉ chs → sampleFrom c chs j row = 0
  | [], _, _ => rfl
  | d :: ds, j, h => by
    rw [List.mem_cons, not_or] at h
    have hd : ¬ d = c := fun e => h.1 e.symm
    simp only [sampleFrom, if_neg hd]
    exact sampleFrom_not_mem c row ds (j + 1) h.2

/-- The channel loop on positional channels that are pairwise distinct: the rotation
matrix is untouched, and each coordinate of the position of `tmat` grows by the sample
of its channel. -/
theorem channelsLoop_positional {F : Type} [Semiring F] (rot : F → Vec3 F → Mat4 F)
    (data : List (List F)) (i : Nat) (row : List F) (hrow : data[i]? = some row) :
    ∀ (chs : List Channel) (j : Nat) (tr : Mat4 F × Mat4 F),
      j + chs.length ≤ row.length → (∀ c ∈ chs, c.isPosition = true) → chs.Nodup →
      ∃ tr1, channelsLoop rot data i chs j tr = some tr1 ∧ tr1.2 = tr.2 ∧
        tr1.1.right = tr.1.right ∧ tr1.1.up = tr.1.up ∧ tr1.1.forward = tr.1.forward ∧
        tr1.1.position.w = tr.1.position.w ∧
        tr1.1.position.x = tr.1.position.x + sampleFrom Channel.XPOSITION chs j row ∧
        tr1.1.position.y = tr.1.position.y + sampleFrom Channel.YPOSITION chs j row ∧
        tr1.1.position.z = tr.1.position.z + sampleFrom Channel.ZPOSITION chs j row
  | [], _, tr, _, _, _ => by
    refine ⟨tr, rfl, rfl, rfl, rfl, rfl, rfl, ?_, ?_, ?_⟩ <;> simp [sampleFrom]
  | c :: cs, j, tr, h, hp, hn => by
    have hj : j < row.length := by simp only [List.length_cons] at h; omega
    have hc : c ∉ cs := (List.nodup_cons.1 hn).1
    obtain ⟨tr1, e, p1, p2, p3, p4, p5, p6, p7, p8⟩ := channelsLoop_positional rot data i row
      hrow cs (j + 1) (applyChannel rot tr c row[j]) (by simp only [List.length_cons] at h; omega)
      (fun d hd => hp d (by simp [hd])) (List.nodup_cons.1 hn).2
    have hgd : row[j]?.getD 0 = row[j] := by
      rw [List.getElem?_eq_getElem hj]
      rfl
    simp only [channelsLoop, hrow, List.getElem?_eq_getElem hj]
    refine ⟨tr1, e, ?_⟩
    have hpc := hp c (by simp)
    cases c with
    | XPOSITION =>
      rw [p1, p2, p3, p4, p5, p6, p7, p8]
      simp [applyChannel, sampleFrom, sampleFrom_not_mem _ _ _ _ hc, hgd]
    | YPOSITION =>
      rw [p1, p2, p3, p4, p5, p6, p7, p8]
      simp [applyChannel, sampleFrom, sampleFrom_not_mem _ _ _ _ hc, hgd]
    | ZPOSITION =>
      rw [p1, p2, p3, p4, p5, p6, p7, p8]
      simp [applyChannel, sampleFrom, sampleFrom_not_mem _ _ _ _ hc, hgd]
    | XROTATION => cases hpc
    | YROTATION => cases hpc
    | ZROTATION => cases hpc

theorem frameStep_eq {F : Type} [Zero F] [One F] [Add F] [Mul F]
    (rot : F → Vec3 F → Mat4 F) (s : Nat) (offmat : Mat4 F) (data : List (List F))
    (h : Heap F) (i : Nat) (sj : Joint F) (hs : h[s]? = some sj) :
    frameStep rot s offmat data h i =
      match frameBase rot h sj offmat data i with
      | none => none
      | some b =>
        some ((h.upd s (Joint.set_pos b.1.translation)).upd s
          (Joint.set_ltm (b.1.mul b.2) i)) := by
  unfold frameStep frameBase
  rw [hs]
  simp only
  cases channelsLoop rot data i sj.channels_order 0 (Mat4.identity, Mat4.identity) with
  | none => rfl
  | some tr =>
    simp only
    cases localBase h sj.parent i tr.1 offmat with
    | none => rfl
    | some ltm => rfl

theorem localBase_congr {F : Type} [Add F] [Mul F] (h h1 : Heap F) (parent : Option Nat)
    (i : Nat) (tmat offmat : Mat4 F) (hq : ∀ q, parent = some q → h1[q]? = h[q]?) :
    localBase h1 parent i tmat offmat = localBase h parent i tmat offmat := by
  cases parent with
  | none => rfl
  | some q =>
    unfold localBase
    simp only
    rw [hq q rfl]

theorem frameBase_congr {F : Type} [Zero F] [One F] [Add F] [Mul F]
    (rot : F → Vec3 F → Mat4 F) (h h1 : Heap F) (sj sj1 : Joint F) (offmat : Mat4 F)
    (data : List (List F)) (k : Nat) (hc : sj1.channels_order = sj.channels_order)
    (hp : sj1.parent = sj.parent) (hq : ∀ q, sj.parent = some q → h1[q]? = h[q]?) :
    frameBase rot h1 sj1 offmat data k = frameBase rot h sj offmat data k := by
  unfold frameBase
  rw [hc, hp]
  cases channelsLoop rot data k sj.channels_order 0 (Mat4.identity, Mat4.identity) with
  | none => rfl
  | some tr =>
    simp only
    rw [localBase_congr h h1 sj.parent k tr.1 offmat hq]

theorem frameBase_isSome {F : Type} [Zero F] [One F] [Add F] [Mul F]
    (rot : F → Vec3 F → Mat4 F) (h : Heap F) (sj : Joint F) (offmat : Mat4 F)
    (data : List (List F)) (k : Nat) (row : List F) (hrow : data[k]? = some row)
    (hlen : sj.channels_order.length ≤ row.length)
    (hq : ∀ q, sj.parent = some q → ∃ pj, h[q]? = some pj ∧ k < pj.ltm.length) :
    ∃ b, frameBase rot h sj offmat data k = some b := by
  obtain ⟨tr, e⟩ := channelsLoop_isSome rot data k row hrow sj.channels_order 0
    (Mat4.identity, Mat4.identity) (by omega)
  unfold frameBase
  rw [e]
  simp only
  cases hp : sj.parent with
  | none => exact ⟨_, rfl⟩
  | some q =>
    obtain ⟨pj, e1, e2⟩ := hq q hp
    unfold localBase
    simp only [e1, List.getElem?_eq_getElem e2]
    exact ⟨_, rfl⟩

theorem Joint.length_set_ltm {F : Type} (m : Mat4 F) (i : Nat) (j : Joint F)
    (h : i ≤ j.ltm.length) : i + 1 ≤ (j.set_ltm m i).ltm.length := by
  unfold Joint.set_ltm
  simp only
  split
  · rw [List.length_set]
    omega
  · rw [List.length_append, List.length_singleton]
    omega

/-- The loop over the frames of one joint: it succeeds when the joint has the sample
rows it reads and its parent, if any, has its transforms; it writes to this joint only,
leaves its static data alone, appends one position per frame and has a transform for
every frame at the end. -/
theorem framesLoop_ok {F : Type} [Zero F] [One F] [Add F] [Mul F]
    (rot : F → Vec3 F → Mat4 F) (s : Nat) (offmat : Mat4 F) (data : List (List F)) :
    ∀ (n i : Nat) (h : Heap F) (sj : Joint F), h[s]? = some sj → i ≤ sj.ltm.length →
      (∀ k, i ≤ k → k < i + n →
        ∃ row, data[k]? = some row ∧ sj.channels_order.length ≤ row.length) →
      (∀ q, sj.parent = some q → q ≠ s ∧ ∃ pj, h[q]? = some pj ∧ i + n ≤ pj.ltm.length) →
      ∃ h1 sj1 ps, framesLoop rot s offmat data n i h = some h1 ∧ h1[s]? = some sj1 ∧
        (∀ x, x ≠ s → h1[x]? = h[x]?) ∧
        sj1.parent = sj.parent ∧ sj1.children = sj.children ∧
        sj1.channel_data = sj.channel_data ∧ sj1.channels_order = sj.channels_order ∧
        sj1.offset = sj.offset ∧ sj1.name = sj.name ∧
        i + n ≤ sj1.ltm.length ∧ sj1.pos = sj.pos ++ ps ∧ ps.length = n ∧
        ∀ k, k < n → ∃ b, frameBase rot h sj offmat data (i + k) = some b ∧
          ps[k]? = some b.1.translation
  | 0, i, h, sj, hs, hl, _, _ =>
    ⟨h, sj, [], rfl, hs, fun _ _ => rfl, rfl, rfl, rfl, rfl, rfl, rfl, hl, by simp, rfl,
      fun k hk => by omega⟩
  | n + 1, i, h, sj, hs, hl, hrows, hpar => by
    obtain ⟨row, hrow, hrl⟩ := hrows i (le_refl _) (by omega)
    obtain ⟨b, hb⟩ := frameBase_isSome rot h sj offmat data i row hrow hrl
      (fun q hq => by
        obtain ⟨-, pj, e1, e2⟩ := hpar q hq
        exact ⟨pj, e1, by omega⟩)
    have hstep : frameStep rot s offmat data h i =
        some ((h.upd s (Joint.set_pos b.1.translation)).upd s
          (Joint.set_ltm (b.1.mul b.2) i)) := by
      rw [frameStep_eq rot s offmat data h i sj hs, hb]
    have hget : ∀ x, ((h.upd s (Joint.set_pos b.1.translation)).upd s
        (Joint.set_ltm (b.1.mul b.2) i))[x]? =
        if x = s then some ((sj.set_pos b.1.translation).set_ltm (b.1.mul b.2) i)
        else h[x]? := by
      intro x
      rw [Heap.getElem?_upd]
      by_cases hx : x = s
      · subst hx
        rw [if_pos rfl, if_pos rfl, Heap.getElem?_upd, if_pos rfl, hs]
        rfl
      · rw [if_neg hx, if_neg hx, Heap.getElem?_upd, if_neg hx]
    obtain ⟨h1, sj1, ps, e, e1, e2, p1, p2, p3, p4, p5, p6, p7, p8, p9, p10⟩ :=
      framesLoop_ok rot s offmat data n (i + 1) _
        ((sj.set_pos b.1.translation).set_ltm (b.1.mul b.2) i)
        (by rw [hget, if_pos rfl])
        (Joint.length_set_ltm _ _ _ hl)
        (fun k hk1 hk2 => hrows k (by omega) (by omega))
        (fun q hq => by
          obtain ⟨hne, pj, e1, e2⟩ := hpar q hq
          refine ⟨hne, pj, ?_, by omega⟩
          rw [hget, if_neg hne, e1])
    refine ⟨h1, sj1, b.1.translation :: ps, ?_, e1, ?_, p1, p2, p3, p4, p5, p6, by omega, ?_,
      by simp [p9], ?_⟩
    · simp only [framesLoop, hstep]
      exact e
    · intro x hx
      rw [e2 x hx, hget, if_neg hx]
    · rw [p8]
      simp [Joint.set_pos, Joint.set_ltm]
    · intro k hk
      cases k with
      | zero => exact ⟨b, by simpa using hb, by simp⟩
      | succ k =>
        obtain ⟨b1, hb1, hps⟩ := p10 k (by omega)
        refine ⟨b1, ?_, by simpa using hps⟩
        rw [← hb1, show i + (k + 1) = i + 1 + k by omega]
        refine (frameBase_congr rot h _ sj _ offmat data _ rfl rfl (fun q hq => ?_)).symm
        obtain ⟨hne, -⟩ := hpar q hq
        rw [hget, if_neg hne]

theorem recalculateFrom_succ {F : Type} [Zero F] [One F] [Add F] [Mul F]
    (rot : F → Vec3 F → Mat4 F) (nf : Int) (fuel : Nat) (heap : Heap F) (start : Nat)
    (sj : Joint F) (hs : heap[start]? = some sj) :
    recalculateFrom rot nf (fuel + 1) heap start =
      match framesLoop rot start (offsetMatrix sj.offset) sj.channel_data nf.toNat 0 heap with
      | none => Outcome.fault
      | some heap1 => forChildren (recalculateFrom rot nf fuel) sj.children heap1 := by
  rw [recalculateFrom]
  simp only [hs]

theorem Forest.root_inv {F : Type} {h : Heap F} {p : Option Nat} {id : Nat}
    {ids l : List Nat} (hf : Forest h p (id :: ids) l) :
    ∃ j sub rest, l = id :: (sub ++ rest) ∧ h[id]? = some j ∧ j.parent = p ∧
      Forest h (some id) j.children sub ∧ Forest h p ids rest := by
  cases hf with
  | cons p id j ids sub rest hj hp hsub hrest => exact ⟨j, sub, rest, rfl, hj, hp, hsub, hrest⟩

theorem Forest.nil_inv_forest {F : Type} {h : Heap F} {p : Option Nat} {l : List Nat}
    (hf : Forest h p [] l) : l = [] := by
  cases hf
  rfl

/-- The evaluator on a tree: when the joints below the roots `ids` are pairwise
distinct and have the sample rows they need, and the parent of the roots has its
transforms, the recursion over `ids` succeeds with a budget of the number of joints; it
writes to these joints only, only to their transforms and positions, and leaves each of
them with a transform for every frame. -/
theorem eval_forest {F : Type} [Zero F] [One F] [Add F] [Mul F]
    (rot : F → Vec3 F → Mat4 F) (nf : Int) {h0 : Heap F} {p : Option Nat}
    {ids l : List Nat} (hf : Forest h0 p ids l) :
    l.Nodup → Evaluable nf.toNat h0 l →
    ∀ (fuel : Nat) (h : Heap F), l.length ≤ fuel → Skel h0 h →
      (∀ q, p = some q → q ∉ l ∧ ∃ pj, h[q]? = some pj ∧ nf.toNat ≤ pj.ltm.length) →
      ∃ h1, forChildren (recalculateFrom rot nf fuel) ids h = Outcome.ok h1 ∧ Skel h h1 ∧
        (∀ x, x ∉ l → h1[x]? = h[x]?) ∧
        (∀ x ∈ l, ∃ j1, h1[x]? = some j1 ∧ nf.toNat ≤ j1.ltm.length) := by
  induction hf with
  | nil p =>
    intro _ _ fuel h _ _ _
    exact ⟨h, rfl, Skel.refl h, fun _ _ => rfl, fun x hx => by cases hx⟩
  | cons p id j ids sub rest hj hp hsub hrest ih_sub ih_rest =>
    intro hnd hev fuel h hfuel hsk hpar
    have hnd1 := List.nodup_cons.1 hnd
    have hnd2 := List.nodup_append.1 hnd1.2
    have hid_sub : id ∉ sub := fun hx => hnd1.1 (List.mem_append_left _ hx)
    have hid_rest : id ∉ rest := fun hx => hnd1.1 (List.mem_append_right _ hx)
    cases fuel with
    | zero => simp at hfuel
    | succ f =>
      simp only [List.length_cons, List.length_append] at hfuel
      obtain ⟨sj, hs, s1, s2, s3, s4, s5, s6⟩ := hsk id j hj
      obtain ⟨h1, sj1, ps, e, e1, e2, p1, p2, p3, p4, p5, p6, p7, -, -, -⟩ :=
        framesLoop_ok rot id (offsetMatrix sj.offset) sj.channel_data nf.toNat 0 h sj hs
          (Nat.zero_le _)
          (fun k _ hk => by
            rw [s3, s4]
            exact hev id (by simp) j hj k (by omega))
          (fun q hq => by
            obtain ⟨hql, pj, a1, a2⟩ := hpar q (by rw [← hp, ← s1, hq])
            refine ⟨fun e => hql (by rw [e]; simp), pj, a1, by omega⟩)
      have hsk1 : Skel h h1 := by
        intro x jx hx
        by_cases hxi : x = id
        · subst hxi
          rw [hs] at hx
          cases hx
          exact ⟨sj1, e1, p1, p2, p3, p4, p5, p6⟩
        · exact ⟨jx, by rw [e2 x hxi, hx], rfl, rfl, rfl, rfl, rfl, rfl⟩
      obtain ⟨h2, f2, k2, u2, l2⟩ := ih_sub hnd2.1
        (fun x hx => hev x (by simp [hx])) f h1 (by omega) (hsk.trans hsk1)
        (fun q hq => by
          cases hq
          exact ⟨hid_sub, sj1, e1, by omega⟩)
      have hrec : recalculateFrom rot nf (f + 1) h id = Outcome.ok h2 := by
        rw [recalculateFrom_succ rot nf f h id sj hs, e]
        simp only
        rw [s2]
        exact f2
      obtain ⟨h3, f3, k3, u3, l3⟩ := ih_rest hnd2.2.1
        (fun x hx => hev x (by simp [hx])) (f + 1) h2 (by omega)
        ((hsk.trans hsk1).trans k2)
        (fun q hq => by
          obtain ⟨hql, pj, a1, a2⟩ := hpar q hq
          have hq1 : q ≠ id := fun e => hql (by rw [e]; simp)
          have hq2 : q ∉ sub := fun hx => hql (by simp [hx])
          have hq3 : q ∉ rest := fun hx => hql (by simp [hx])
          exact ⟨hq3, pj, by rw [u2 q hq2, e2 q hq1, a1], a2⟩)
      refine ⟨h3, ?_, (hsk1.trans k2).trans k3, ?_, ?_⟩
      · simp only [forChildren, hrec]
        exact f3
      · intro x hx
        simp only [List.mem_cons, List.mem_append, not_or] at hx
        rw [u3 x hx.2.2, u2 x hx.2.1, e2 x hx.1]
      · intro x hx
        simp only [List.mem_cons, List.mem_append] at hx
        rcases hx with rfl | hx | hx
        · exact ⟨sj1, by rw [u3 x hid_rest, u2 x hid_sub, e1], by omega⟩
        · obtain ⟨j1, a1, a2⟩ := l2 x hx
          have hxr : x ∉ rest := fun hr => hnd2.2.2 hx hr
          exact ⟨j1, by rw [u3 x hxr, a1], a2⟩
        · exact l3 x hx

theorem frameBase_root_translation {F : Type} [Semiring F] (rot : F → Vec3 F → Mat4 F)
    (h : Heap F) (sj : Joint F) (o : Offset F) (data : List (List F)) (k : Nat)
    (row : List F) (hrow : data[k]? = some row)
    (hlen : sj.channels_order.length ≤ row.length) (hpar : sj.parent = none)
    (hpos : ∀ c ∈ sj.channels_order, c.isPosition = true) (hnd : sj.channels_order.Nodup)
    (b : Mat4 F × Mat4 F) (hb : frameBase rot h sj (offsetMatrix o) data k = some b) :
    b.1.translation =
      ⟨o.x + sampleFrom Channel.XPOSITION sj.channels_order 0 row,
       o.y + sampleFrom Channel.YPOSITION sj.channels_order 0 row,
       o.z + sampleFrom Channel.ZPOSITION sj.channels_order 0 row⟩ := by
  obtain ⟨tr1, e, -, p2, p3, p4, p5, p6, p7, p8⟩ := channelsLoop_positional rot data k row
    hrow sj.channels_order 0 (Mat4.identity, Mat4.identity) (by omega) hpos hnd
  unfold frameBase at hb
  rw [e, hpar] at hb
  simp only [localBase, Option.some.injEq] at hb
  subst hb
  simp [Mat4.translation, Mat4.mul, Mat4.mulVec, offsetMatrix, p2, p3, p4, p5, p6, p7, p8,
    Mat4.identity]

/-- C5: for a skeleton that is a tree whose joints have their sample rows, and whose
root joint has zero offset and only positional channels, each at most once,
`recalculateJoints` from the root succeeds and stores for the root one world position
per frame: the position of frame `f` has on each axis the sample of that axis's channel
in frame `f`, and zero for an axis without channel. -/
theorem recalculate_root_position {F D : Type} [Semiring F] (rot : F → Vec3 F → Mat4 F)
    (fuel : Nat) (b : Bvh D) (heap : Heap F) (root : Nat) (j : Joint F) (l : List Nat)
    (hroot : b.root_joint = some root) (hj : heap[root]? = some j)
    (htree : Forest heap none [root] l) (hnd : l.Nodup)
    (hev : Evaluable b.num_frames.toNat heap l) (hfuel : l.length < fuel)
    (hoff : j.offset = ⟨0, 0, 0⟩) (hpos : ∀ c ∈ j.channels_order, c.isPosition = true)
    (hch : j.channels_order.Nodup) :
    ∃ heap1 j1, b.recalculateJoints rot fuel heap none = Outcome.ok heap1 ∧
      heap1[root]? = some j1 ∧
      j1.pos = j.pos ++ (List.range b.num_frames.toNat).map (fun f =>
        (⟨j.sample Channel.XPOSITION f, j.sample Channel.YPOSITION f,
          j.sample Channel.ZPOSITION f⟩ : Vec3 F)) := by
  obtain ⟨j0, sub, rest, el, hj0, hp0, hsub, hrest⟩ := htree.root_inv
  have e0 : j0 = j := by
    rw [hj] at hj0
    exact (Option.some.inj hj0).symm
  subst e0
  have er := hrest.nil_inv_forest
  subst er
  rw [List.append_nil] at el
  subst el
  have hnd1 := List.nodup_cons.1 hnd
  cases fuel with
  | zero => simp at hfuel
  | succ f =>
    simp only [List.length_cons] at hfuel
    have hrows : ∀ k, k < b.num_frames.toNat →
        ∃ row, j0.channel_data[k]? = some row ∧ j0.channels_order.length ≤ row.length :=
      fun k hk => hev root (by simp) j0 hj k hk
    obtain ⟨h1, sj1, ps, e, e1, e2, p1, p2, p3, p4, p5, p6, p7, p8, p9, p10⟩ :=
      framesLoop_ok rot root (offsetMatrix j0.offset) j0.channel_data b.num_frames.toNat 0
        heap j0 hj (Nat.zero_le _) (fun k _ hk => hrows k (by omega))
        (fun q hq => by rw [hp0] at hq; cases hq)
    have hsk1 : Skel heap h1 := by
      intro x jx hx
      by_cases hxi : x = root
      · subst hxi
        rw [hj] at hx
        cases hx
        exact ⟨sj1, e1, p1, p2, p3, p4, p5, p6⟩
      · exact ⟨jx, by rw [e2 x hxi, hx], rfl, rfl, rfl, rfl, rfl, rfl⟩
    obtain ⟨h2, f2, -, u2, -⟩ := eval_forest rot b.num_frames hsub hnd1.2
      (fun x hx => hev x (by simp [hx])) f h1 (by omega) hsk1
      (fun q hq => by
        cases hq
        exact ⟨hnd1.1, sj1, e1, by omega⟩)
    refine ⟨h2, sj1, ?_, by rw [u2 root hnd1.1, e1], ?_⟩
    · unfold Bvh.recalculateJoints
      simp only [hroot]
      rw [recalculateFrom_succ rot b.num_frames f heap root j0 hj, e]
      exact f2
    · rw [p8]
      congr 1
      apply List.ext_getElem?
      intro k
      by_cases hk : k < b.num_frames.toNat
      · obtain ⟨bk, hbk, hpk⟩ := p10 k hk
        obtain ⟨row, hrow, hrl⟩ := hrows k hk
        rw [Nat.zero_add] at hbk
        rw [hpk, List.getElem?_map, List.getElem?_range hk,
          frameBase_root_translation rot heap j0 j0.offset j0.channel_data k row hrow hrl hp0
            hpos hch bk hbk, hoff]
        simp [Joint.sample, hrow]
      · rw [List.getElem?_eq_none (by omega), List.getElem?_eq_none (by simp; omega)]

/-! ## The evaluator without a root, and the parent and child references -/

/-- C16: on a skeleton without root joint, `recalculateJoints` called with a null start
joint returns at once, without a fault and for every recursion budget, and the heap of
joints it returns is the one it was given; the skeleton record is not an output. -/
theorem recalculate_no_root {F D : Type} [Zero F] [One F] [Add F] [Mul F]
    (rot : F → Vec3 F → Mat4 F) (fuel : Nat) (b : Bvh D) (heap : Heap F)
    (hroot : b.root_joint = none) :
    b.recalculateJoints rot fuel heap none = Outcome.ok heap := by
  unfold Bvh.recalculateJoints
  simp only [hroot]

theorem Forest.roots_mem {F : Type} {h : Heap F} {p : Option Nat} {ids l : List Nat}
    (hf : Forest h p ids l) : ∀ x ∈ ids, x ∈ l := by
  induction hf with
  | nil p => exact fun x hx => by cases hx
  | cons p id j ids sub rest _ _ _ _ _ ih2 =>
    intro x hx
    rcases List.mem_cons.1 hx with rfl | hx
    · simp
    · simp [ih2 x hx]

theorem Forest.roots_parent {F : Type} {h : Heap F} {p : Option Nat} {ids l : List Nat}
    (hf : Forest h p ids l) : ∀ x ∈ ids, ∃ j, h[x]? = some j ∧ j.parent = p := by
  induction hf with
  | nil p => exact fun x hx => by cases hx
  | cons p id j ids sub rest hj hp _ _ _ ih2 =>
    intro x hx
    rcases List.mem_cons.1 hx with rfl | hx
    · exact ⟨j, hj, hp⟩
    · exact ih2 x hx

theorem Forest.roots_nodup {F : Type} {h : Heap F} {p : Option Nat} {ids l : List Nat}
    (hf : Forest h p ids l) : l.Nodup → ids.Nodup := by
  induction hf with
  | nil p => exact fun _ => List.nodup_nil
  | cons p id j ids sub rest _ _ _ hrest _ ih2 =>
    intro hnd
    have hnd1 := List.nodup_cons.1 hnd
    have hnd2 := List.nodup_append.1 hnd1.2
    refine List.nodup_cons.2 ⟨fun hx => hnd1.1 ?_, ih2 hnd2.2.1⟩
    exact List.mem_append_right _ (hrest.roots_mem id hx)

/-- In a forest every joint of the traversal is in the heap, its children are joints of
the traversal, each with this joint as its parent reference, and its children list has
no repetition when the traversal has none. -/
theorem Forest.children_of {F : Type} {h : Heap F} {p : Option Nat} {ids l : List Nat}
    (hf : Forest h p ids l) :
    ∀ x ∈ l, ∃ j, h[x]? = some j ∧ (l.Nodup → j.children.Nodup) ∧
      ∀ c ∈ j.children, c ∈ l ∧ ∃ cj, h[c]? = some cj ∧ cj.parent = some x := by
  induction hf with
  | nil p => exact fun x hx => by cases hx
  | cons p id j ids sub rest hj _ hsub _ ih1 ih2 =>
    intro x hx
    simp only [List.mem_cons, List.mem_append] at hx
    rcases hx with rfl | hx | hx
    · refine ⟨j, hj, fun hnd => ?_, fun c hc => ⟨?_, ?_⟩⟩
      · exact hsub.roots_nodup (List.nodup_append.1 (List.nodup_cons.1 hnd).2).1
      · simp [hsub.roots_mem c hc]
      · exact hsub.roots_parent c hc
    · obtain ⟨jx, e, nd, ch⟩ := ih1 x hx
      refine ⟨jx, e, fun hnd => nd (List.nodup_append.1 (List.nodup_cons.1 hnd).2).1,
        fun c hc => ⟨?_, (ch c hc).2⟩⟩
      simp [(ch c hc).1]
    · obtain ⟨jx, e, nd, ch⟩ := ih2 x hx
      refine ⟨jx, e, fun hnd => nd (List.nodup_append.1 (List.nodup_cons.1 hnd).2).2.1,
        fun c hc => ⟨?_, (ch c hc).2⟩⟩
      simp [(ch c hc).1]

/-- In a forest every joint of the traversal is one of the roots or a child of a joint
of the traversal. -/
theorem Forest.parent_of {F : Type} {h : Heap F} {p : Option Nat} {ids l : List Nat}
    (hf : Forest h p ids l) :
    ∀ x ∈ l, x ∈ ids ∨ ∃ q ∈ l, ∃ qj, h[q]? = some qj ∧ x ∈ qj.children := by
  induction hf with
  | nil p => exact fun x hx => by cases hx
  | cons p id j ids sub rest hj _ _ _ ih1 ih2 =>
    intro x hx
    simp only [List.mem_cons, List.mem_append] at hx
    rcases hx with rfl | hx | hx
    · exact Or.inl (by simp)
    · right
      rcases ih1 x hx with hc | ⟨q, hq, qj, e, hc⟩
      · exact ⟨id, by simp, j, hj, hc⟩
      · exact ⟨q, by simp [hq], qj, e, hc⟩
    · rcases ih2 x hx with hc | ⟨q, hq, qj, e, hc⟩
      · exact Or.inl (by simp [hc])
      · exact Or.inr ⟨q, by simp [hq], qj, e, hc⟩

/-- Every successful `parse` on a skeleton without registered joints either left heap
and skeleton alone, or produced a tree below the root joint whose traversal is the
flat joint list, each joint with a sample row per frame and nothing written by the
evaluator. -/
theorem parse_tree {F D : Type} (ng : NumGet F D) (u : Indet F D)
    (content : Option (List Char)) (heap : Heap F) (bvh : Bvh D) (heap1 : Heap F)
    (bvh1 : Bvh D) (hj : bvh.joints = [])
    (h : parse ng u content heap bvh = some (0, heap1, bvh1)) :
    (heap1 = heap ∧ bvh1 = bvh) ∨
    (bvh1.root_joint = some heap.length ∧ Forest heap1 none [heap.length] bvh1.joints ∧
      bvh1.joints.Nodup ∧
      ∀ x ∈ bvh1.joints, ∃ j, heap1[x]? = some j ∧ j.ltm = [] ∧ j.pos = [] ∧
        ∀ f : Nat, f < bvh1.num_frames.toNat →
          ∃ row, j.channel_data[f]? = some row ∧ row.length = j.channels_order.length) := by
  rcases parse_success ng u content heap bvh heap1 bvh1 h with
    e | ⟨st, file, number, P, e1, e2, e3⟩
  · exact Or.inl e
  · right
    have hl : st.bvh.joints = List.range' heap.length (st.heap.length - heap.length) := by
      rw [P.joints, hj, List.nil_append]
    have hnd : st.bvh.joints.Nodup := by
      rw [hl]
      exact List.nodup_range' _ _
    refine ⟨e1, ?_, by rw [e2]; exact hnd, ?_⟩
    · rw [e2, hl]
      refine P.tree.mono (fun x _ j hx => ?_)
      obtain ⟨rows, hrows⟩ := frameLoop_getElem? ng st.bvh.joints hnd bvh1.num_frames.toNat
        file number st.heap x
      rw [e3, hrows, hx]
      exact ⟨_, rfl, rfl, rfl⟩
    · intro x hx
      rw [e2] at hx
      obtain ⟨k, hk, ek⟩ := List.getElem_of_mem hx
      have ek2 : st.bvh.joints.getD k 0 = x := by rw [List.getD_eq_getElem _ _ hk, ek]
      obtain ⟨-, -, -, -, i5⟩ := frameLoop_spec ng st.bvh.joints hnd bvh1.num_frames.toNat
        file number st.heap
      have h5 := i5 k hk
      rw [ek2, ← e3] at h5
      have hx2 : heap.length ≤ x ∧ x < st.heap.length := by
        rw [hl, List.mem_range'_1] at hx
        have := P.len
        omega
      obtain ⟨j0, hj0⟩ : ∃ j0, st.heap[x]? = some j0 :=
        ⟨_, List.getElem?_eq_some.2 ⟨hx2.2, rfl⟩⟩
      have hb := P.blank x j0 hx2.1 hj0
      rw [hj0] at h5
      refine ⟨_, h5, hb.2.1, hb.2.2, fun f hf2 => ?_⟩
      have hcc : chanCount st.heap x = j0.channels_order.length := by
        unfold chanCount
        rw [hj0]
        rfl
      have hle := chanSum_take_le st.heap st.bvh.joints k hk
      rw [ek2, hcc] at hle
      simp only [Joint.addRows, Option.map_some', hb.1, List.nil_append]
      rw [List.getElem?_map, List.getElem?_range hf2]
      refine ⟨_, rfl, ?_⟩
      rw [List.length_take, List.length_drop, readSeq_length, hcc]
      have : (f + 1) * chanSum st.heap st.bvh.joints ≤
          bvh1.num_frames.toNat * chanSum st.heap st.bvh.joints :=
        Nat.mul_le_mul_right _ hf2
      have e : (f + 1) * chanSum st.heap st.bvh.joints =
          f * chanSum st.heap st.bvh.joints + chanSum st.heap st.bvh.joints := by ring
      omega

/-- C20: after a successful `parse` on a fresh skeleton (no registered joint, no root)
the root joint has no parent reference; every child in the children list of a
registered joint is a registered joint whose parent reference is that joint; and every
registered joint other than the root has a parent reference to a registered joint in
whose children list it occurs exactly once. -/
theorem parse_parent_child {F D : Type} (ng : NumGet F D) (u : Indet F D)
    (content : Option (List Char)) (heap : Heap F) (bvh : Bvh D) (heap1 : Heap F)
    (bvh1 : Bvh D) (hj : bvh.joints = []) (hr : bvh.root_joint = none)
    (h : parse ng u content heap bvh = some (0, heap1, bvh1)) :
    (∀ r, bvh1.root_joint = some r → ∃ j, heap1[r]? = some j ∧ j.parent = none) ∧
    (∀ x ∈ bvh1.joints, ∃ j, heap1[x]? = some j ∧
      ∀ c ∈ j.children, c ∈ bvh1.joints ∧ ∃ cj, heap1[c]? = some cj ∧ cj.parent = some x) ∧
    (∀ x ∈ bvh1.joints, bvh1.root_joint ≠ some x →
      ∃ j p pj, heap1[x]? = some j ∧ j.parent = some p ∧ p ∈ bvh1.joints ∧
        heap1[p]? = some pj ∧ pj.children.count x = 1) := by
  rcases parse_tree ng u content heap bvh heap1 bvh1 hj h with ⟨-, e⟩ | ⟨e1, hf, hnd, -⟩
  · subst e
    rw [hj, hr]
    exact ⟨fun r hr => (by cases hr), fun x hx => (by cases hx), fun x hx => (by cases hx)⟩
  · refine ⟨fun r hr => ?_, fun x hx => ?_, fun x hx hne => ?_⟩
    · rw [e1] at hr
      cases hr
      exact hf.roots_parent _ (by simp)
    · obtain ⟨j, e, -, ch⟩ := hf.children_of x hx
      exact ⟨j, e, ch⟩
    · rcases hf.parent_of x hx with hroot | ⟨q, hq, qj, eq, hc⟩
      · rw [List.mem_singleton] at hroot
        rw [e1, hroot] at hne
        exact absurd rfl hne
      · obtain ⟨qj2, eq2, nd, ch⟩ := hf.children_of q hq
        rw [eq] at eq2
        cases eq2
        obtain ⟨-, cj, ec, hp⟩ := ch x hc
        exact ⟨cj, q, qj, ec, hp, hq, eq, List.count_eq_one_of_mem (nd hnd) hc⟩

theorem Bvh.Extends.refl_bvh {D : Type} (b : Bvh D) : b.Extends b :=
  ⟨rfl, rfl, rfl, [], by simp⟩

theorem Bvh.Extends.trans_bvh {D : Type} {a b c : Bvh D} (h1 : a.Extends b)
    (h2 : b.Extends c) : a.Extends c := by
  obtain ⟨a1, a2, a3, l1, a4⟩ := h1
  obtain ⟨b1, b2, b3, l2, b4⟩ := h2
  exact ⟨by rw [b1, a1], by rw [b2, a2], by rw [b3, a3], l1 ++ l2,
    by rw [b4, a4, List.append_assoc]⟩

theorem Bvh.Extends.addJoint_bvh {D : Type} (b : Bvh D) (joint : Nat) :
    b.Extends (b.addJoint joint) :=
  ⟨rfl, rfl, rfl, [joint], rfl⟩

theorem parseJointHead_error_bvh {F D : Type} (ng : NumGet F D) (u : Indet F D)
    (parent : Option Nat) (st : PState F D) (ret : Int) (st1 : PState F D)
    (h : parseJointHead ng u parent st = Except.error (ret, st1)) : st1.bvh = st.bvh := by
  unfold parseJointHead at h
  simp only at h
  split at h
  · split at h
    · generalize parseChannelOrder ng u _ _ st.heap.length = pc at h
      obtain ⟨ret1, file4, heap4⟩ := pc
      simp only at h
      split at h
      · cases h
        rfl
      · cases h
    · cases h
      rfl
  · cases h
    rfl

theorem parseEndSite_error_bvh {F D : Type} (ng : NumGet F D) (u : Indet F D) (joint : Nat)
    (token : List Char) (st : PState F D) (ret : Int) (st1 : PState F D)
    (h : parseEndSite ng u joint token st = Except.error (ret, st1)) : st1.bvh = st.bvh := by
  unfold parseEndSite at h
  simp only at h
  split at h
  · cases h
  · cases h
    rfl

/-- Whatever `parseJoint` and its loop return, all they do to the skeleton is register
joints. -/
theorem parse_extends {F D : Type} (ng : NumGet F D) (u : Indet F D) :
    ∀ n : Nat,
      (∀ (parent : Option Nat) (st : PState F D) (ret : Int) (parsed : Option Nat)
          (st1 : PState F D),
        parseJoint ng u n parent st = some (ret, parsed, st1) → st.bvh.Extends st1.bvh) ∧
      (∀ (joint : Nat) (token : List Char) (cs : List Nat) (st : PState F D) (ret : Int)
          (parsed : Option Nat) (st1 : PState F D),
        childrenLoop ng u n joint token cs st = some (ret, parsed, st1) →
        st.bvh.Extends st1.bvh) := by
  intro n
  induction n with
  | zero =>
    refine ⟨fun parent st ret parsed st1 h => (by cases h), ?_⟩
    intro joint token cs st ret parsed st1 h
    cases hg : st.file.good with
    | true => rw [childrenLoop_zero_good ng u joint token cs st hg] at h; cases h
    | false =>
      rw [childrenLoop_not_good ng u 0 joint token cs st hg] at h
      cases h
      exact Bvh.Extends.refl_bvh _
  | succ n ih =>
    obtain ⟨ihJ, ihL⟩ := ih
    constructor
    · intro parent st ret parsed st1 h
      rw [parseJoint_succ] at h
      cases hh : parseJointHead ng u parent st with
      | error e =>
        obtain ⟨r0, s0⟩ := e
        rw [hh] at h
        cases h
        rw [parseJointHead_error_bvh ng u parent st _ _ hh]
        exact Bvh.Extends.refl_bvh _
      | ok o =>
        obtain ⟨tok, s0⟩ := o
        rw [hh] at h
        simp only at h
        obtain ⟨j, -, -, -, -, e5⟩ := parseJointHead_ok ng u parent st tok s0 hh
        have := ihL st.heap.length tok [] s0 ret parsed st1 h
        rw [e5] at this
        exact (Bvh.Extends.addJoint_bvh _ _).trans_bvh this
    · intro joint token cs st ret parsed st1 h
      cases hg : st.file.good with
      | false =>
        rw [childrenLoop_not_good ng u _ joint token cs st hg] at h
        cases h
        exact Bvh.Extends.refl_bvh _
      | true =>
        by_cases h1 : token = kJoint
        · rw [childrenLoop_joint ng u n joint token cs st hg h1] at h
          cases hp : parseJoint ng u n (some joint) st with
          | none => rw [hp] at h; cases h
          | some r =>
            obtain ⟨r0, child, s0⟩ := r
            rw [hp] at h
            simp only at h
            have Q := ihJ (some joint) st r0 child s0 hp
            by_cases hr0 : r0 = 0
            · rw [if_neg (by simpa using hr0)] at h
              have P := ihL joint _ _ _ ret parsed st1 h
              exact Q.trans_bvh P
            · rw [if_pos (by simpa using hr0)] at h
              cases h
              exact Q
        · by_cases h2 : token = kEnd
          · rw [childrenLoop_end ng u n joint token cs st hg h2] at h
            cases hh : parseEndSite ng u joint token st with
            | error e =>
              obtain ⟨r0, s0⟩ := e
              rw [hh] at h
              cases h
              rw [parseEndSite_error_bvh ng u joint token st _ _ hh]
              exact Bvh.Extends.refl_bvh _
            | ok o =>
              obtain ⟨tok, s0⟩ := o
              rw [hh] at h
              simp only at h
              obtain ⟨j, -, -, -, -, -, -, e5⟩ := parseEndSite_ok ng u joint token st tok s0 hh
              have := ihL joint _ _ _ ret parsed st1 h
              simp only [e5] at this
              exact (Bvh.Extends.addJoint_bvh _ _).trans_bvh this
          · by_cases h3 : token = kClose
            · rw [childrenLoop_close ng u n joint token cs st hg h3] at h
              cases h
              exact Bvh.Extends.refl_bvh _
            · rw [childrenLoop_skip ng u n joint token cs st hg h1 h2 h3] at h
              have P := ihL joint _ _ _ ret parsed st1 h
              exact P

theorem parseMotion_joints {F D : Type} (ng : NumGet F D) (u : Indet F D)
    (st : PState F D) : (parseMotion ng u st).2.bvh.joints = st.bvh.joints := by
  unfold parseMotion
  simp only
  split
  · split <;> rfl
  · rfl

theorem parseHierarchyMotion_joints {F D : Type} (ng : NumGet F D) (u : Indet F D)
    (token : List Char) (st : PState F D) :
    (parseHierarchyMotion ng u token st).2.bvh.joints = st.bvh.joints := by
  unfold parseHierarchyMotion
  simp only
  split
  · split
    · split
      · exact parseMotion_joints ng u _
      · exact parseMotion_joints ng u _
    · rfl
  · rfl

theorem Bvh.Extends.eq_of_joints {D : Type} {b b1 : Bvh D} (h : b.Extends b1)
    (hj : b1.joints = b.joints) : b1 = b := by
  obtain ⟨a1, a2, a3, -⟩ := h
  cases b
  cases b1
  simp only at a1 a2 a3 hj
  subst a1 a2 a3 hj
  rfl

theorem parseHierarchy_failure {F D : Type} (ng : NumGet F D) (u : Indet F D) (fuel : Nat)
    (st : PState F D) (ret : Int) (st1 : PState F D)
    (h : parseHierarchy ng u fuel st = some (ret, st1)) (hret : ret ≠ 0) :
    (∃ l, st1.bvh.joints = st.bvh.joints ++ l) ∧
      (st1.bvh.joints = st.bvh.joints → st1.bvh = st.bvh) := by
  unfold parseHierarchy at h
  simp only at h
  split at h
  · split at h
    · cases hp : parseJoint ng u fuel none ⟨(getString st.file []).1, st.heap, st.bvh⟩ with
      | none => rw [hp] at h; cases h
      | some r =>
        obtain ⟨r0, root, s0⟩ := r
        rw [hp] at h
        simp only at h
        have Q := (parse_extends ng u fuel).1 none _ r0 root s0 hp
        simp only at Q
        by_cases hr0 : r0 = 0
        · rw [if_neg (by simpa using hr0)] at h
          obtain ⟨-, P⟩ := (parse_invariant ng u fuel).1 none _ r0 root s0 hp hr0
          simp only at P
          have hj := parseHierarchyMotion_joints ng u (getString st.file []).2
            ⟨s0.file, s0.heap, s0.bvh.setRootJoint root⟩
          have e := Option.some.inj h
          rw [e] at hj
          simp only [Bvh.setRootJoint] at hj
          have hlen := P.len
          refine ⟨⟨_, by rw [hj, P.joints]⟩, fun hh => ?_⟩
          rw [hj, P.joints] at hh
          have := congrArg List.length hh
          simp only [List.length_append, List.length_range'] at this
          omega
        · rw [if_pos (by simpa using hr0)] at h
          cases h
          exact ⟨Q.2.2.2, Q.eq_of_joints⟩
    · cases h
      exact ⟨⟨[], by simp⟩, fun _ => rfl⟩
  · rename_i hg
    have e := Option.some.inj h
    unfold parseHierarchyMotion at e
    rw [if_neg hg] at e
    cases e
    exact absurd rfl hret

/-- A failed `parse` keeps the joints that were registered in the skeleton before the
call and may have registered more (the flat list of before is a prefix of the flat list
of after); the skeleton is left exactly as it was when no joint was registered. -/
theorem parse_failure_frame {F D : Type} (ng : NumGet F D) (u : Indet F D)
    (content : Option (List Char)) (heap : Heap F) (bvh : Bvh D) (ret : Int)
    (heap1 : Heap F) (bvh1 : Bvh D)
    (h : parse ng u content heap bvh = some (ret, heap1, bvh1)) (hret : ret ≠ 0) :
    (∃ l, bvh1.joints = bvh.joints ++ l) ∧ (bvh1.joints = bvh.joints → bvh1 = bvh) := by
  unfold parse at h
  cases content with
  | none =>
    cases h
    exact ⟨⟨[], by simp⟩, fun _ => rfl⟩
  | some cs =>
    simp only at h
    split at h
    · cases hp : parseHierarchy ng u (2 * cs.length + 2)
          ⟨(getString (IStream.ofContent cs) []).1, heap, bvh⟩ with
      | none => rw [hp] at h; cases h
      | some r =>
        obtain ⟨r0, s0⟩ := r
        rw [hp] at h
        simp only at h
        have hres : r0 = ret ∧ s0.bvh = bvh1 := by
          split at h
          · cases h
            exact ⟨rfl, rfl⟩
          · rename_i hz
            cases h
            exact ⟨by simpa using hz, rfl⟩
        obtain ⟨e1, e2⟩ := hres
        subst e1 e2
        exact parseHierarchy_failure ng u _ _ r0 s0 hp hret
    · cases h
      exact ⟨⟨[], by simp⟩, fun _ => rfl⟩

/-! ## Failure inside the hierarchy -/

theorem channelLoop_bad (bad : List Char) (tail : List (List Char))
    (hbad : channelOfToken bad = none) :
    ∀ (good : List Channel) (n : Nat) (file : IStream) (token : List Char)
      (acc : List Channel) (rest : List Char),
      At file (good.map chanToken ++ bad :: tail) rest → good.length < n →
      (channelLoop n file token acc).2 = none
  | [], n, file, token, acc, rest, h, hn => by
    cases n with
    | zero => simp at hn
    | succ n =>
      obtain ⟨e, -⟩ := getString_at (t := bad) h token
      simp only [channelLoop]
      rw [e, hbad]
  | c :: good, n, file, token, acc, rest, h, hn => by
    cases n with
    | zero => simp at hn
    | succ n =>
      obtain ⟨e, h1⟩ := getString_at (t := chanToken c) h token
      simp only [channelLoop]
      rw [e, channelOfToken_chanToken]
      simp only
      exact channelLoop_bad bad tail hbad good n _ _ _ rest h1
        (by simp only [List.length_cons] at hn; omega)

/-- Function `parseChannelOrder` on a declaration with count `k` in which, after fewer
than `k` channel names, a token follows that is no channel name: it returns -1. -/
theorem parseChannelOrder_bad {F D : Type} (ng : NumGet F D) (u : Indet F D)
    (file : IStream) (heap : Heap F) (joint : Nat) (n : List Char) (k : Int)
    (good : List Channel) (bad : List Char) (tail : List (List Char)) (rest : List Char)
    (h : At file (n :: (good.map chanToken ++ bad :: tail)) rest)
    (hn : ng.int.Reads n k) (hk : (good.length : Int) < k)
    (hbad : channelOfToken bad = none) :
    (parseChannelOrder ng u file heap joint).1 = -1 := by
  obtain ⟨e, h1⟩ := extract_at ng.int h (u.num joint) k hn
  have hc := channelLoop_bad bad tail hbad good (extract ng.int file (u.num joint)).2.toNat
    (extract ng.int file (u.num joint)).1 [] [] rest h1 (by rw [e]; omega)
  unfold parseChannelOrder
  generalize channelLoop _ _ [] [] = r at hc
  obtain ⟨f1, chs⟩ := r
  simp only at hc
  subst hc
  rfl

theorem parseJointHead_bad_channels {F D : Type} (ng : NumGet F D) (u : Indet F D)
    (parent : Option Nat) (st : PState F D) (toks : List (List Char)) (rest : List Char)
    (hb : BadChannels ng toks) (h : At st.file toks rest) :
    ∃ st1, parseJointHead ng u parent st = Except.error (-1, st1) := by
  cases hb with
  | intro name x y z n o k good bad tail ho hn hk hbad =>
    obtain ⟨-, h1⟩ := getString_at h []
    obtain ⟨-, h2⟩ := getString_at h1 []
    obtain ⟨e3, h3⟩ := getString_at h2 (getString (getString st.file []).1 []).2
    obtain ⟨-, h4⟩ := readOffset_at ng _ (u.local_offset st.heap.length) o x y z _ rest h3 ho
    obtain ⟨e5, h5⟩ := getString_at h4
      (getString (getString (getString st.file []).1 []).1
        (getString (getString st.file []).1 []).2).2
    have e6 := parseChannelOrder_bad ng u _
      (((st.heap ++ [(Joint.fresh u st.heap.length).set_parent parent]).upd st.heap.length
        (Joint.set_name (getString st.file []).2)).upd st.heap.length
        (Joint.set_offset (readOffset ng (getString (getString (getString st.file []).1 []).1
          (getString (getString st.file []).1 []).2).1
          (u.local_offset st.heap.length)).2))
      st.heap.length n k good bad tail rest h5 hn hk hbad
    unfold parseJointHead
    simp only
    rw [if_pos e3, if_pos e5]
    generalize parseChannelOrder ng u _ _ st.heap.length = pc at e6
    obtain ⟨ret1, file4, heap4⟩ := pc
    simp only at e6
    subst e6
    exact ⟨_, rfl⟩

theorem parseJointHead_bad_section {F D : Type} (ng : NumGet F D) (u : Indet F D)
    (parent : Option Nat) (st : PState F D) (toks : List (List Char)) (rest : List Char)
    (hb : BadSection ng toks) (h : At st.file toks rest) :
    ∃ st1, parseJointHead ng u parent st = Except.error (-1, st1) := by
  cases hb with
  | noOffset name t tail ht =>
    obtain ⟨-, h1⟩ := getString_at h []
    obtain ⟨-, h2⟩ := getString_at h1 []
    obtain ⟨e3, -⟩ := getString_at h2 (getString (getString st.file []).1 []).2
    unfold parseJointHead
    simp only
    rw [if_neg (by rw [e3]; exact ht)]
    exact ⟨_, rfl⟩
  | noChannels name x y z o t tail ho ht =>
    obtain ⟨-, h1⟩ := getString_at h []
    obtain ⟨-, h2⟩ := getString_at h1 []
    obtain ⟨e3, h3⟩ := getString_at h2 (getString (getString st.file []).1 []).2
    obtain ⟨-, h4⟩ := readOffset_at ng _ (u.local_offset st.heap.length) o x y z _ rest h3 ho
    obtain ⟨e5, -⟩ := getString_at h4
      (getString (getString (getString st.file []).1 []).1
        (getString (getString st.file []).1 []).2).2
    unfold parseJointHead
    simp only
    rw [if_pos e3, if_neg (by rw [e5]; exact ht)]
    exact ⟨_, rfl⟩

theorem ChildrenUpTo.ne_nil_upto {F D : Type} {ng : NumGet F D}
    {P : List (List Char) → Prop} {toks : List (List Char)} (h : ChildrenUpTo ng P toks) :
    ∃ t more, toks = t :: more := by
  cases h <;> exact ⟨_, _, rfl⟩

/-- The loop of `parseJoint` on a children sequence that is well-formed up to a joint on
which the head of `parseJoint` returns -1: the loop returns -1 as well. -/
theorem childrenLoop_upto {F D : Type} (ng : NumGet F D) (u : Indet F D)
    (P : List (List Char) → Prop)
    (hP : ∀ toks, P toks → ∀ (parent : Option Nat) (st : PState F D) (rest : List Char),
      At st.file toks rest → ∃ st1, parseJointHead ng u parent st = Except.error (-1, st1))
    {toks : List (List Char)} (hc : ChildrenUpTo ng P toks) :
    ∀ (t0 : List Char) (more : List (List Char)), toks = t0 :: more →
    ∀ (fuel joint : Nat) (cs : List Nat) (st : PState F D) (rest : List Char),
      At st.file more rest →
      ∀ (ret : Int) (parsed : Option Nat) (st1 : PState F D),
        childrenLoop ng u fuel joint t0 cs st = some (ret, parsed, st1) → ret = -1 := by
  induction hc with
  | here toks1 hp =>
    intro t0 more e
    cases e
    intro fuel joint cs st rest hat ret parsed st1 hr
    cases hg : st.file.good with
    | false =>
      rw [childrenLoop_not_good ng u fuel joint _ cs st hg] at hr
      cases hr
      rfl
    | true =>
      cases fuel with
      | zero => rw [childrenLoop_zero_good ng u joint _ cs st hg] at hr; cases hr
      | succ f =>
        rw [childrenLoop_joint ng u f joint _ cs st hg rfl] at hr
        cases f with
        | zero => cases hr
        | succ f =>
          rw [parseJoint_succ] at hr
          obtain ⟨s1, e1⟩ := hP _ hp (some joint) st rest hat
          rw [e1] at hr
          simp only at hr
          rw [if_pos (by decide)] at hr
          cases hr
          rfl
  | inside name x y z n o chans inner ho hn hinner ih =>
    intro t0 more e
    cases e
    intro fuel joint cs st rest hat ret parsed st1 hr
    have hg := hat.good (Or.inl (by simp [headTokens]))
    obtain ⟨t1, more1, e4⟩ := hinner.ne_nil_upto
    subst e4
    cases fuel with
    | zero => rw [childrenLoop_zero_good ng u joint _ cs st hg] at hr; cases hr
    | succ f =>
      rw [childrenLoop_joint ng u f joint _ cs st hg rfl] at hr
      cases f with
      | zero => cases hr
      | succ f =>
        rw [parseJoint_succ] at hr
        obtain ⟨s1, e1, h1, -, -⟩ := parseJointHead_at ng u (some joint) st name x y z n o
          chans t1 _ rest hat ho hn
        rw [e1] at hr
        simp only at hr
        cases hin : childrenLoop ng u f st.heap.length t1 [] s1 with
        | none => rw [hin] at hr; cases hr
        | some r =>
          obtain ⟨r0, child, s0⟩ := r
          rw [hin] at hr
          simp only at hr
          have b0 := ih t1 more1 rfl f st.heap.length [] s1 rest h1 r0 child s0 hin
          subst b0
          rw [if_pos (by decide)] at hr
          cases hr
          rfl
  | afterEnd x y z o rest1 ho hrest ih =>
    intro t0 more e
    cases e
    intro fuel joint cs st rest hat ret parsed st1 hr
    have hg := hat.good (Or.inl (by simp))
    cases fuel with
    | zero => rw [childrenLoop_zero_good ng u joint _ cs st hg] at hr; cases hr
    | succ f =>
      rw [childrenLoop_end ng u f joint _ cs st hg rfl] at hr
      obtain ⟨s1, e1, h1, -, -⟩ := parseEndSite_at ng u joint kEnd st x y z o _ rest hat ho
      rw [e1] at hr
      simp only at hr
      obtain ⟨t2, more2, e4⟩ := hrest.ne_nil_upto
      subst e4
      obtain ⟨e5, h5⟩ := getString_at h1 kClose
      rw [e5] at hr
      exact ih t2 more2 rfl f joint _ ⟨(getString s1.file kClose).1, s1.heap, s1.bvh⟩ rest h5
        ret parsed st1 hr
  | afterJoint name x y z n o chans inner rest1 ii ho hn hinner hrest ih =>
    intro t0 more e
    cases e
    intro fuel joint cs st rest hat ret parsed st1 hr
    have hg := hat.good (Or.inl (by simp [headTokens]))
    obtain ⟨t2, more2, e5⟩ := hrest.ne_nil_upto
    subst e5
    cases fuel with
    | zero => rw [childrenLoop_zero_good ng u joint _ cs st hg] at hr; cases hr
    | succ f =>
      rw [childrenLoop_joint ng u f joint _ cs st hg rfl] at hr
      cases hp : parseJoint ng u f (some joint) st with
      | none => rw [hp] at hr; cases hr
      | some r =>
        obtain ⟨r0, child, s0⟩ := r
        rw [hp] at hr
        simp only at hr
        obtain ⟨A, -⟩ := parseJoint_wf ng u name x y z n o chans inner ii ho hn hinner st
          (t2 :: more2) rest hat f (some joint) r0 child s0 hp
        obtain ⟨b0, b1, -, -⟩ := A (Or.inl (by simp))
        subst b0
        rw [if_neg (by simp)] at hr
        obtain ⟨e6, h6⟩ := getString_at b1 kJoint
        rw [e6] at hr
        exact ih t2 more2 rfl f joint _ ⟨(getString s0.file kJoint).1, s0.heap, s0.bvh⟩ rest
          h6 ret parsed st1 hr

/-- Function `parse` on an input that is well-formed up to a joint on which the head of
`parseJoint` returns -1: every enclosing call hands the -1 on and `parse` returns it. -/
theorem parse_upto {F D : Type} (ng : NumGet F D) (u : Indet F D)
    (P : List (List Char) → Prop)
    (hP : ∀ toks, P toks → ∀ (parent : Option Nat) (st : PState F D) (rest : List Char),
      At st.file toks rest → ∃ st1, parseJointHead ng u parent st = Except.error (-1, st1))
    (input : List Char) (toks : List (List Char)) (rest : List Char)
    (hl : Lexes input (kHierarchy :: toks) rest) (hb : HierarchyUpTo ng P toks)
    (heap : Heap F) (bvh : Bvh D) :
    ∃ heap1 bvh1, parse ng u (some input) heap bvh = some (-1, heap1, bvh1) := by
  have h0 := At.ofContent hl
  obtain ⟨e1, h1⟩ := getString_at h0 []
  have hlen1 := getString_length_le (IStream.ofContent input) []
  have hlen2 := getString_length_le (getString (IStream.ofContent input) []).1 []
  obtain ⟨r, hr, -⟩ := (parseJoint_childrenLoop_total ng u (2 * input.length + 2)).1 none
    ⟨(getString (getString (IStream.ofContent input) []).1 []).1, heap, bvh⟩
    (by simp only [IStream.ofContent] at hlen1 hlen2 ⊢; omega)
  obtain ⟨ret, root, st1⟩ := r
  have hret : ret = -1 := by
    cases hb with
    | here toks1 hp =>
      obtain ⟨-, h2⟩ := getString_at h1 []
      rw [parseJoint_succ] at hr
      obtain ⟨s1, e2⟩ := hP _ hp none
        ⟨(getString (getString (IStream.ofContent input) []).1 []).1, heap, bvh⟩ rest h2
      rw [e2] at hr
      cases hr
      rfl
    | inside name x y z n o chans inner ho hn hinner =>
      obtain ⟨-, h2⟩ := getString_at h1 []
      obtain ⟨t1, more1, e4⟩ := hinner.ne_nil_upto
      subst e4
      rw [parseJoint_succ] at hr
      obtain ⟨s1, e2, h3, -, -⟩ := parseJointHead_at ng u none
        ⟨(getString (getString (IStream.ofContent input) []).1 []).1, heap, bvh⟩
        name x y z n o chans t1 _ rest h2 ho hn
      rw [e2] at hr
      simp only at hr
      exact childrenLoop_upto ng u P hP hinner t1 more1 rfl _ _ [] s1 rest h3 ret root st1 hr
  subst hret
  have hg1 : (getString (IStream.ofContent input) []).1.good = true := by
    cases hb <;> exact h1.good (Or.inl (by simp))
  have e2 : (getString (getString (IStream.ofContent input) []).1 []).2 = kRoot := by
    cases hb <;> exact (getString_at h1 []).1
  refine ⟨st1.heap, st1.bvh, ?_⟩
  rw [parse_eq, if_pos e1,
    parseHierarchy_root ng u _ ⟨(getString (IStream.ofContent input) []).1, heap, bvh⟩
      hg1 e2 (-1) root st1 hr]
  rfl

/-- C11: an input that is well-formed up to a joint, the root or one at any depth below
it, whose `CHANNELS` declaration has the count `k` and, among the `k` tokens after the
count, one that is none of the six channel names: `parseChannelOrder` returns -1 there
(`parseChannelOrder_bad`), every enclosing `parseJoint` returns it in turn, and `parse`
returns -1. -/
theorem parse_bad_channel_fails {F D : Type} (ng : NumGet F D) (u : Indet F D)
    (input : List Char) (toks : List (List Char)) (rest : List Char)
    (hl : Lexes input (kHierarchy :: toks) rest)
    (hb : HierarchyUpTo ng (BadChannels ng) toks) (heap : Heap F) (bvh : Bvh D) :
    ∃ heap1 bvh1, parse ng u (some input) heap bvh = some (-1, heap1, bvh1) :=
  parse_upto ng u (BadChannels ng)
    (fun toks1 hp parent st rest1 hat =>
      parseJointHead_bad_channels ng u parent st toks1 rest1 hp hat)
    input toks rest hl hb heap bvh

/-- A joint section out of place: an input that is well-formed up to a joint, the root
or one at any depth below it, in which the token after the opening brace is not
`OFFSET` or the token after the three offset numbers is not `CHANNELS`, makes `parse`
return -1. -/
theorem parse_bad_section_fails {F D : Type} (ng : NumGet F D) (u : Indet F D)
    (input : List Char) (toks : List (List Char)) (rest : List Char)
    (hl : Lexes input (kHierarchy :: toks) rest)
    (hb : HierarchyUpTo ng (BadSection ng) toks) (heap : Heap F) (bvh : Bvh D) :
    ∃ heap1 bvh1, parse ng u (some input) heap bvh = some (-1, heap1, bvh1) :=
  parse_upto ng u (BadSection ng)
    (fun toks1 hp parent st rest1 hat =>
      parseJointHead_bad_section ng u parent st toks1 rest1 hp hat)
    input toks rest hl hb heap bvh

/-! ## End Sites -/

theorem ChildrenAt.children {F D : Type} {ng : NumGet F D} {encl next : Nat}
    {toks : List (List Char)} {infos : List (NodeInfo F)} {sites : List (Site F)}
    (h : ChildrenAt ng encl next toks infos sites) : Children ng toks infos := by
  induction h with
  | close encl next => exact Children.close
  | endSite encl next x y z o rest infos sites ho _ ih =>
    exact Children.endSite x y z o rest infos ho ih
  | joint encl next name x y z n o chans inner rest ii ir si sr ho hn _ _ ih1 ih2 =>
    exact Children.joint name x y z n o chans inner rest ii ir ho hn ih1 ih2

theorem HierarchyAt.hierarchy {F D : Type} {ng : NumGet F D} {toks : List (List Char)}
    {infos : List (NodeInfo F)} {sites : List (Site F)}
    (h : HierarchyAt ng toks infos sites) : Hierarchy ng toks infos := by
  cases h with
  | root name x y z n o chans inner ii sites ho hn hc =>
    exact Hierarchy.root name x y z n o chans inner ii ho hn hc.children

theorem WellFormedAt.wellFormed {F D : Type} {ng : NumGet F D} {input : List Char}
    {infos : List (NodeInfo F)} {sites : List (Site F)} {frames : Int} {time : D}
    {vals : List F} (h : WellFormedAt ng input infos sites frames time vals) :
    WellFormed ng input infos frames time vals := by
  obtain ⟨hier, header, nums, rest, a1, a2, a3, a4, a5, a6⟩ := h
  exact ⟨hier, header, nums, rest, a1, a2, a3.hierarchy, a4, a5, a6⟩

/-- Positions of the End Sites of a children sequence: each lies in the sequence, and
its enclosing joint is the joint of the sequence or a node of the sequence before it. -/
theorem ChildrenAt.range {F D : Type} {ng : NumGet F D} {encl next : Nat}
    {toks : List (List Char)} {infos : List (NodeInfo F)} {sites : List (Site F)}
    (h : ChildrenAt ng encl next toks infos sites) :
    ∀ s ∈ sites, next ≤ s.pos ∧ s.pos < next + infos.length ∧
      (s.encl = encl ∨ (next ≤ s.encl ∧ s.encl < next + infos.length)) := by
  induction h with
  | close encl next => exact fun s hs => by cases hs
  | endSite encl next x y z o rest infos sites ho _ ih =>
    intro s hs
    rcases List.mem_cons.1 hs with rfl | hs
    · simp
    · obtain ⟨a, b, c⟩ := ih s hs
      simp only [List.length_cons]
      refine ⟨by omega, by omega, ?_⟩
      rcases c with c | c
      · exact Or.inl c
      · exact Or.inr ⟨by omega, by omega⟩
  | joint encl next name x y z n o chans inner rest ii ir si sr ho hn _ _ ih1 ih2 =>
    intro s hs
    simp only [List.length_cons, List.length_append]
    rcases List.mem_append.1 hs with hs | hs
    · obtain ⟨a, b, c⟩ := ih1 s hs
      refine ⟨by omega, by omega, Or.inr ?_⟩
      rcases c with c | c
      · exact ⟨by omega, by omega⟩
      · exact ⟨by omega, by omega⟩
    · obtain ⟨a, b, c⟩ := ih2 s hs
      refine ⟨by omega, by omega, ?_⟩
      rcases c with c | c
      · exact Or.inl c
      · exact Or.inr ⟨by omega, by omega⟩

/-- The loop of `parseJoint` on a well-formed children sequence: every End Site block of
the sequence, nested ones included, ends up in the heap as a leaf of the joint that
encloses it in the text. -/
theorem childrenLoop_sites {F D : Type} (ng : NumGet F D) (u : Indet F D)
    {encl next : Nat} {toks : List (List Char)} {infos : List (NodeInfo F)}
    {sites : List (Site F)} (hc : ChildrenAt ng encl next toks infos sites) :
    ∀ (t0 : List Char) (more : List (List Char)), toks = t0 :: more →
    ∀ (fuel n0 : Nat) (cs : List Nat) (st : PState F D) (tail : List (List Char))
      (rest : List Char),
      At st.file (more ++ tail) rest → st.heap.length = n0 + next → encl < next →
      (tail ≠ [] ∨ rest ≠ []) →
      ∀ (ret : Int) (parsed : Option Nat) (st1 : PState F D),
        childrenLoop ng u fuel (n0 + encl) t0 cs st = some (ret, parsed, st1) →
        SitesAt st1.heap n0 sites := by
  induction hc with
  | close encl next =>
    intro t0 more _ fuel n0 cs st tail rest _ _ _ _ ret parsed st1 _ s hs
    cases hs
  | endSite encl next x y z o rest1 infos sites ho hrest ih =>
    intro t0 more e
    cases e
    intro fuel n0 cs st tail rest hat hlen hen hne ret parsed st1 hr
    simp only [List.cons_append] at hat
    have hg := hat.good (Or.inl (by simp))
    cases fuel with
    | zero => rw [childrenLoop_zero_good ng u _ _ cs st hg] at hr; cases hr
    | succ f =>
      rw [childrenLoop_end ng u f _ _ cs st hg rfl] at hr
      obtain ⟨s1, e1, h1, e2, e3⟩ := parseEndSite_at ng u (n0 + encl) kEnd st x y z o _ rest
        hat ho
      rw [e1] at hr
      simp only at hr
      obtain ⟨t2, more2, e4⟩ := hrest.children.ne_nil
      subst e4
      rw [List.cons_append] at h1
      obtain ⟨e5, h5⟩ := getString_at h1 kClose
      rw [e5] at hr
      have hl1 : s1.heap.length = st.heap.length + 1 := by rw [e2]; simp
      have hjl : n0 + encl < s1.heap.length := by omega
      obtain ⟨A, -⟩ := childrenLoop_wf ng u hrest.children t2 more2 rfl f (n0 + encl) _
        ⟨(getString s1.file kClose).1, s1.heap, s1.bvh⟩ tail rest h5 hjl ret parsed st1 hr
      obtain ⟨a0, -, -, -⟩ := A hne
      obtain ⟨-, P⟩ := (parse_invariant ng u f).2 (n0 + encl) _ _
        ⟨(getString s1.file kClose).1, s1.heap, s1.bvh⟩ ret parsed st1 hjl hr a0
      simp only at P
      have S := ih t2 more2 rfl f n0 _ ⟨(getString s1.file kClose).1, s1.heap, s1.bvh⟩ tail
        rest h5 (by simp only; omega) (by omega) hne ret parsed st1 hr
      intro s hs
      rcases List.mem_cons.1 hs with rfl | hs
      · obtain ⟨kids, hk1, -⟩ := P.self
        obtain ⟨pj0, hpj0⟩ : ∃ pj0, s1.heap[n0 + encl]? = some pj0 :=
          ⟨_, List.getElem?_eq_some.2 ⟨hjl, rfl⟩⟩
        refine ⟨endJoint u st.heap.length (n0 + encl) o,
          pj0.set_children ((cs ++ [st.heap.length]) ++ kids), ?_, rfl, rfl, rfl, rfl, rfl,
          ?_, ?_⟩
        · simp only
          rw [← hlen, P.old _ (by omega) (by omega), e2]
          simp
        · rw [hk1, hpj0]
          rfl
        · simp [Joint.set_children, hlen]
      · exact S s hs
  | joint encl next name x y z n o chans inner rest1 ii ir si sr ho hn hinner hrest ih1 ih2 =>
    intro t0 more e
    cases e
    intro fuel n0 cs st tail rest hat hlen hen hne ret parsed st1 hr
    have hg := hat.good (Or.inl (by simp [headTokens]))
    obtain ⟨t1, more1, e4⟩ := hinner.children.ne_nil
    subst e4
    obtain ⟨t2, more2, e5⟩ := hrest.children.ne_nil
    subst e5
    cases fuel with
    | zero => rw [childrenLoop_zero_good ng u _ _ cs st hg] at hr; cases hr
    | succ f =>
      rw [childrenLoop_joint ng u f _ _ cs st hg rfl] at hr
      cases f with
      | zero => cases hr
      | succ f =>
        rw [parseJoint_succ] at hr
        have hat2 : At st.file (headTokens name x y z n chans ++
            (t1 :: (more1 ++ ((t2 :: more2) ++ tail)))) rest := by
          simpa [List.append_assoc] using hat
        obtain ⟨s1, e1, h1, e2, e3⟩ := parseJointHead_at ng u (some (n0 + encl)) st name x y z
          n o chans t1 _ rest hat2 ho hn
        rw [e1] at hr
        simp only at hr
        have hl1 : s1.heap.length = st.heap.length + 1 := by rw [e2]; simp
        cases hin : childrenLoop ng u f st.heap.length t1 [] s1 with
        | none => rw [hin] at hr; cases hr
        | some r =>
          obtain ⟨r0, child, s0⟩ := r
          rw [hin] at hr
          simp only at hr
          obtain ⟨A1, -⟩ := childrenLoop_wf ng u hinner.children t1 more1 rfl f st.heap.length
            [] s1 ((t2 :: more2) ++ tail) rest h1 (by omega) r0 child s0 hin
          obtain ⟨b0, b1, b2, -⟩ := A1 (Or.inl (by simp))
          have S1 : SitesAt s0.heap n0 si := by
            have hin2 : childrenLoop ng u f (n0 + next) t1 [] s1 = some (r0, child, s0) := by
              rw [← hlen]
              exact hin
            exact ih1 t1 more1 rfl f n0 [] s1 ((t2 :: more2) ++ tail) rest h1 (by omega)
              (by omega) (Or.inl (by simp)) r0 child s0 hin2
          subst b0
          rw [if_neg (by simp)] at hr
          rw [List.cons_append] at b1
          obtain ⟨e6, h6⟩ := getString_at b1 kJoint
          rw [e6] at hr
          have hjl : n0 + encl < s0.heap.length := by omega
          obtain ⟨A, -⟩ := childrenLoop_wf ng u hrest.children t2 more2 rfl (f + 1)
            (n0 + encl) _ ⟨(getString s0.file kJoint).1, s0.heap, s0.bvh⟩ tail rest h6 hjl
            ret parsed st1 hr
          obtain ⟨a0, -, -, -⟩ := A hne
          obtain ⟨-, P⟩ := (parse_invariant ng u (f + 1)).2 (n0 + encl) _ _
            ⟨(getString s0.file kJoint).1, s0.heap, s0.bvh⟩ ret parsed st1 hjl hr a0
          simp only at P
          have S2 := ih2 t2 more2 rfl (f + 1) n0 _
            ⟨(getString s0.file kJoint).1, s0.heap, s0.bvh⟩ tail rest h6
            (by simp only; omega) (by omega) hne ret parsed st1 hr
          intro s hs
          rcases List.mem_append.1 hs with hs | hs
          · obtain ⟨j, pj, c1, c2, c3, c4, c5, c6, c7, c8⟩ := S1 s hs
            obtain ⟨r1, r2, r3⟩ := hinner.range s hs
            have r4 : next ≤ s.encl ∧ s.encl < next + 1 + ii.length := by
              rcases r3 with r3 | r3 <;> omega
            refine ⟨j, pj, ?_, c2, c3, c4, c5, c6, ?_, c8⟩
            · rw [P.old _ (by omega) (by omega)]
              exact c1
            · rw [P.old _ (by omega) (by omega)]
              exact c7
          · exact S2 s hs

theorem parseJoint_sites {F D : Type} (ng : NumGet F D) (u : Indet F D)
    (name x y z n : List Char) (o : Offset F) (chans : List Channel)
    (inner : List (List Char)) (ii : List (NodeInfo F)) (sites : List (Site F))
    (ho : ReadsOffset ng x y z o) (hn : ng.int.Reads n chans.length)
    (hinner : ChildrenAt ng 0 1 inner ii sites)
    (st : PState F D) (tail : List (List Char)) (rest : List Char)
    (hat : At st.file (headTokens name x y z n chans ++ (inner ++ tail)) rest)
    (hne : tail ≠ [] ∨ rest ≠ [])
    (fuel : Nat) (parent : Option Nat) (ret : Int) (parsed : Option Nat) (st1 : PState F D)
    (hr : parseJoint ng u fuel parent st = some (ret, parsed, st1)) :
    SitesAt st1.heap st.heap.length sites := by
  obtain ⟨t1, more1, e4⟩ := hinner.children.ne_nil
  subst e4
  cases fuel with
  | zero => cases hr
  | succ f =>
    rw [parseJoint_succ] at hr
    obtain ⟨s1, e1, h1, e2, e3⟩ := parseJointHead_at ng u parent st name x y z n o
      chans t1 _ rest hat ho hn
    rw [e1] at hr
    simp only at hr
    have hl1 : s1.heap.length = st.heap.length + 1 := by rw [e2]; simp
    exact childrenLoop_sites ng u hinner t1 more1 rfl f st.heap.length [] s1 tail rest h1 hl1
      (by omega) hne ret parsed st1 hr

/-- Function `parse` on an input that starts with `HIERARCHY` and a well-formed root
joint, as `parse_hierarchy_wf`, with the End Sites of the heap. -/
theorem parse_hierarchy_sites {F D : Type} (ng : NumGet F D) (u : Indet F D)
    (input : List Char) (hier tail : List (List Char)) (rest : List Char)
    (infos : List (NodeInfo F)) (sites : List (Site F))
    (hl : Lexes input (kHierarchy :: (hier ++ tail)) rest)
    (hh : HierarchyAt ng hier infos sites) (hne : tail ≠ [] ∨ rest ≠ []) (heap : Heap F)
    (bvh : Bvh D) :
    ∃ (root : Option Nat) (st1 : PState F D),
      parse ng u (some input) heap bvh =
        some
          ((parseHierarchyMotion ng u kRoot
              ⟨st1.file, st1.heap, st1.bvh.setRootJoint root⟩).1,
           (parseHierarchyMotion ng u kRoot
              ⟨st1.file, st1.heap, st1.bvh.setRootJoint root⟩).2.heap,
           (parseHierarchyMotion ng u kRoot
              ⟨st1.file, st1.heap, st1.bvh.setRootJoint root⟩).2.bvh) ∧
      root = some heap.length ∧
      At st1.file tail rest ∧ st1.heap.length = heap.length + infos.length ∧
      Matches st1.heap heap.length infos ∧ JointPost none heap bvh st1 ∧
      SitesAt st1.heap heap.length sites := by
  cases hh with
  | root name x y z n o chans inner ii sites ho hn hinner =>
    have h0 := At.ofContent hl
    obtain ⟨e1, h1⟩ := getString_at h0 []
    rw [List.cons_append] at h1
    have hg1 := h1.good (Or.inl (by simp))
    obtain ⟨e2, h2⟩ := getString_at h1 []
    rw [List.append_assoc] at h2
    have hlen1 := getString_length_le (IStream.ofContent input) []
    have hlen2 := getString_length_le (getString (IStream.ofContent input) []).1 []
    obtain ⟨r, hr, -⟩ := (parseJoint_childrenLoop_total ng u (2 * input.length + 2)).1 none
      ⟨(getString (getString (IStream.ofContent input) []).1 []).1, heap, bvh⟩
      (by simp only [IStream.ofContent] at hlen1 hlen2 ⊢; omega)
    obtain ⟨ret, root, st1⟩ := r
    obtain ⟨A, -⟩ := parseJoint_wf ng u name x y z n o chans inner ii ho hn hinner.children
      ⟨(getString (getString (IStream.ofContent input) []).1 []).1, heap, bvh⟩ tail rest
      h2 _ none ret root st1 hr
    obtain ⟨a0, a1, a2, a3⟩ := A hne
    obtain ⟨hp, P⟩ := (parse_invariant ng u _).1 none _ ret root st1 hr a0
    have S := parseJoint_sites ng u name x y z n o chans inner ii sites ho hn hinner
      ⟨(getString (getString (IStream.ofContent input) []).1 []).1, heap, bvh⟩ tail rest
      h2 hne _ none ret root st1 hr
    subst a0
    refine ⟨root, st1, ?_, hp, a1, a2, a3, P, S⟩
    rw [parse_eq, if_pos e1,
      parseHierarchy_root ng u _ ⟨(getString (IStream.ofContent input) []).1, heap, bvh⟩
        hg1 e2 0 root st1 hr]
    rfl

/-- C13: on every well-formed input, parsed into a skeleton without registered joints,
`parse` returns 0 and every End Site block of the text has its joint: it is registered
in the flat list at the block's position in the textual order of the nodes, its parent
reference is the joint registered at the position of the enclosing joint, it is in the
children list of that joint, it has the offset of the block, no channels and no
children, and its sample row is empty for every frame. -/
theorem parse_end_sites {F D : Type} (ng : NumGet F D) (u : Indet F D)
    (input : List Char) (infos : List (NodeInfo F)) (sites : List (Site F)) (frames : Int)
    (time : D) (vals : List F) (heap : Heap F) (bvh : Bvh D) (hj : bvh.joints = [])
    (hw : WellFormedAt ng input infos sites frames time vals) :
    ∃ heap1 bvh1, parse ng u (some input) heap bvh = some (0, heap1, bvh1) ∧
      bvh1.num_frames = frames ∧
      ∀ s ∈ sites, ∃ (id p : Nat) (j pj : Joint F),
        bvh1.joints[s.pos]? = some id ∧ bvh1.joints[s.encl]? = some p ∧
        heap1[id]? = some j ∧ heap1[p]? = some pj ∧ j.parent = some p ∧
        id ∈ pj.children ∧ j.offset = s.offset ∧ j.channels_order = [] ∧
        j.children = [] ∧ ∀ f : Nat, (f : Int) < frames → j.channel_data[f]? = some [] := by
  obtain ⟨hier, header, nums, rest, hl, -, hh, hm, -, -⟩ := hw
  obtain ⟨fr, t, rfl, hf, ht⟩ := hm
  obtain ⟨root, st1, hp, a1, a2, a3, a4, P, S⟩ := parse_hierarchy_sites ng u input hier _ rest
    infos sites hl hh (Or.inl (by simp)) heap bvh
  subst a1
  simp only [List.cons_append, List.nil_append] at a2
  obtain ⟨e1, h1⟩ := getString_at a2 kRoot
  obtain ⟨sM, hM, em⟩ := parseMotion_at ng u
    ⟨(getString st1.file kRoot).1, st1.heap, st1.bvh.setRootJoint (some heap.length)⟩
    fr t frames time nums rest h1 hf ht
  have hp2 : parse ng u (some input) heap bvh =
      some (0, (frameLoop ng st1.bvh.joints frames.toNat sM u.number st1.heap).2.2,
        ((st1.bvh.setRootJoint (some heap.length)).setNumFrames frames).setFrameTime
          time) := by
    rw [hp, parseHierarchyMotion_eq, if_pos P.good]
    simp only
    rw [if_pos e1, em]
    rfl
  have hjs : st1.bvh.joints = List.range' heap.length infos.length := by
    rw [P.joints, hj, List.nil_append, a3, Nat.add_sub_cancel_left]
  have hnd : st1.bvh.joints.Nodup := by
    rw [hjs]
    exact List.nodup_range' _ _
  obtain ⟨-, -, -, -, i5⟩ := frameLoop_spec ng st1.bvh.joints hnd frames.toNat sM u.number
    st1.heap
  have hrange : ∀ s ∈ sites, s.pos < infos.length ∧ s.encl < infos.length := by
    cases hh with
    | root name x y z n o chans inner ii sites ho hn hinner =>
      intro s hs
      obtain ⟨r1, r2, r3⟩ := hinner.range s hs
      simp only [List.length_cons]
      rcases r3 with r3 | r3 <;> omega
  refine ⟨_, _, hp2, rfl, fun s hs => ?_⟩
  obtain ⟨j, pj, c1, c2, c3, c4, c5, c6, c7, c8⟩ := S s hs
  obtain ⟨r1, r2⟩ := hrange s hs
  have hid : ∀ k, k < infos.length → st1.bvh.joints[k]? = some (heap.length + k) := by
    intro k hk
    rw [hjs, List.getElem?_range' _ _ hk, Nat.one_mul]
  have hgd : st1.bvh.joints.getD s.pos 0 = heap.length + s.pos := by
    rw [List.getD_eq_getElem?_getD, hid _ r1]
    rfl
  have h5 := i5 s.pos (by rw [hjs, List.length_range']; exact r1)
  rw [hgd, c1] at h5
  obtain ⟨rows, hrows⟩ := frameLoop_getElem? ng st1.bvh.joints hnd frames.toNat sM u.number
    st1.heap (heap.length + s.encl)
  rw [c7] at hrows
  have hb := P.blank (heap.length + s.pos) j (by omega) c1
  refine ⟨heap.length + s.pos, heap.length + s.encl, _, _, hid _ r1, hid _ r2, h5, hrows,
    c3, c8, c4, c5, c6, fun f hf => ?_⟩
  have hf2 : f < frames.toNat := by omega
  have hcc : chanCount st1.heap (heap.length + s.pos) = 0 := by
    unfold chanCount
    rw [c1]
    simp only [Joint.num_channels, c5, List.length_nil]
  show (Joint.addRows _ j).channel_data[f]? = _
  simp only [Joint.addRows, hb.1, List.nil_append]
  rw [List.getElem?_map, List.getElem?_range hf2, hcc]
  rfl

/-! ## The values that the evaluator stores -/

theorem Joint.ltm_set_ltm {F : Type} (m : Mat4 F) (i : Nat) (j : Joint F)
    (h : i ≤ j.ltm.length) :
    (j.set_ltm m i).ltm.length = max j.ltm.length (i + 1) ∧
    (j.set_ltm m i).ltm[i]? = some m ∧
    ∀ k, k ≠ i → (j.set_ltm m i).ltm[k]? = j.ltm[k]? := by
  unfold Joint.set_ltm
  simp only
  split
  · rename_i hlt
    refine ⟨?_, ?_, fun k hk => ?_⟩
    · rw [List.length_set]
      omega
    · simp [hlt]
    · rw [List.getElem?_set_ne (Ne.symm hk)]
  · rename_i hlt
    have e : i = j.ltm.length := by omega
    refine ⟨?_, ?_, fun k hk => ?_⟩
    · rw [List.length_append, List.length_singleton]
      omega
    · rw [e]
      simp
    · by_cases hk2 : k < j.ltm.length
      · rw [List.getElem?_append_left hk2]
      · rw [List.getElem?_eq_none (by simp; omega), List.getElem?_eq_none (by omega)]

/-- The transforms after the loop over the frames `i`, ..., `i + n - 1` of one joint:
the entry of each of these frames is the product `ltm * rmat` of its body, the other
entries are as before. -/
theorem framesLoop_ltm {F : Type} [Zero F] [One F] [Add F] [Mul F]
    (rot : F → Vec3 F → Mat4 F) (s : Nat) (offmat : Mat4 F) (data : List (List F)) :
    ∀ (n i : Nat) (h : Heap F) (sj : Joint F), h[s]? = some sj → i ≤ sj.ltm.length →
      (∀ q, sj.parent = some q → q ≠ s) →
      ∀ h1, framesLoop rot s offmat data n i h = some h1 →
      ∃ sj1, h1[s]? = some sj1 ∧ sj1.ltm.length = max sj.ltm.length (i + n) ∧
        (∀ m, m < i ∨ i + n ≤ m → sj1.ltm[m]? = sj.ltm[m]?) ∧
        (∀ k b, k < n → frameBase rot h sj offmat data (i + k) = some b →
          sj1.ltm[i + k]? = some (b.1.mul b.2))
  | 0, i, h, sj, hs, hl, _, h1, hrun => by
    simp only [framesLoop, Option.some.injEq] at hrun
    subst hrun
    exact ⟨sj, hs, by omega, fun _ _ => rfl, fun k b hk => by omega⟩
  | n + 1, i, h, sj, hs, hl, hpar, h1, hrun => by
    simp only [framesLoop] at hrun
    rw [frameStep_eq rot s offmat data h i sj hs] at hrun
    cases hb : frameBase rot h sj offmat data i with
    | none =>
      rw [hb] at hrun
      cases hrun
    | some b =>
      rw [hb] at hrun
      simp only at hrun
      have hget : ∀ x, ((h.upd s (Joint.set_pos b.1.translation)).upd s
          (Joint.set_ltm (b.1.mul b.2) i))[x]? =
          if x = s then some ((sj.set_pos b.1.translation).set_ltm (b.1.mul b.2) i)
          else h[x]? := by
        intro x
        rw [Heap.getElem?_upd]
        by_cases hx : x = s
        · subst hx
          rw [if_pos rfl, if_pos rfl, Heap.getElem?_upd, if_pos rfl, hs]
          rfl
        · rw [if_neg hx, if_neg hx, Heap.getElem?_upd, if_neg hx]
      obtain ⟨l1, l2, l3⟩ := Joint.ltm_set_ltm (b.1.mul b.2) i (sj.set_pos b.1.translation) hl
      have hl' : (sj.set_pos b.1.translation).ltm = sj.ltm := rfl
      rw [hl'] at l1 l3
      obtain ⟨sj1, e1, e2, e3, e4⟩ := framesLoop_ltm rot s offmat data n (i + 1) _
        ((sj.set_pos b.1.translation).set_ltm (b.1.mul b.2) i)
        (by rw [hget, if_pos rfl]) (by omega) hpar h1 hrun
      refine ⟨sj1, e1, by omega, fun m hm => ?_, fun k b1 hk hb1 => ?_⟩
      · rw [e3 m (by omega), l3 m (by omega)]
      · cases k with
        | zero =>
          rw [Nat.add_zero] at hb1 ⊢
          rw [hb] at hb1
          cases hb1
          rw [e3 i (by omega), l2]
        | succ k =>
          rw [show i + (k + 1) = i + 1 + k by omega] at hb1 ⊢
          refine e4 k b1 (by omega) ?_
          rw [← hb1]
          refine frameBase_congr rot h _ sj _ offmat data _ rfl rfl (fun q hq => ?_)
          rw [hget, if_neg (hpar q hq)]

/-- In a forest the parent reference of every joint of the traversal is the parent of
the roots or a joint of the traversal. -/
theorem Forest.parent_mem {F : Type} {h : Heap F} {p : Option Nat} {ids l : List Nat}
    (hf : Forest h p ids l) :
    ∀ x ∈ l, ∃ j, h[x]? = some j ∧ (j.parent = p ∨ ∃ q ∈ l, j.parent = some q) := by
  induction hf with
  | nil p => exact fun x hx => by cases hx
  | cons p id j ids sub rest hj hp _ _ ih1 ih2 =>
    intro x hx
    simp only [List.mem_cons, List.mem_append] at hx
    rcases hx with rfl | hx | hx
    · exact ⟨j, hj, Or.inl hp⟩
    · obtain ⟨jx, e, hq⟩ := ih1 x hx
      refine ⟨jx, e, Or.inr ?_⟩
      rcases hq with hq | ⟨q, hq, e2⟩
      · exact ⟨id, by simp, hq⟩
      · exact ⟨q, by simp [hq], e2⟩
    · obtain ⟨jx, e, hq⟩ := ih2 x hx
      refine ⟨jx, e, ?_⟩
      rcases hq with hq | ⟨q, hq, e2⟩
      · exact Or.inl hq
      · exact Or.inr ⟨q, by simp [hq], e2⟩

theorem Evaluated.congr_heap {F : Type} [Zero F] [One F] [Add F] [Mul F]
    {rot : F → Vec3 F → Mat4 F} {n : Nat} {ha hb : Heap F} {j0 j1 : Joint F}
    (h : Evaluated rot n ha j0 j1) (hq : ∀ q, j0.parent = some q → hb[q]? = ha[q]?) :
    Evaluated rot n hb j0 j1 := by
  obtain ⟨ps, a1, a2, a3, a4, a5⟩ := h
  refine ⟨ps, a1, a2, a3, a4, fun k hk => ?_⟩
  obtain ⟨b, e1, e2, e3⟩ := a5 k hk
  exact ⟨b, by rw [frameBase_congr rot ha hb j0 j0 _ _ k rfl rfl hq]; exact e1, e2, e3⟩

/-- The evaluator on a tree, as `eval_forest`, with the values it stores: every joint of
the tree ends up with the transforms and positions that the body of its frame loop
computes from its samples and from the transforms of its parent in the final heap. -/
theorem eval_values {F : Type} [Zero F] [One F] [Add F] [Mul F]
    (rot : F → Vec3 F → Mat4 F) (nf : Int) {h0 : Heap F} {p : Option Nat}
    {ids l : List Nat} (hf : Forest h0 p ids l) :
    l.Nodup → Evaluable nf.toNat h0 l →
    ∀ (fuel : Nat) (h : Heap F), l.length ≤ fuel → Skel h0 h →
      (∀ q, p = some q → q ∉ l ∧ ∃ pj, h[q]? = some pj ∧ nf.toNat ≤ pj.ltm.length) →
      ∃ h1, forChildren (recalculateFrom rot nf fuel) ids h = Outcome.ok h1 ∧ Skel h h1 ∧
        (∀ x, x ∉ l → h1[x]? = h[x]?) ∧
        (∀ x ∈ l, ∃ j0 j1, h[x]? = some j0 ∧ h1[x]? = some j1 ∧
          Evaluated rot nf.toNat h1 j0 j1) := by
  induction hf with
  | nil p =>
    intro _ _ fuel h _ _ _
    exact ⟨h, rfl, Skel.refl h, fun _ _ => rfl, fun x hx => by cases hx⟩
  | cons p id j ids sub rest hj hp hsub hrest ih_sub ih_rest =>
    intro hnd hev fuel h hfuel hsk hpar
    have hnd1 := List.nodup_cons.1 hnd
    have hnd2 := List.nodup_append.1 hnd1.2
    have hid_sub : id ∉ sub := fun hx => hnd1.1 (List.mem_append_left _ hx)
    have hid_rest : id ∉ rest := fun hx => hnd1.1 (List.mem_append_right _ hx)
    cases fuel with
    | zero => simp at hfuel
    | succ f =>
      simp only [List.length_cons, List.length_append] at hfuel
      obtain ⟨sj, hs, s1, s2, s3, s4, s5, s6⟩ := hsk id j hj
      have hparent : ∀ q, sj.parent = some q → q ∉ id :: (sub ++ rest) ∧
          ∃ pj, h[q]? = some pj ∧ nf.toNat ≤ pj.ltm.length :=
        fun q hq => hpar q (by rw [← hp, ← s1, hq])
      obtain ⟨h1, sj1, ps, e, e1, e2, p1, p2, p3, p4, p5, p6, p7, p8, p9, p10⟩ :=
        framesLoop_ok rot id (offsetMatrix sj.offset) sj.channel_data nf.toNat 0 h sj hs
          (Nat.zero_le _)
          (fun k _ hk => by
            rw [s3, s4]
            exact hev id (by simp) j hj k (by omega))
          (fun q hq => by
            obtain ⟨hql, pj, a1, a2⟩ := hparent q hq
            refine ⟨fun e => hql (by rw [e]; simp), pj, a1, by omega⟩)
      obtain ⟨sj1', e1', q1, q2, q3⟩ := framesLoop_ltm rot id (offsetMatrix sj.offset)
        sj.channel_data nf.toNat 0 h sj hs (Nat.zero_le _)
        (fun q hq e => (hparent q hq).1 (by rw [e]; simp)) h1 e
      rw [e1] at e1'
      cases e1'
      have hsk1 : Skel h h1 := by
        intro x jx hx
        by_cases hxi : x = id
        · subst hxi
          rw [hs] at hx
          cases hx
          exact ⟨sj1, e1, p1, p2, p3, p4, p5, p6⟩
        · exact ⟨jx, by rw [e2 x hxi, hx], rfl, rfl, rfl, rfl, rfl, rfl⟩
      obtain ⟨h2, f2, k2, u2, l2⟩ := ih_sub hnd2.1
        (fun x hx => hev x (by simp [hx])) f h1 (by omega) (hsk.trans hsk1)
        (fun q hq => by
          cases hq
          exact ⟨hid_sub, sj1, e1, by omega⟩)
      have hrec : recalculateFrom rot nf (f + 1) h id = Outcome.ok h2 := by
        rw [recalculateFrom_succ rot nf f h id sj hs, e]
        simp only
        rw [s2]
        exact f2
      obtain ⟨h3, f3, k3, u3, l3⟩ := ih_rest hnd2.2.1
        (fun x hx => hev x (by simp [hx])) (f + 1) h2 (by omega)
        ((hsk.trans hsk1).trans k2)
        (fun q hq => by
          obtain ⟨hql, pj, a1, a2⟩ := hpar q hq
          have hq1 : q ≠ id := fun e => hql (by rw [e]; simp)
          have hq2 : q ∉ sub := fun hx => hql (by simp [hx])
          have hq3 : q ∉ rest := fun hx => hql (by simp [hx])
          exact ⟨hq3, pj, by rw [u2 q hq2, e2 q hq1, a1], a2⟩)
      refine ⟨h3, ?_, (hsk1.trans k2).trans k3, ?_, ?_⟩
      · simp only [forChildren, hrec]
        exact f3
      · intro x hx
        simp only [List.mem_cons, List.mem_append, not_or] at hx
        rw [u3 x hx.2.2, u2 x hx.2.1, e2 x hx.1]
      · intro x hx
        simp only [List.mem_cons, List.mem_append] at hx
        rcases hx with rfl | hx | hx
        · refine ⟨sj, sj1, hs, by rw [u3 x hid_rest, u2 x hid_sub, e1], ps, p8, p9,
            by simpa using q1, fun m hm => q2 m (Or.inr (by omega)), fun k hk => ?_⟩
          obtain ⟨b, hb, hps⟩ := p10 k hk
          have hq3 := q3 k b hk hb
          rw [Nat.zero_add] at hb hq3
          refine ⟨b, ?_, hq3, hps⟩
          rw [← hb]
          refine frameBase_congr rot h h3 sj sj _ _ k rfl rfl (fun q hq => ?_)
          obtain ⟨hql, -⟩ := hparent q hq
          simp only [List.mem_cons, List.mem_append, not_or] at hql
          rw [u3 q hql.2.2, u2 q hql.2.1, e2 q hql.1]
        · obtain ⟨j0, j1, a1, a2, a3⟩ := l2 x hx
          have hxr : x ∉ rest := fun hr => hnd2.2.2 hx hr
          have hxi : x ≠ id := fun e => hid_sub (e ▸ hx)
          refine ⟨j0, j1, by rw [← e2 x hxi, a1], by rw [u3 x hxr, a2],
            a3.congr_heap (fun q hq => ?_)⟩
          obtain ⟨jx, ex, hpx⟩ := hsub.parent_mem x hx
          obtain ⟨jx1, ex1, epar, -⟩ := (hsk.trans hsk1) x jx ex
          rw [a1] at ex1
          cases ex1
          rw [epar] at hq
          have hqr : q ∉ rest := by
            rcases hpx with hpx | ⟨q2, hq2, hpx⟩
            · rw [hpx] at hq
              cases hq
              exact hid_rest
            · rw [hpx] at hq
              cases hq
              exact fun hr => hnd2.2.2 hq2 hr
          exact u3 q hqr
        · obtain ⟨j0, j1, a1, a2, a3⟩ := l3 x hx
          have hxs : x ∉ sub := fun hr => hnd2.2.2 hr hx
          have hxi : x ≠ id := fun e => hid_rest (e ▸ hx)
          exact ⟨j0, j1, by rw [← e2 x hxi, ← u2 x hxs, a1], a2, a3⟩

/-! ## Two runs of the evaluator compared -/

theorem applyChannel_snd {F : Type} [Zero F] [One F] [Add F] [Mul F]
    (rot : F → Vec3 F → Mat4 F) (tra trb : Mat4 F × Mat4 F) (c : Channel) (va vb : F)
    (h2 : trb.2 = tra.2) (hv : c.isPosition = false → vb = va) :
    (applyChannel rot trb c vb).2 = (applyChannel rot tra c va).2 := by
  cases c
  · exact h2
  · exact h2
  · exact h2
  · simp only [applyChannel, h2, hv rfl]
  · simp only [applyChannel, h2, hv rfl]
  · simp only [applyChannel, h2, hv rfl]

/-- The channel loop on two rows that agree on the rotational channels computes the
same rotation matrix; when the rows agree on all channels (`full`) it computes the same
translation matrix too. -/
theorem channelsLoop_sim {F : Type} [Zero F] [One F] [Add F] [Mul F]
    (rot : F → Vec3 F → Mat4 F) (da db : List (List F)) (k : Nat) (full : Prop) :
    ∀ (chs : List Channel) (j : Nat) (tra trb ra rb : Mat4 F × Mat4 F),
      (∀ i c, chs[i]? = some c → (full ∨ c.isPosition = false) →
        ∀ rowa rowb, da[k]? = some rowa → db[k]? = some rowb → rowb[j + i]? = rowa[j + i]?) →
      trb.2 = tra.2 → (full → trb.1 = tra.1) →
      channelsLoop rot da k chs j tra = some ra →
      channelsLoop rot db k chs j trb = some rb →
      rb.2 = ra.2 ∧ (full → rb.1 = ra.1)
  | [], j, tra, trb, ra, rb, _, h2, h1, ea, eb => by
    simp only [channelsLoop, Option.some.injEq] at ea eb
    subst ea eb
    exact ⟨h2, h1⟩
  | c :: cs, j, tra, trb, ra, rb, hag, h2, h1, ea, eb => by
    simp only [channelsLoop] at ea eb
    cases hra : da[k]? with
    | none => rw [hra] at ea; cases ea
    | some rowa =>
      cases hrb : db[k]? with
      | none => rw [hrb] at eb; cases eb
      | some rowb =>
        rw [hra] at ea
        rw [hrb] at eb
        simp only at ea eb
        cases hva : rowa[j]? with
        | none => rw [hva] at ea; cases ea
        | some va =>
          cases hvb : rowb[j]? with
          | none => rw [hvb] at eb; cases eb
          | some vb =>
            rw [hva] at ea
            rw [hvb] at eb
            simp only at ea eb
            have hv : (full ∨ c.isPosition = false) → vb = va := by
              intro hc
              have := hag 0 c (by simp) hc rowa rowb hra hrb
              rw [Nat.add_zero, hva, hvb] at this
              exact Option.some.inj this
            refine channelsLoop_sim rot da db k full cs (j + 1) _ _ ra rb
              (fun i c1 hi hc rowa1 rowb1 e1 e2 => ?_)
              (applyChannel_snd rot tra trb c va vb h2 (fun hc => hv (Or.inr hc)))
              (fun hfull => ?_) ea eb
            · have := hag (i + 1) c1 (by simpa using hi) hc rowa1 rowb1 e1 e2
              rwa [show j + (i + 1) = j + 1 + i by omega] at this
            · have e1 := h1 hfull
              have e2 := hv (Or.inl hfull)
              have e3 : trb = tra := Prod.ext e1 h2
              rw [e2, e3]

/-- The body of the frame loop on two joints that differ at most in positional samples
of a joint with a parent, in two heaps in which the parent has the same transform for
the frame: it computes the same pair of matrices. -/
theorem frameBase_sim {F : Type} [Zero F] [One F] [Add F] [Mul F]
    (rot : F → Vec3 F → Mat4 F) (ha hb : Heap F) (ja jb : Joint F) (k : Nat)
    (hs : SameButPosition ja jb)
    (hpar : ∀ q, ja.parent = some q →
      ∃ pa pb, ha[q]? = some pa ∧ hb[q]? = some pb ∧ pb.ltm[k]? = pa.ltm[k]?)
    (ba bb : Mat4 F × Mat4 F)
    (ea : frameBase rot ha ja (offsetMatrix ja.offset) ja.channel_data k = some ba)
    (eb : frameBase rot hb jb (offsetMatrix jb.offset) jb.channel_data k = some bb) :
    bb = ba := by
  obtain ⟨s1, -, s3, s4, -, s6⟩ := hs
  unfold frameBase at ea eb
  rw [s1, s3, s4] at eb
  cases hca : channelsLoop rot ja.channel_data k ja.channels_order 0
      (Mat4.identity, Mat4.identity) with
  | none => rw [hca] at ea; cases ea
  | some tra =>
    cases hcb : channelsLoop rot jb.channel_data k ja.channels_order 0
        (Mat4.identity, Mat4.identity) with
    | none => rw [hcb] at eb; cases eb
    | some trb =>
      rw [hca] at ea
      rw [hcb] at eb
      simp only at ea eb
      obtain ⟨c2, c1⟩ := channelsLoop_sim rot ja.channel_data jb.channel_data k
        (ja.parent = none) ja.channels_order 0 _ _ tra trb
        (fun i c hi hc rowa rowb e1 e2 => by
          rw [Nat.zero_add]
          refine (s6 k rowa rowb e1 e2).2 i (fun c1 hc1 hne => ?_)
          rw [hi] at hc1
          cases hc1
          rcases hc with hc | hc
          · exact absurd hc hne
          · exact hc)
        rfl (fun _ => rfl) hca hcb
      cases hp : ja.parent with
      | none =>
        rw [hp] at ea eb
        simp only [localBase, Option.some.injEq] at ea eb
        rw [← ea, ← eb, c2, c1 hp]
      | some q =>
        obtain ⟨pa, pb, e1, e2, e3⟩ := hpar q hp
        rw [hp] at ea eb
        simp only [localBase, e1, e2, e3] at ea eb
        cases hl : pa.ltm[k]? with
        | none => rw [hl] at ea; cases ea
        | some pl =>
          rw [hl] at ea eb
          simp only [Option.some.injEq] at ea eb
          rw [← ea, ← eb, c2]

/-- Two evaluated trees compared, from the roots down: when the joints of the two trees
differ at most in positional samples of joints with a parent, and the parent of the
roots has the same transforms in both, every joint has the same transforms for the
frames of the run and has received the same positions. -/
theorem evaluated_unique {F : Type} [Zero F] [One F] [Add F] [Mul F]
    (rot : F → Vec3 F → Mat4 F) (n : Nat) {hA : Heap F} {p : Option Nat}
    {ids l : List Nat} (hf : Forest hA p ids l) (hB ha1 hb1 : Heap F) :
    (∀ x ∈ l, ∃ j0a j1a, hA[x]? = some j0a ∧ ha1[x]? = some j1a ∧
      Evaluated rot n ha1 j0a j1a) →
    (∀ x ∈ l, ∃ j0b j1b, hB[x]? = some j0b ∧ hb1[x]? = some j1b ∧
      Evaluated rot n hb1 j0b j1b) →
    (∀ x ∈ l, ∀ ja jb, hA[x]? = some ja → hB[x]? = some jb → SameButPosition ja jb) →
    (∀ q, p = some q → ∃ pa pb, ha1[q]? = some pa ∧ hb1[q]? = some pb ∧
      ∀ k, k < n → pb.ltm[k]? = pa.ltm[k]?) →
    ∀ x ∈ l, ∃ (j0a j1a j0b j1b : Joint F) (ps : List (Vec3 F)),
      hA[x]? = some j0a ∧ ha1[x]? = some j1a ∧ hB[x]? = some j0b ∧ hb1[x]? = some j1b ∧
      ps.length = n ∧ j1a.pos = j0a.pos ++ ps ∧ j1b.pos = j0b.pos ++ ps ∧
      ∀ k, k < n → j1b.ltm[k]? = j1a.ltm[k]? := by
  induction hf with
  | nil p => exact fun _ _ _ _ x hx => by cases hx
  | cons p id j ids sub rest hj hp hsub hrest ih1 ih2 =>
    intro HA HB hsim hpar
    obtain ⟨j0a, j1a, a1, a2, psa, a3, a4, a5, a6, a7⟩ := HA id (by simp)
    obtain ⟨j0b, j1b, b1, b2, psb, b3, b4, b5, b6, b7⟩ := HB id (by simp)
    have hs := hsim id (by simp) j0a j0b a1 b1
    have ej : j0a = j := by
      rw [hj] at a1
      exact (Option.some.inj a1).symm
    have hbb : ∀ k, k < n → ∀ ba bb,
        frameBase rot ha1 j0a (offsetMatrix j0a.offset) j0a.channel_data k = some ba →
        frameBase rot hb1 j0b (offsetMatrix j0b.offset) j0b.channel_data k = some bb →
        bb = ba := by
      intro k hk ba bb ea eb
      refine frameBase_sim rot ha1 hb1 j0a j0b k hs (fun q hq => ?_) ba bb ea eb
      obtain ⟨pa, pb, e1, e2, e3⟩ := hpar q (by rw [← hp, ← ej, hq])
      exact ⟨pa, pb, e1, e2, e3 k hk⟩
    have hps : psb = psa := by
      apply List.ext_getElem?
      intro k
      by_cases hk : k < n
      · obtain ⟨ba, ea, -, pa⟩ := a7 k hk
        obtain ⟨bb, eb, -, pb⟩ := b7 k hk
        rw [pa, pb, hbb k hk ba bb ea eb]
      · rw [List.getElem?_eq_none (by omega), List.getElem?_eq_none (by omega)]
    have hltm : ∀ k, k < n → j1b.ltm[k]? = j1a.ltm[k]? := by
      intro k hk
      obtain ⟨ba, ea, la, -⟩ := a7 k hk
      obtain ⟨bb, eb, lb, -⟩ := b7 k hk
      rw [la, lb, hbb k hk ba bb ea eb]
    intro x hx
    simp only [List.mem_cons, List.mem_append] at hx
    rcases hx with rfl | hx | hx
    · exact ⟨j0a, j1a, j0b, j1b, psa, a1, a2, b1, b2, a4, a3, by rw [b3, hps], hltm⟩
    · exact ih1 (fun y hy => HA y (by simp [hy])) (fun y hy => HB y (by simp [hy]))
        (fun y hy => hsim y (by simp [hy]))
        (fun q hq => by
          cases hq
          exact ⟨j1a, j1b, a2, b2, hltm⟩) x hx
    · exact ih2 (fun y hy => HA y (by simp [hy])) (fun y hy => HB y (by simp [hy]))
        (fun y hy => hsim y (by simp [hy])) hpar x hx

/-- Function `recalculateJoints` from the root of a tree whose joints are pairwise
distinct and have their sample rows: it succeeds with a recursion budget of the number
of joints, writes transforms and positions of the joints of the tree only, and every
joint of the tree ends up with the values that the body of its frame loop computes. -/
theorem eval_root {F D : Type} [Zero F] [One F] [Add F] [Mul F]
    (rot : F → Vec3 F → Mat4 F) (fuel : Nat) (b : Bvh D) (heap : Heap F) (root : Nat)
    (l : List Nat) (hroot : b.root_joint = some root) (htree : Forest heap none [root] l)
    (hnd : l.Nodup) (hev : Evaluable b.num_frames.toNat heap l) (hfuel : l.length ≤ fuel) :
    ∃ heap1, b.recalculateJoints rot fuel heap none = Outcome.ok heap1 ∧ Skel heap heap1 ∧
      (∀ x, x ∉ l → heap1[x]? = heap[x]?) ∧
      (∀ x ∈ l, ∃ j0 j1, heap[x]? = some j0 ∧ heap1[x]? = some j1 ∧
        Evaluated rot b.num_frames.toNat heap1 j0 j1) := by
  obtain ⟨h1, e, sk, u, v⟩ := eval_values rot b.num_frames htree hnd hev fuel heap hfuel
    (Skel.refl heap) (fun q hq => by cases hq)
  refine ⟨h1, ?_, sk, u, v⟩
  unfold Bvh.recalculateJoints
  simp only [hroot]
  simp only [forChildren] at e
  cases hr : recalculateFrom rot b.num_frames fuel heap root with
  | ok h2 =>
    rw [hr] at e
    exact e
  | fault =>
    rw [hr] at e
    cases e
  | exhausted =>
    rw [hr] at e
    cases e

theorem SameButPosition.of_skel {F : Type} {ja jb : Joint F} (h1 : jb.parent = ja.parent)
    (h2 : jb.children = ja.children) (h3 : jb.channel_data = ja.channel_data)
    (h4 : jb.channels_order = ja.channels_order) (h5 : jb.offset = ja.offset) :
    SameButPosition ja jb := by
  refine ⟨h1, h2, h5, h4, by rw [h3], fun f rowa rowb ea eb => ?_⟩
  rw [h3, ea] at eb
  cases eb
  exact ⟨rfl, fun _ _ => rfl⟩

theorem Evaluable.of_same {F : Type} {n : Nat} {ha hb : Heap F} {l : List Nat}
    (hev : Evaluable n ha l)
    (hsim : ∀ x ∈ l, ∀ jb, hb[x]? = some jb → ∃ ja, ha[x]? = some ja ∧
      SameButPosition ja jb) :
    Evaluable n hb l := by
  intro x hx jb ejb i hi
  obtain ⟨ja, eja, -, -, -, s4, s5, s6⟩ := hsim x hx jb ejb
  obtain ⟨rowa, era, hla⟩ := hev x hx ja eja i hi
  have hi2 : i < jb.channel_data.length := by
    rw [s5]
    exact (List.getElem?_eq_some.1 era).1
  refine ⟨jb.channel_data[i], List.getElem?_eq_getElem hi2, ?_⟩
  rw [(s6 i rowa _ era (List.getElem?_eq_getElem hi2)).1, s4]
  exact hla

/-- C19: after a successful `parse` on a skeleton without registered joints, on which no
joint has a transform yet, `recalculateJoints` from the root with a recursion budget of
the number of joints returns a heap: it does not stop on a read of `data[i][j]` outside
the sample rows or of a transform `ltm(i)` that the parent does not have, so every
transform a child reads was stored in this run, by the frame loop of the parent. -/
theorem recalculate_in_range {F D : Type} [Zero F] [One F] [Add F] [Mul F]
    (ng : NumGet F D) (u : Indet F D) (rot : F → Vec3 F → Mat4 F)
    (content : Option (List Char)) (heap : Heap F) (bvh : Bvh D) (heap1 : Heap F)
    (bvh1 : Bvh D) (fuel : Nat) (hj : bvh.joints = []) (hr : bvh.root_joint = none)
    (h : parse ng u content heap bvh = some (0, heap1, bvh1))
    (hfuel : bvh1.joints.length ≤ fuel) :
    (∀ x ∈ bvh1.joints, ∃ j, heap1[x]? = some j ∧ j.ltm = []) ∧
    ∃ heap2, bvh1.recalculateJoints rot fuel heap1 none = Outcome.ok heap2 := by
  rcases parse_tree ng u content heap bvh heap1 bvh1 hj h with ⟨-, e⟩ | ⟨e1, hf, hnd, hrows⟩
  · subst e
    refine ⟨fun x hx => ?_, heap1, ?_⟩
    · rw [hj] at hx
      cases hx
    · unfold Bvh.recalculateJoints
      simp only [hr]
  · refine ⟨fun x hx => ?_, ?_⟩
    · obtain ⟨j, a1, a2, -, -⟩ := hrows x hx
      exact ⟨j, a1, a2⟩
    · have hev : Evaluable bvh1.num_frames.toNat heap1 bvh1.joints := by
        intro x hx j ej i hi
        obtain ⟨j2, a1, -, -, a4⟩ := hrows x hx
        rw [ej] at a1
        cases a1
        obtain ⟨row, r1, r2⟩ := a4 i hi
        exact ⟨row, r1, by omega⟩
      obtain ⟨h2, e, -, -, -⟩ := eval_root rot fuel bvh1 heap1 heap.length bvh1.joints e1 hf
        hnd hev hfuel
      exact ⟨h2, e⟩

/-- C18: two skeletons on the same tree that differ at most in sample values of the
channels `Xposition`, `Yposition`, `Zposition` of joints with a parent:
`recalculateJoints` from the root succeeds on both, and for every joint of the tree it
stores the same transform for every frame and appends the same world positions. -/
theorem recalculate_ignores_positions {F D : Type} [Zero F] [One F] [Add F] [Mul F]
    (rot : F → Vec3 F → Mat4 F) (fuel : Nat) (b : Bvh D) (ha hb : Heap F) (root : Nat)
    (l : List Nat) (hroot : b.root_joint = some root) (htree : Forest ha none [root] l)
    (hnd : l.Nodup) (hev : Evaluable b.num_frames.toNat ha l) (hfuel : l.length ≤ fuel)
    (hsim : ∀ x ∈ l, ∀ ja, ha[x]? = some ja → ∃ jb, hb[x]? = some jb ∧
      SameButPosition ja jb) :
    ∃ ha1 hb1, b.recalculateJoints rot fuel ha none = Outcome.ok ha1 ∧
      b.recalculateJoints rot fuel hb none = Outcome.ok hb1 ∧
      ∀ x ∈ l, ∃ (ja jb ja1 jb1 : Joint F) (ps : List (Vec3 F)),
        ha[x]? = some ja ∧ hb[x]? = some jb ∧ ha1[x]? = some ja1 ∧ hb1[x]? = some jb1 ∧
        ps.length = b.num_frames.toNat ∧ ja1.pos = ja.pos ++ ps ∧ jb1.pos = jb.pos ++ ps ∧
        ∀ f, f < b.num_frames.toNat →
          ∃ m, ja1.ltm[f]? = some m ∧ jb1.ltm[f]? = some m := by
  have hsame : ∀ x ∈ l, ∀ jb, hb[x]? = some jb → ∃ ja, ha[x]? = some ja ∧
      SameButPosition ja jb := by
    intro x hx jb ejb
    obtain ⟨ja, eja, -⟩ := htree.parent_mem x hx
    obtain ⟨jb2, e, s⟩ := hsim x hx ja eja
    rw [ejb] at e
    cases e
    exact ⟨ja, eja, s⟩
  have htreeb : Forest hb none [root] l :=
    htree.mono (fun x hx j ej => by
      obtain ⟨jb, e, s1, s2, -⟩ := hsim x hx j ej
      exact ⟨jb, e, s1, s2⟩)
  obtain ⟨ha1, e1, -, -, v1⟩ := eval_root rot fuel b ha root l hroot htree hnd hev hfuel
  obtain ⟨hb1, e2, -, -, v2⟩ := eval_root rot fuel b hb root l hroot htreeb hnd
    (hev.of_same hsame) hfuel
  refine ⟨ha1, hb1, e1, e2, fun x hx => ?_⟩
  obtain ⟨j0a, j1a, j0b, j1b, ps, a1, a2, a3, a4, a5, a6, a7, a8⟩ :=
    evaluated_unique rot b.num_frames.toNat htree hb ha1 hb1 v1 v2
      (fun y hy ja jb ea eb => by
        obtain ⟨ja2, e, s⟩ := hsame y hy jb eb
        rw [ea] at e
        cases e
        exact s)
      (fun q hq => by cases hq) x hx
  refine ⟨j0a, j0b, j1a, j1b, ps, a1, a3, a2, a4, a5, a6, a7, fun f hf => ?_⟩
  obtain ⟨m0, m1, d1, d2, ps1, -, -, -, -, d7⟩ := v1 x hx
  rw [a2] at d2
  cases d2
  obtain ⟨bf, -, lf, -⟩ := d7 f hf
  exact ⟨_, lf, by rw [a8 f hf, lf]⟩

/-! ## The transform of a joint, written out -/

theorem Mat4.mul_assoc_mat {F : Type} [CommSemiring F] (a b c : Mat4 F) :
    (a.mul b).mul c = a.mul (b.mul c) := by
  obtain ⟨⟨a1, a2, a3, a4⟩, ⟨a5, a6, a7, a8⟩, ⟨a9, a10, a11, a12⟩, ⟨a13, a14, a15, a16⟩⟩ := a
  obtain ⟨⟨b1, b2, b3, b4⟩, ⟨b5, b6, b7, b8⟩, ⟨b9, b10, b11, b12⟩, ⟨b13, b14, b15, b16⟩⟩ := b
  obtain ⟨⟨c1, c2, c3, c4⟩, ⟨c5, c6, c7, c8⟩, ⟨c9, c10, c11, c12⟩, ⟨c13, c14, c15, c16⟩⟩ := c
  simp only [Mat4.mul, Mat4.mulVec, Mat4.mk.injEq, Vec4.mk.injEq]
  refine ⟨⟨?_, ?_, ?_, ?_⟩, ⟨?_, ?_, ?_, ?_⟩, ⟨?_, ?_, ?_, ?_⟩, ⟨?_, ?_, ?_, ?_⟩⟩ <;> ring

theorem Mat4.mul_identity {F : Type} [CommSemiring F] (a : Mat4 F) :
    a.mul Mat4.identity = a := by
  obtain ⟨⟨a1, a2, a3, a4⟩, ⟨a5, a6, a7, a8⟩, ⟨a9, a10, a11, a12⟩, ⟨a13, a14, a15, a16⟩⟩ := a
  simp [Mat4.mul, Mat4.mulVec, Mat4.identity]

/-- The product `B * (I * R_1 * ... * R_k)` that the code forms is `B * R_1 * ... * R_k`. -/
theorem Mat4.foldl_mul {F : Type} [CommSemiring F] (B : Mat4 F) :
    ∀ (rots : List (Mat4 F)) (R : Mat4 F),
      B.mul (rots.foldl Mat4.mul R) = rots.foldl Mat4.mul (B.mul R)
  | [], _ => rfl
  | r :: rots, R => by
    simp only [List.foldl_cons]
    rw [Mat4.foldl_mul B rots (R.mul r), Mat4.mul_assoc_mat]

/-- Over exact scalars the transform `B * (((I * R_1) * R_2) ... * R_k)` that the code
stores is the product `((B * R_1) * R_2) ... * R_k`. -/
theorem Mat4.mul_foldl_identity {F : Type} [CommSemiring F] (B : Mat4 F)
    (rots : List (Mat4 F)) :
    B.mul (rots.foldl Mat4.mul Mat4.identity) = rots.foldl Mat4.mul B := by
  rw [Mat4.foldl_mul, Mat4.mul_identity]

/-- The channel loop written out: the positional samples are added to the position
column of `tmat`, axis by axis, and `rmat` is multiplied from the right by the rotation
matrix of each rotational channel, in the order of the channels. -/
theorem channelsLoop_eq {F : Type} [Zero F] [One F] [Add F] [Mul F]
    (rot : F → Vec3 F → Mat4 F) (data : List (List F)) (i : Nat) (row : List F)
    (hrow : data[i]? = some row) :
    ∀ (chs : List Channel) (j : Nat) (tr : Mat4 F × Mat4 F), j + chs.length ≤ row.length →
      channelsLoop rot data i chs j tr = some
        ({ tr.1 with position :=
            ⟨axisSum Channel.XPOSITION chs j row tr.1.position.x,
             axisSum Channel.YPOSITION chs j row tr.1.position.y,
             axisSum Channel.ZPOSITION chs j row tr.1.position.z, tr.1.position.w⟩ },
         (rotations rot chs j row).foldl Mat4.mul tr.2)
  | [], j, tr, _ => rfl
  | c :: cs, j, tr, hl => by
    simp only [List.length_cons] at hl
    have hj : j < row.length := by omega
    have hv : row[j]?.getD 0 = row[j] := by
      rw [List.getElem?_eq_getElem hj]
      rfl
    simp only [channelsLoop, hrow, List.getElem?_eq_getElem hj]
    rw [channelsLoop_eq rot data i row hrow cs (j + 1) _ (by omega)]
    cases c <;> simp [applyChannel, axisSum, rotations, hv]

/-- C17: on a tree whose joints are pairwise distinct and have their sample rows,
`recalculateJoints` from the root succeeds, and for every joint `j` of the tree and
every frame `f` below the frame count there is the matrix `B` with: `B = T * O` when `j`
has no parent, `T` the translation by the per-axis sums of the positional samples of `j`
in frame `f` and `O` the translation by the offset of `j`; `B = P * O` when `j` has a
parent, `P` the transform stored for the parent in frame `f`; the transform stored for
`j` in frame `f` is the product of `B` and the rotation matrices `R_1`, ..., `R_k` of the
rotational channels of `j`, in the order of its channels, formed as the code forms it:
`B * (((I * R_1) * R_2) ... * R_k)` with the identity `I`; and the position stored for
frame `f` is the translation of `B`, in which no rotation sample of `j` occurs. No law
of arithmetic is used: the scalars are any type with zero, one, sum and product. -/
theorem recalculate_transforms {F D : Type} [Zero F] [One F] [Add F] [Mul F]
    (rot : F → Vec3 F → Mat4 F)
    (fuel : Nat) (b : Bvh D) (heap : Heap F) (root : Nat) (l : List Nat)
    (hroot : b.root_joint = some root) (htree : Forest heap none [root] l) (hnd : l.Nodup)
    (hev : Evaluable b.num_frames.toNat heap l) (hfuel : l.length ≤ fuel) :
    ∃ heap1, b.recalculateJoints rot fuel heap none = Outcome.ok heap1 ∧
      ∀ x ∈ l, ∃ j j1, heap[x]? = some j ∧ heap1[x]? = some j1 ∧
        ∀ f, f < b.num_frames.toNat → ∃ B : Mat4 F,
          (j.parent = none →
            B = (offsetMatrix ⟨j.axisTotal Channel.XPOSITION f,
              j.axisTotal Channel.YPOSITION f, j.axisTotal Channel.ZPOSITION f⟩).mul
                (offsetMatrix j.offset)) ∧
          (∀ q, j.parent = some q → ∃ pj1 P, heap1[q]? = some pj1 ∧ pj1.ltm[f]? = some P ∧
            B = P.mul (offsetMatrix j.offset)) ∧
          j1.ltm[f]? =
            some (B.mul ((j.rotationsAt rot f).foldl Mat4.mul Mat4.identity)) ∧
          j1.pos[j.pos.length + f]? = some B.translation := by
  obtain ⟨h1, e1, -, -, v1⟩ := eval_root rot fuel b heap root l hroot htree hnd hev hfuel
  refine ⟨h1, e1, fun x hx => ?_⟩
  obtain ⟨j0, j1, a1, a2, ps, a3, a4, -, -, a7⟩ := v1 x hx
  refine ⟨j0, j1, a1, a2, fun f hf => ?_⟩
  obtain ⟨bf, eb, lf, pf⟩ := a7 f hf
  obtain ⟨row, hrow, hlen⟩ := hev x hx j0 a1 f hf
  have hgd : j0.channel_data.getD f [] = row := by
    rw [List.getD_eq_getElem?_getD, hrow]
    rfl
  unfold frameBase at eb
  rw [channelsLoop_eq rot j0.channel_data f row hrow j0.channels_order 0 _ (by omega)] at eb
  simp only at eb
  have hl : j1.ltm[f]? =
      some (bf.1.mul ((j0.rotationsAt rot f).foldl Mat4.mul Mat4.identity)) ∧
      j1.pos[j0.pos.length + f]? = some bf.1.translation := by
    constructor
    · rw [lf]
      cases hp : j0.parent with
      | none =>
        rw [hp] at eb
        simp only [localBase, Option.some.injEq] at eb
        rw [← eb]
        simp only [Joint.rotationsAt, hgd]
      | some q =>
        rw [hp] at eb
        simp only [localBase] at eb
        cases hq : h1[q]? with
        | none => rw [hq] at eb; cases eb
        | some pj =>
          rw [hq] at eb
          simp only at eb
          cases hpl : pj.ltm[f]? with
          | none => rw [hpl] at eb; cases eb
          | some pl =>
            rw [hpl] at eb
            simp only [Option.some.injEq] at eb
            rw [← eb]
            simp only [Joint.rotationsAt, hgd]
    · rw [a3, List.getElem?_append_right (by omega), Nat.add_sub_cancel_left, pf]
  refine ⟨bf.1, fun hp => ?_, fun q hp => ?_, hl.1, hl.2⟩
  · rw [hp] at eb
    simp only [localBase, Option.some.injEq] at eb
    rw [← eb]
    simp only [Joint.axisTotal, hgd]
    rfl
  · rw [hp] at eb
    simp only [localBase] at eb
    cases hq : h1[q]? with
    | none => rw [hq] at eb; cases eb
    | some pj =>
      rw [hq] at eb
      simp only at eb
      cases hpl : pj.ltm[f]? with
      | none => rw [hpl] at eb; cases eb
      | some pl =>
        rw [hpl] at eb
        simp only [Option.some.injEq] at eb
        exact ⟨pj, pl, rfl, hpl, by rw [← eb]⟩

/-! ## What a failed parse leaves in the skeleton -/

/-- On an input that starts with `HIERARCHY ROOT` and a well-formed head of the root
joint, followed by at least one token, the root joint is in the flat list after `parse`,
whatever `parse` returns. -/
theorem parse_root_registered {F D : Type} (ng : NumGet F D) (u : Indet F D)
    (input name x y z n : List Char) (o : Offset F) (chans : List Channel) (t1 : List Char)
    (toks : List (List Char)) (rest : List Char)
    (hl : Lexes input (kHierarchy :: kRoot :: (headTokens name x y z n chans ++ (t1 :: toks)))
      rest)
    (ho : ReadsOffset ng x y z o) (hn : ng.int.Reads n chans.length)
    (heap : Heap F) (bvh : Bvh D) (ret : Int) (heap1 : Heap F) (bvh1 : Bvh D)
    (h : parse ng u (some input) heap bvh = some (ret, heap1, bvh1)) :
    ∃ l, bvh1.joints = bvh.joints ++ heap.length :: l := by
  have h0 := At.ofContent hl
  obtain ⟨e1, h1⟩ := getString_at h0 []
  have hg1 := h1.good (Or.inl (by simp))
  obtain ⟨e2, h2⟩ := getString_at h1 []
  have hlen1 := getString_length_le (IStream.ofContent input) []
  have hlen2 := getString_length_le (getString (IStream.ofContent input) []).1 []
  obtain ⟨r, hr, -⟩ := (parseJoint_childrenLoop_total ng u (2 * input.length + 2)).1 none
    ⟨(getString (getString (IStream.ofContent input) []).1 []).1, heap, bvh⟩
    (by simp only [IStream.ofContent] at hlen1 hlen2 ⊢; omega)
  obtain ⟨r0, root, st1⟩ := r
  have hjs : ∃ l, st1.bvh.joints = bvh.joints ++ heap.length :: l := by
    rw [parseJoint_succ] at hr
    obtain ⟨s1, e3, -, -, e5⟩ := parseJointHead_at ng u none
      ⟨(getString (getString (IStream.ofContent input) []).1 []).1, heap, bvh⟩
      name x y z n o chans t1 _ rest h2 ho hn
    rw [e3] at hr
    simp only at hr e5
    obtain ⟨-, -, -, l, el⟩ := (parse_extends ng u _).2 _ _ _ _ _ _ _ hr
    refine ⟨l, ?_⟩
    rw [el, e5]
    simp [Bvh.addJoint]
  rw [parse_eq, if_pos e1,
    parseHierarchy_root ng u _ ⟨(getString (IStream.ofContent input) []).1, heap, bvh⟩
      hg1 e2 r0 root st1 hr] at h
  obtain ⟨l, el⟩ := hjs
  refine ⟨l, ?_⟩
  split at h
  · simp only [Option.map_some', Option.some.injEq, Prod.mk.injEq] at h
    rw [← h.2.2, el]
  · simp only [Option.map_some', Option.some.injEq, Prod.mk.injEq] at h
    rw [← h.2.2, parseHierarchyMotion_joints]
    exact el

theorem parseMotion_failure {F D : Type} (ng : NumGet F D) (u : Indet F D)
    (st : PState F D) (hret : (parseMotion ng u st).1 ≠ 0) :
    (parseMotion ng u st).2.bvh.root_joint = st.bvh.root_joint ∧
    (parseMotion ng u st).2.bvh.frame_time = st.bvh.frame_time := by
  unfold parseMotion at hret ⊢
  simp only at hret ⊢
  split
  · rename_i h1
    rw [if_pos h1] at hret
    split
    · rename_i h2
      rw [if_pos h2] at hret
      exact absurd rfl hret
    · exact ⟨rfl, rfl⟩
  · exact ⟨rfl, rfl⟩

theorem parseHierarchyMotion_failure {F D : Type} (ng : NumGet F D) (u : Indet F D)
    (token : List Char) (st : PState F D)
    (hret : (parseHierarchyMotion ng u token st).1 ≠ 0) :
    (parseHierarchyMotion ng u token st).2.bvh.root_joint = st.bvh.root_joint ∧
    (parseHierarchyMotion ng u token st).2.bvh.frame_time = st.bvh.frame_time := by
  rw [parseHierarchyMotion_eq] at hret ⊢
  split
  · rename_i h1
    rw [if_pos h1] at hret
    split
    · rename_i h2
      rw [if_pos h2] at hret
      exact parseMotion_failure ng u _ hret
    · exact ⟨rfl, rfl⟩
  · rename_i h1
    rw [if_neg h1] at hret
    exact absurd rfl hret

/-- Function `parseMotion` on `Frames:`, a frame count and a token other than `Frame`:
it returns -1 after it has set the frame count. -/
theorem parseMotion_no_frame {F D : Type} (ng : NumGet F D) (u : Indet F D)
    (st : PState F D) (f t : List Char) (frames : Int) (toks : List (List Char))
    (rest : List Char) (h : At st.file (kFrames :: f :: t :: toks) rest)
    (hf : ng.int.Reads f frames) (ht : t ≠ kFrame) :
    (parseMotion ng u st).1 = -1 ∧
    (parseMotion ng u st).2.bvh = st.bvh.setNumFrames frames := by
  obtain ⟨e1, h1⟩ := getString_at h []
  obtain ⟨e2, h2⟩ := extract_at ng.int h1 u.frames_num _ hf
  obtain ⟨e3, -⟩ := getString_at h2 (getString st.file []).2
  unfold parseMotion
  simp only
  rw [if_pos e1, if_neg (by rw [e3]; exact ht), e2]
  exact ⟨rfl, rfl⟩

/-- After a well-formed hierarchy that something follows, a failed `parse` has all joints
of the hierarchy in the flat list and the root joint set; the frame time is as before. -/
theorem parse_hierarchy_kept {F D : Type} (ng : NumGet F D) (u : Indet F D)
    (input : List Char) (hier tail : List (List Char)) (rest : List Char)
    (infos : List (NodeInfo F)) (hl : Lexes input (kHierarchy :: (hier ++ tail)) rest)
    (hh : Hierarchy ng hier infos) (hne : tail ≠ [] ∨ rest ≠ [])
    (heap : Heap F) (bvh : Bvh D) (ret : Int) (heap1 : Heap F) (bvh1 : Bvh D)
    (h : parse ng u (some input) heap bvh = some (ret, heap1, bvh1)) (hret : ret ≠ 0) :
    bvh1.joints = bvh.joints ++ List.range' heap.length infos.length ∧
    bvh1.root_joint = some heap.length ∧ bvh1.frame_time = bvh.frame_time := by
  obtain ⟨r0, root, st1, hp, A, -⟩ := parse_hierarchy_wf ng u input hier tail rest infos hl hh
    heap bvh
  obtain ⟨a0, a1, -, a3, -, P⟩ := A hne
  subst a0 a1
  rw [if_neg (by simp), h] at hp
  simp only [Option.some.injEq, Prod.mk.injEq] at hp
  obtain ⟨e1, -, e3⟩ := hp
  rw [e1] at hret
  obtain ⟨f1, f2⟩ := parseHierarchyMotion_failure ng u kRoot
    ⟨st1.file, st1.heap, st1.bvh.setRootJoint (some heap.length)⟩ hret
  have f3 := parseHierarchyMotion_joints ng u kRoot
    ⟨st1.file, st1.heap, st1.bvh.setRootJoint (some heap.length)⟩
  rw [← e3] at f1 f2 f3
  refine ⟨?_, f1, ?_⟩
  · rw [f3]
    show st1.bvh.joints = _
    rw [P.joints, a3, Nat.add_sub_cancel_left]
  · rw [f2]
    exact P.time

/-- After a well-formed hierarchy, `MOTION`, `Frames:`, a frame count and a token other
than `Frame`, `parse` fails and the skeleton has all joints of the hierarchy in the flat
list, the root joint set and the frame count read. -/
theorem parse_frames_kept {F D : Type} (ng : NumGet F D) (u : Indet F D)
    (input : List Char) (hier : List (List Char)) (f t : List Char)
    (more : List (List Char)) (rest : List Char) (infos : List (NodeInfo F)) (frames : Int)
    (hl : Lexes input (kHierarchy :: (hier ++ (kMotion :: kFrames :: f :: t :: more))) rest)
    (hh : Hierarchy ng hier infos) (hf : ng.int.Reads f frames) (ht : t ≠ kFrame)
    (heap : Heap F) (bvh : Bvh D) (ret : Int) (heap1 : Heap F) (bvh1 : Bvh D)
    (h : parse ng u (some input) heap bvh = some (ret, heap1, bvh1)) :
    ret = -1 ∧
    bvh1 = ⟨bvh.joints ++ List.range' heap.length infos.length, some heap.length, frames,
      bvh.frame_time⟩ := by
  obtain ⟨r0, root, st1, hp, A, -⟩ := parse_hierarchy_wf ng u input hier _ rest infos hl hh
    heap bvh
  obtain ⟨a0, a1, a2, a3, -, P⟩ := A (Or.inl (by simp))
  subst a0 a1
  rw [if_neg (by simp), h] at hp
  simp only [Option.some.injEq, Prod.mk.injEq] at hp
  obtain ⟨e1, -, e3⟩ := hp
  obtain ⟨g1, g2⟩ := getString_at a2 kRoot
  obtain ⟨m1, m2⟩ := parseMotion_no_frame ng u
    ⟨(getString st1.file kRoot).1, st1.heap, st1.bvh.setRootJoint (some heap.length)⟩
    f t frames more rest g2 hf ht
  rw [parseHierarchyMotion_eq, if_pos P.good] at e1 e3
  simp only at e1 e3
  rw [if_pos g1] at e1 e3
  rw [m1] at e1
  rw [m2] at e3
  refine ⟨e1, ?_⟩
  have j1 := P.joints
  have j2 := P.time
  rw [a3, Nat.add_sub_cancel_left] at j1
  rw [e3, ← j1, ← j2]
  rfl

/-- C15, as the code has it: `parse` does not roll back. For every input on which it
returns a failure result, the flat list of the skeleton before the call is a prefix of
the flat list after it, and the skeleton is exactly as it was if no joint was added;
if the input has a well-formed head of the root joint followed by a token, the root
joint is in the flat list after the call; if it has a well-formed hierarchy that
something follows, all joints of the hierarchy are in the flat list, the root joint is
set and the frame time is as before; and if `MOTION`, `Frames:`, a frame count and a
token other than `Frame` follow the hierarchy, the skeleton has the frame count read. -/
theorem parse_failure_keeps {F D : Type} (ng : NumGet F D) (u : Indet F D)
    (input : List Char) (heap : Heap F) (bvh : Bvh D) (ret : Int)
    (heap1 : Heap F) (bvh1 : Bvh D)
    (h : parse ng u (some input) heap bvh = some (ret, heap1, bvh1)) (hret : ret ≠ 0) :
    ((∃ l, bvh1.joints = bvh.joints ++ l) ∧ (bvh1.joints = bvh.joints → bvh1 = bvh)) ∧
    (∀ (name x y z n : List Char) (o : Offset F) (chans : List Channel) (t1 : List Char)
        (toks : List (List Char)) (rest : List Char),
      Lexes input (kHierarchy :: kRoot :: (headTokens name x y z n chans ++ (t1 :: toks)))
        rest →
      ReadsOffset ng x y z o → ng.int.Reads n chans.length →
      ∃ l, bvh1.joints = bvh.joints ++ heap.length :: l) ∧
    (∀ (hier tail : List (List Char)) (rest : List Char) (infos : List (NodeInfo F)),
      Lexes input (kHierarchy :: (hier ++ tail)) rest → Hierarchy ng hier infos →
      (tail ≠ [] ∨ rest ≠ []) →
      bvh1.joints = bvh.joints ++ List.range' heap.length infos.length ∧
      bvh1.root_joint = some heap.length ∧ bvh1.frame_time = bvh.frame_time) ∧
    (∀ (hier : List (List Char)) (f t : List Char) (more : List (List Char))
        (rest : List Char) (infos : List (NodeInfo F)) (frames : Int),
      Lexes input (kHierarchy :: (hier ++ (kMotion :: kFrames :: f :: t :: more))) rest →
      Hierarchy ng hier infos → ng.int.Reads f frames → t ≠ kFrame →
      bvh1 = ⟨bvh.joints ++ List.range' heap.length infos.length, some heap.length, frames,
        bvh.frame_time⟩) :=
  ⟨parse_failure_frame ng u (some input) heap bvh ret heap1 bvh1 h hret,
    fun name x y z n o chans t1 toks rest hl ho hn =>
      parse_root_registered ng u input name x y z n o chans t1 toks rest hl ho hn heap bvh
        ret heap1 bvh1 h,
    fun hier tail rest infos hl hh hne =>
      parse_hierarchy_kept ng u input hier tail rest infos hl hh hne heap bvh ret heap1 bvh1
        h hret,
    fun hier f t more rest infos frames hl hh hf ht =>
      (parse_frames_kept ng u input hier f t more rest infos frames hl hh hf ht heap bvh ret
        heap1 bvh1 h).2⟩

/-! ## The theorems at sample inputs -/

theorem demo_tokens_ok : ∀ t ∈ demoToks, t ≠ [] ∧ ∀ c ∈ t, isspace c = false := by decide

theorem demo_hierarchy : Hierarchy refNumGet demoHier demoInfos :=
  Hierarchy.root _ _ _ _ _ _ _ _ _ (by decide) (by decide)
    (Children.joint _ _ _ _ _ _ _ _ _ [_] [] (by decide) (by decide)
      (Children.endSite _ _ _ _ _ _ (by decide) Children.close) Children.close)

theorem demo_header : MotionHeader refNumGet demoHeader 2 ⟨1, -1⟩ :=
  ⟨_, _, rfl, by decide, by decide⟩

theorem demo_nums : ReadsAll refNumGet demoNums demoVals :=
  List.Forall₂.cons (by decide) (List.Forall₂.cons (by decide) (List.Forall₂.cons (by decide)
    (List.Forall₂.cons (by decide) (List.Forall₂.cons (by decide) (List.Forall₂.cons
      (by decide) (List.Forall₂.cons (by decide) (List.Forall₂.cons (by decide)
        List.Forall₂.nil)))))))

theorem demo_wellformed : WellFormed refNumGet demoInput demoInfos 2 ⟨1, -1⟩ demoVals :=
  ⟨demoHier, demoHeader, demoNums, [], lexes_unwords demoToks demo_tokens_ok,
    by simp, demo_hierarchy, demo_header, demo_nums, by decide⟩

set_option maxRecDepth 100000 in
set_option maxHeartbeats 4000000 in
theorem demo_parse : parse refNumGet demoIndet (some demoInput) [] demoBvh0 =
    some (0, demoHeap, demoBvh) := by decide

theorem parse_wellformed_succeeds_witness :
    WellFormed refNumGet demoInput demoInfos 2 ⟨1, -1⟩ demoVals ∧
    ∃ heap1 bvh1, parse refNumGet demoIndet (some demoInput) [] demoBvh0 =
      some (0, heap1, bvh1) ∧ bvh1.root_joint ≠ none :=
  ⟨demo_wellformed, parse_wellformed_succeeds refNumGet demoIndet demoInput demoInfos 2
    ⟨1, -1⟩ demoVals [] demoBvh0 demo_wellformed⟩

theorem parse_joints_preorder_witness :
    parse refNumGet demoIndet (some demoInput) [] demoBvh0 = some (0, demoHeap, demoBvh) ∧
    PreOrder demoHeap demoBvh.root_joint.toList demoBvh.joints ∧ demoBvh.joints.Nodup :=
  ⟨demo_parse, parse_joints_preorder refNumGet demoIndet (some demoInput) [] demoBvh0
    demoHeap demoBvh rfl rfl demo_parse⟩

theorem parse_motion_layout_witness :
    WellFormed refNumGet demoInput demoInfos 2 ⟨1, -1⟩ demoVals ∧
    ∃ heap1 bvh1, parse refNumGet demoIndet (some demoInput) [] demoBvh0 =
        some (0, heap1, bvh1) ∧
      bvh1.num_frames = 2 ∧ bvh1.joints.length = demoInfos.length ∧
      ∀ k info, demoInfos[k]? = some info →
        ∃ id j, bvh1.joints[k]? = some id ∧ heap1[id]? = some j ∧
          j.channels_order = info.channels ∧
          ∀ f : Nat, (f : Int) < 2 →
            j.channel_data[f]? = some
              ((demoVals.drop (f * chanSum heap1 bvh1.joints +
                chanSum heap1 (bvh1.joints.take k))).take j.channels_order.length) :=
  ⟨demo_wellformed, parse_motion_layout refNumGet demoIndet demoInput demoInfos 2 ⟨1, -1⟩
    demoVals [] demoBvh0 rfl demo_wellformed⟩

theorem parse_schema_invariant_witness :
    parse refNumGet demoIndet (some demoInput) [] demoBvh0 = some (0, demoHeap, demoBvh) ∧
    ∀ x ∈ demoBvh.joints, ∃ j, demoHeap[x]? = some j ∧
      ∀ f : Nat, (f : Int) < demoBvh.num_frames →
        ∃ row, j.channel_data[f]? = some row ∧ row.length = j.channels_order.length :=
  ⟨demo_parse, parse_schema_invariant refNumGet demoIndet (some demoInput) [] demoBvh0
    demoHeap demoBvh rfl demo_parse⟩

theorem bare_hierarchy : Hierarchy refNumGet bareHier bareInfos :=
  Hierarchy.root _ _ _ _ _ _ _ _ _ (by decide) (by decide) Children.close

theorem one_hierarchy : Hierarchy refNumGet oneHier oneInfos :=
  Hierarchy.root _ _ _ _ _ _ _ _ _ (by decide) (by decide) Children.close

theorem bare_lexes : Lexes bareInput (kHierarchy :: (bareHier ++ [])) [] :=
  lexes_unwords _ (by decide)

theorem short_lexes :
    Lexes shortInput (kHierarchy :: (oneHier ++ (demoHeader ++ ["5".toList]))) [] :=
  lexes_unwords _ (by decide)

theorem short_nums : ReadsAll refNumGet ["5".toList] [⟨5, 0⟩] :=
  List.Forall₂.cons (by decide) List.Forall₂.nil

theorem parse_missing_motion_fails_witness :
    Lexes bareInput (kHierarchy :: (bareHier ++ [])) [] ∧
    ∃ ret heap1 bvh1, parse refNumGet demoIndet (some bareInput) [] demoBvh0 =
      some (ret, heap1, bvh1) ∧ ret ≠ 0 :=
  ⟨bare_lexes, parse_missing_motion_fails refNumGet demoIndet bareInput bareHier [] []
    bareInfos [] demoBvh0 bare_lexes bare_hierarchy (by simp) (by simp)⟩

set_option maxRecDepth 100000 in
set_option maxHeartbeats 4000000 in
/-- C7, the defect: the file `shortInput` has a well-formed hierarchy (one root with one
channel) and motion header (two frames), its motion data holds one number where two are
due, and `parse` returns 0 where the end of the input inside the motion block should
make it fail; the one number read fills both rows. -/
theorem parse_short_motion_accepted :
    (Lexes shortInput (kHierarchy :: (oneHier ++ (demoHeader ++ ["5".toList]))) [] ∧
      Hierarchy refNumGet oneHier oneInfos ∧ MotionHeader refNumGet demoHeader 2 ⟨1, -1⟩ ∧
      ReadsAll refNumGet ["5".toList] [⟨5, 0⟩] ∧
      [(⟨5, 0⟩ : Dec)].length < (2 : Int).toNat * infoSum oneInfos) ∧
    parse refNumGet demoIndet (some shortInput) [] demoBvh0 =
      some (0, shortHeap, shortBvh) :=
  ⟨⟨short_lexes, one_hierarchy, demo_header, short_nums, by decide⟩, by decide⟩

theorem parse_short_motion_succeeds_witness :
    [(⟨5, 0⟩ : Dec)].length < (2 : Int).toNat * infoSum oneInfos ∧
    ∃ heap1 bvh1, parse refNumGet demoIndet (some shortInput) [] demoBvh0 =
      some (0, heap1, bvh1) :=
  ⟨by decide, parse_short_motion_succeeds refNumGet demoIndet shortInput oneHier demoHeader
    ["5".toList] [] oneInfos 2 ⟨1, -1⟩ [⟨5, 0⟩] [] demoBvh0 short_lexes (by simp)
    one_hierarchy demo_header short_nums (by decide)⟩

set_option maxRecDepth 100000 in
set_option maxHeartbeats 4000000 in
/-- C8, the defect: in the file `strayInput` the token `FOO` stands in the body of the
root joint where `JOINT`, `End` or the closing brace is expected; `parse` skips it and
returns 0 with the root registered. -/
theorem parse_stray_token_skipped :
    parse refNumGet demoIndet (some strayInput) [] demoBvh0 =
      some (0, strayHeap, strayBvh) := by decide

theorem parse_no_hierarchy_witness :
    firstToken "ROOT hip".toList ≠ kHierarchy ∧
    parse refNumGet demoIndet (some "ROOT hip".toList) [] demoBvh0 =
      some (-1, [], demoBvh0) :=
  ⟨by decide, parse_no_hierarchy refNumGet demoIndet "ROOT hip".toList [] demoBvh0
    (by decide)⟩

theorem solo_tree : Forest soloHeap none [0] [0] :=
  Forest.cons none 0 soloRoot [] [] [] rfl rfl (Forest.nil _) (Forest.nil _)

theorem solo_evaluable : Evaluable soloBvh.num_frames.toNat soloHeap [0] := by
  intro x hx j hj i hi
  rw [List.mem_singleton] at hx
  subst hx
  have e : j = soloRoot := (Option.some.inj hj).symm
  subst e
  have hi3 : i < 3 := hi
  interval_cases i
  · exact ⟨_, rfl, by decide⟩
  · exact ⟨_, rfl, by decide⟩
  · exact ⟨_, rfl, by decide⟩

theorem recalculate_root_position_witness :
    (∃ heap1 j1, soloBvh.recalculateJoints soloRot 2 soloHeap none = Outcome.ok heap1 ∧
      heap1[0]? = some j1 ∧
      j1.pos = soloRoot.pos ++ (List.range soloBvh.num_frames.toNat).map (fun f =>
        (⟨soloRoot.sample Channel.XPOSITION f, soloRoot.sample Channel.YPOSITION f,
          soloRoot.sample Channel.ZPOSITION f⟩ : Vec3 Int))) ∧
    soloRoot.pos ++ (List.range soloBvh.num_frames.toNat).map (fun f =>
        (⟨soloRoot.sample Channel.XPOSITION f, soloRoot.sample Channel.YPOSITION f,
          soloRoot.sample Channel.ZPOSITION f⟩ : Vec3 Int)) =
      [⟨1, 0, 0⟩, ⟨0, 1, 0⟩, ⟨0, 0, 1⟩] :=
  ⟨recalculate_root_position soloRot 2 soloBvh soloHeap 0 soloRoot [0] rfl rfl solo_tree
    (by decide) solo_evaluable (by decide) rfl (by decide) (by decide), by decide⟩

/-! ## The later theorems at sample inputs -/

theorem bad_lexes : Lexes badInput (kHierarchy :: badHier) [] :=
  lexes_unwords _ (by decide)

theorem bad_hierarchy : HierarchyUpTo refNumGet (BadChannels refNumGet) badHier :=
  HierarchyUpTo.inside _ _ _ _ _ ⟨⟨0, 0⟩, ⟨0, 0⟩, ⟨0, 0⟩⟩ [] _ (by decide) (by decide)
    (ChildrenUpTo.here _
      (BadChannels.intro "leg".toList "0".toList "1".toList "0".toList "2".toList
        ⟨⟨0, 0⟩, ⟨1, 0⟩, ⟨0, 0⟩⟩ 2 [Channel.XROTATION] "Wrotation".toList [kClose, kClose]
        (by decide) (by decide) (by decide) (by decide)))

theorem parse_bad_channel_fails_witness :
    (Lexes badInput (kHierarchy :: badHier) [] ∧
      HierarchyUpTo refNumGet (BadChannels refNumGet) badHier) ∧
    ∃ heap1 bvh1, parse refNumGet demoIndet (some badInput) [] demoBvh0 =
      some (-1, heap1, bvh1) :=
  ⟨⟨bad_lexes, bad_hierarchy⟩,
    parse_bad_channel_fails refNumGet demoIndet badInput badHier [] bad_lexes bad_hierarchy
      [] demoBvh0⟩

set_option maxRecDepth 100000 in
set_option maxHeartbeats 4000000 in
/-- C12, the defect: in the file `twiceInput` the body of the root has a second `OFFSET`
section, after its `CHANNELS` declaration; `parse` skips the four tokens and returns 0
with the root registered and its first offset kept. -/
theorem parse_second_offset_skipped :
    parse refNumGet demoIndet (some twiceInput) [] demoBvh0 =
      some (0, twiceHeap, twiceBvh) := by decide

theorem demo_hierarchy_at : HierarchyAt refNumGet demoHier demoInfos demoSites :=
  HierarchyAt.root _ _ _ _ _ _ _ _ _ _ (by decide) (by decide)
    (ChildrenAt.joint 0 1 _ _ _ _ _ _ _ _ _ [_] [] _ [] (by decide) (by decide)
      (ChildrenAt.endSite 1 2 _ _ _ _ _ _ _ (by decide) (ChildrenAt.close 1 3))
      (ChildrenAt.close 0 3))

theorem demo_wellformed_at :
    WellFormedAt refNumGet demoInput demoInfos demoSites 2 ⟨1, -1⟩ demoVals :=
  ⟨demoHier, demoHeader, demoNums, [], lexes_unwords demoToks demo_tokens_ok,
    by simp, demo_hierarchy_at, demo_header, demo_nums, by decide⟩

theorem parse_end_sites_witness :
    WellFormedAt refNumGet demoInput demoInfos demoSites 2 ⟨1, -1⟩ demoVals ∧
    ∃ heap1 bvh1, parse refNumGet demoIndet (some demoInput) [] demoBvh0 =
        some (0, heap1, bvh1) ∧
      bvh1.num_frames = 2 ∧
      ∀ s ∈ demoSites, ∃ (id p : Nat) (j pj : Joint Dec),
        bvh1.joints[s.pos]? = some id ∧ bvh1.joints[s.encl]? = some p ∧
        heap1[id]? = some j ∧ heap1[p]? = some pj ∧ j.parent = some p ∧
        id ∈ pj.children ∧ j.offset = s.offset ∧ j.channels_order = [] ∧
        j.children = [] ∧ ∀ f : Nat, (f : Int) < 2 → j.channel_data[f]? = some [] :=
  ⟨demo_wellformed_at, parse_end_sites refNumGet demoIndet demoInput demoInfos demoSites 2
    ⟨1, -1⟩ demoVals [] demoBvh0 rfl demo_wellformed_at⟩

/-- One run of the evaluator on `soloHeap`. -/
theorem solo_once :
    soloBvh.recalculateJoints soloRot 1 soloHeap none = Outcome.ok soloOnce := by decide

/-- A second run on the result of the first: the transforms are those of the first run;
with `set_pos` modelled as append the three positions are stored a second time behind
the first three, whose entries are unchanged. -/
theorem solo_twice :
    soloBvh.recalculateJoints soloRot 1 soloOnce none = Outcome.ok soloTwice := by decide

set_option maxRecDepth 100000 in
set_option maxHeartbeats 4000000 in
theorem half_parse :
    parse refNumGet demoIndet (some halfInput) [] demoBvh0 =
      some (-1, halfHeap, halfBvh) := by decide

/-- C15, counterexample: on the file `halfInput` the hierarchy and the frame count
are read before the motion header is found wrong; `parse` returns -1 and the skeleton
has the root in its flat list, the root joint set and the frame count 5. -/
theorem parse_failure_keeps_counterexample :
    parse refNumGet demoIndet (some halfInput) [] demoBvh0 =
      some (-1, halfHeap, halfBvh) ∧
    halfBvh.joints = [0] ∧ halfBvh.root_joint = some 0 ∧ halfBvh.num_frames = 5 ∧
    halfBvh ≠ demoBvh0 :=
  ⟨half_parse, rfl, rfl, rfl, by decide⟩

theorem half_lexes :
    Lexes halfInput
      (kHierarchy :: (bareHier ++ (kMotion :: kFrames :: "5".toList :: "Foo".toList :: [])))
      [] :=
  lexes_unwords _ (by decide)

theorem parse_failure_keeps_witness :
    (parse refNumGet demoIndet (some halfInput) [] demoBvh0 =
        some (-1, halfHeap, halfBvh) ∧ (-1 : Int) ≠ 0 ∧
      Lexes halfInput
        (kHierarchy :: (bareHier ++ (kMotion :: kFrames :: "5".toList :: "Foo".toList :: [])))
        [] ∧
      Hierarchy refNumGet bareHier bareInfos ∧ refNumGet.int.Reads "5".toList 5 ∧
      "Foo".toList ≠ kFrame) ∧
    halfBvh = ⟨demoBvh0.joints ++ List.range' ([] : Heap Dec).length bareInfos.length,
      some ([] : Heap Dec).length, 5, demoBvh0.frame_time⟩ :=
  ⟨⟨half_parse, by decide, half_lexes, bare_hierarchy, by decide, by decide⟩,
    (parse_failure_keeps refNumGet demoIndet halfInput [] demoBvh0 (-1) halfHeap halfBvh
      half_parse (by decide)).2.2.2 bareHier "5".toList "Foo".toList [] [] bareInfos 5
      half_lexes bare_hierarchy (by decide) (by decide)⟩

theorem recalculate_no_root_witness :
    demoBvh0.root_joint = none ∧
    demoBvh0.recalculateJoints soloRot 0 soloHeap none = Outcome.ok soloHeap :=
  ⟨rfl, recalculate_no_root soloRot 0 demoBvh0 soloHeap rfl⟩

theorem pair_tree : Forest pairHeap none [0] [0, 1] :=
  Forest.cons none 0 pairRoot [] [1] [] rfl rfl
    (Forest.cons (some 0) 1 pairArm [] [] [] rfl rfl (Forest.nil _) (Forest.nil _))
    (Forest.nil _)

theorem pair_evaluable : Evaluable pairBvh.num_frames.toNat pairHeap [0, 1] := by
  intro x hx j hj i hi
  have hi1 : i < 1 := hi
  have hi0 : i = 0 := by omega
  subst hi0
  simp only [List.mem_cons, List.mem_singleton, List.not_mem_nil, or_false] at hx
  rcases hx with rfl | rfl
  · have e : j = pairRoot := (Option.some.inj hj).symm
    subst e
    exact ⟨_, rfl, by decide⟩
  · have e : j = pairArm := (Option.some.inj hj).symm
    subst e
    exact ⟨_, rfl, by decide⟩

theorem pair_same : ∀ x ∈ [0, 1], ∀ ja, pairHeap[x]? = some ja →
    ∃ jb, pairHeapMoved[x]? = some jb ∧ SameButPosition ja jb := by
  intro x hx ja hja
  simp only [List.mem_cons, List.mem_singleton, List.not_mem_nil, or_false] at hx
  rcases hx with rfl | rfl
  · have e : ja = pairRoot := (Option.some.inj hja).symm
    subst e
    exact ⟨pairRoot, rfl, SameButPosition.of_skel rfl rfl rfl rfl rfl⟩
  · have e : ja = pairArm := (Option.some.inj hja).symm
    subst e
    refine ⟨pairArmMoved, rfl, rfl, rfl, rfl, rfl, rfl, fun f rowa rowb ea eb => ?_⟩
    cases f with
    | succ f => cases ea
    | zero =>
      have e1 : rowa = [5, 3] := (Option.some.inj ea).symm
      have e2 : rowb = [7, 3] := (Option.some.inj eb).symm
      subst e1 e2
      refine ⟨rfl, fun i hi => ?_⟩
      cases i with
      | zero => exact absurd (hi Channel.XPOSITION rfl (by decide)) (by decide)
      | succ i => rfl

theorem spin_tree : Forest spinHeap none [0] [0, 1] :=
  Forest.cons none 0 spinRoot [] [1] [] rfl rfl
    (Forest.cons (some 0) 1 spinArm [] [] [] rfl rfl (Forest.nil _) (Forest.nil _))
    (Forest.nil _)

theorem spin_evaluable : Evaluable spinBvh.num_frames.toNat spinHeap [0, 1] := by
  intro x hx j hj i hi
  have hi2 : i < 2 := hi
  simp only [List.mem_cons, List.mem_singleton, List.not_mem_nil, or_false] at hx
  rcases hx with rfl | rfl
  · have e : j = spinRoot := (Option.some.inj hj).symm
    subst e
    interval_cases i
    · exact ⟨_, rfl, by decide⟩
    · exact ⟨_, rfl, by decide⟩
  · have e : j = spinArm := (Option.some.inj hj).symm
    subst e
    interval_cases i
    · exact ⟨_, rfl, by decide⟩
    · exact ⟨_, rfl, by decide⟩

/-- The rotation matrices of the root of `spinHeap` in frame 0, one per rotational
channel, and the product that the code forms of them. -/
theorem spin_rotations :
    spinRoot.rotationsAt spinRot 0 =
      [spinRot 3 ⟨0, 0, 1⟩, spinRot 5 ⟨1, 0, 0⟩, spinRot 7 ⟨0, 1, 0⟩] ∧
    (spinRoot.rotationsAt spinRot 0).foldl Mat4.mul Mat4.identity =
      ⟨⟨1, 3, 0, 0⟩, ⟨0, 1, 5, 0⟩, ⟨7, 21, 1, 0⟩, ⟨0, 0, 0, 1⟩⟩ := by decide

theorem recalculate_transforms_witness :
    (spinBvh.root_joint = some 0 ∧ Forest spinHeap none [0] [0, 1] ∧
      Evaluable spinBvh.num_frames.toNat spinHeap [0, 1]) ∧
    ∃ heap1, spinBvh.recalculateJoints spinRot 2 spinHeap none = Outcome.ok heap1 ∧
      ∀ x ∈ [0, 1], ∃ j j1, spinHeap[x]? = some j ∧ heap1[x]? = some j1 ∧
        ∀ f, f < spinBvh.num_frames.toNat → ∃ B : Mat4 Int,
          (j.parent = none →
            B = (offsetMatrix ⟨j.axisTotal Channel.XPOSITION f,
              j.axisTotal Channel.YPOSITION f, j.axisTotal Channel.ZPOSITION f⟩).mul
                (offsetMatrix j.offset)) ∧
          (∀ q, j.parent = some q → ∃ pj1 P, heap1[q]? = some pj1 ∧ pj1.ltm[f]? = some P ∧
            B = P.mul (offsetMatrix j.offset)) ∧
          j1.ltm[f]? =
            some (B.mul ((j.rotationsAt spinRot f).foldl Mat4.mul Mat4.identity)) ∧
          j1.pos[j.pos.length + f]? = some B.translation :=
  ⟨⟨rfl, spin_tree, spin_evaluable⟩,
    recalculate_transforms spinRot 2 spinBvh spinHeap 0 [0, 1] rfl spin_tree (by decide)
      spin_evaluable (by decide)⟩

theorem recalculate_ignores_positions_witness :
    (pairBvh.root_joint = some 0 ∧ Forest pairHeap none [0] [0, 1] ∧
      Evaluable pairBvh.num_frames.toNat pairHeap [0, 1] ∧ pairHeapMoved ≠ pairHeap) ∧
    ∃ ha1 hb1, pairBvh.recalculateJoints soloRot 2 pairHeap none = Outcome.ok ha1 ∧
      pairBvh.recalculateJoints soloRot 2 pairHeapMoved none = Outcome.ok hb1 ∧
      ∀ x ∈ [0, 1], ∃ (ja jb ja1 jb1 : Joint Int) (ps : List (Vec3 Int)),
        pairHeap[x]? = some ja ∧ pairHeapMoved[x]? = some jb ∧ ha1[x]? = some ja1 ∧
        hb1[x]? = some jb1 ∧ ps.length = pairBvh.num_frames.toNat ∧
        ja1.pos = ja.pos ++ ps ∧ jb1.pos = jb.pos ++ ps ∧
        ∀ f, f < pairBvh.num_frames.toNat →
          ∃ m, ja1.ltm[f]? = some m ∧ jb1.ltm[f]? = some m :=
  ⟨⟨rfl, pair_tree, pair_evaluable, by decide⟩,
    recalculate_ignores_positions soloRot 2 pairBvh pairHeap pairHeapMoved 0 [0, 1] rfl
      pair_tree (by decide) pair_evaluable (by decide) pair_same⟩

theorem recalculate_in_range_witness :
    parse refNumGet demoIndet (some demoInput) [] demoBvh0 = some (0, demoHeap, demoBvh) ∧
    (∀ x ∈ demoBvh.joints, ∃ j, demoHeap[x]? = some j ∧ j.ltm = []) ∧
    ∃ heap2, demoBvh.recalculateJoints decRot 3 demoHeap none = Outcome.ok heap2 :=
  ⟨demo_parse, recalculate_in_range refNumGet demoIndet decRot (some demoInput) [] demoBvh0
    demoHeap demoBvh 3 rfl rfl demo_parse (by decide)⟩

theorem parse_parent_child_witness :
    parse refNumGet demoIndet (some demoInput) [] demoBvh0 = some (0, demoHeap, demoBvh) ∧
    (∀ r, demoBvh.root_joint = some r → ∃ j, demoHeap[r]? = some j ∧ j.parent = none) ∧
    (∀ x ∈ demoBvh.joints, ∃ j, demoHeap[x]? = some j ∧
      ∀ c ∈ j.children, c ∈ demoBvh.joints ∧
        ∃ cj, demoHeap[c]? = some cj ∧ cj.parent = some x) ∧
    (∀ x ∈ demoBvh.joints, demoBvh.root_joint ≠ some x →
      ∃ j p pj, demoHeap[x]? = some j ∧ j.parent = some p ∧ p ∈ demoBvh.joints ∧
        demoHeap[p]? = some pj ∧ pj.children.count x = 1) :=
  ⟨demo_parse, parse_parent_child refNumGet demoIndet (some demoInput) [] demoBvh0 demoHeap
    demoBvh rfl rfl demo_parse⟩

end bvh
